import Mathlib

/-!
# Parallel two-way merge (thrust/detail/device/cuda/merge.inl)

A shallow embedding of the CUDA merge of Thrust and of the helpers it calls.

Conventions of the embedding.

* A random-access iterator over values of type `α` is a function `Nat → α`:
  `first i` is `first[i]`, the element `i` places after the iterator.  A range
  `[first, last)` is an iterator together with its length `n = last - first`.
  An iterator can be read at any offset, also past `last`: what is read there is
  whatever the underlying storage holds (the range may be a part of a larger
  array).
* The output storage is a function `Nat → α` together with the position
  `result` of the output iterator in it; writing returns the new storage.
* Sizes and index differences are natural numbers; they are bounded by the
  size of the address space, so machine overflow plays no role.  A range whose
  end lies before its beginning has no elements, and copying it writes nothing.
* The thread blocks of a kernel launch are run one after the other, in the
  order of their block index; `merge_kernel_launch` runs them in any given
  order of the block indices.
-/

set_option maxRecDepth 100000

namespace thrust

variable {α β : Type}

/-! ## Ranges and the copy primitives -/

/-- The list of the `n` elements read through `first` from offset `b` on:
the range `[first + b, first + b + n)`. -/
def load (first : Nat → α) (b n : Nat) : List α :=
  (List.range n).map (fun i => first (b + i))

/-- Modelled from the spec: `thrust::copy` is not under src/; by §6 it is the
bounded block copy used for the degenerate full-copy paths.  It writes the
elements of the source range to consecutive positions of the output from
`result` on and returns the position after the last one written. -/
def copy (src : List α) (out : Nat → α) (result : Nat) : (Nat → α) × Nat :=
  (fun p => if p < result then out p else src.getD (p - result) (out p),
   result + src.length)

/-- Modelled from the spec: `thrust::tuple`'s `operator<`, which
`thrust::less` applies to the (value, counter) pairs, is not under src/; it is
the lexicographic comparison built from the `operator<` of the components. -/
def tuple_less (less : α → α → Bool) (lhs rhs : α × Nat) : Bool :=
  less lhs.1 rhs.1 || (!less rhs.1 lhs.1 && decide (lhs.2 < rhs.2))

/-- Auxiliary loop of `two_way_merge`: merges `x :: xs` with the second run,
where `rest` merges `xs` with what is left of the second run. -/
def two_way_merge_aux (comp : β → β → Bool) (x : β) (rest : List β → List β) :
    List β → List β
  | [] => x :: rest []
  | y :: ys =>
    if comp y x then y :: two_way_merge_aux comp x rest ys else x :: rest (y :: ys)

/-- Modelled from the spec: the sequential two-way merge of §4.4 (block::merge
and scalar::select are not under src/).  It compares the heads of the two
runs, emits the lesser, the head of the first run on a tie, and once one run
is exhausted copies the remainder of the other. -/
def two_way_merge (comp : β → β → Bool) : List β → List β → List β
  | [] => fun ys => ys
  | x :: xs => two_way_merge_aux comp x (two_way_merge comp xs)

namespace block

/-- Modelled from the spec: `block::copy` is not under src/; it is the bounded
block copy of §6, used for the scratch loads and stores. -/
def copy (src : List α) (out : Nat → α) (result : Nat) : (Nat → α) × Nat :=
  thrust.copy src out result

/-- Modelled from the spec: `block::merge` is not under src/; it is the Local
Merge Primitive of §4.4, applied to the two runs held in scratch. -/
def merge (comp : α → α → Bool) (s_input1 s_input2 : List α) : List α :=
  two_way_merge comp s_input1 s_input2

end block

/-! ## Binary search -/

namespace scalar

/-- Modelled from the spec: the loop of the binary search `lower_bound`;
`fuel` bounds the number of iterations. -/
def lower_bound_loop (comp : β → β → Bool) (it : Nat → β) (val : β) :
    Nat → Nat → Nat → Nat
  | 0, first, _ => first
  | fuel + 1, first, len =>
    if len = 0 then first
    else
      let half := len / 2
      let middle := first + half
      if comp (it middle) val then
        lower_bound_loop comp it val fuel (middle + 1) (len - half - 1)
      else
        lower_bound_loop comp it val fuel first half

/-- Modelled from the spec: the binary-search primitive `lower_bound` of §6 is
not under src/.  It halves the range `[0, n)` of `it` until it is empty and
returns the first position whose element does not compare before `val`. -/
def lower_bound (comp : β → β → Bool) (it : Nat → β) (n : Nat) (val : β) : Nat :=
  lower_bound_loop comp it val n 0 n

/-- Modelled from the spec: the loop of the binary search `upper_bound`;
`fuel` bounds the number of iterations. -/
def upper_bound_loop (comp : β → β → Bool) (it : Nat → β) (val : β) :
    Nat → Nat → Nat → Nat
  | 0, first, _ => first
  | fuel + 1, first, len =>
    if len = 0 then first
    else
      let half := len / 2
      let middle := first + half
      if comp val (it middle) then
        upper_bound_loop comp it val fuel first half
      else
        upper_bound_loop comp it val fuel (middle + 1) (len - half - 1)

/-- Modelled from the spec: the binary-search primitive `upper_bound` of §6 is
not under src/.  It halves the range `[0, n)` of `it` until it is empty and
returns the first position whose element compares after `val`. -/
def upper_bound (comp : β → β → Bool) (it : Nat → β) (n : Nat) (val : β) : Nat :=
  upper_bound_loop comp it val n 0 n

/-- The loop of `scalar::is_sorted`: `first` and `next` are the offsets of the
two iterators, `last` is the end of the range; `fuel` bounds the number of
iterations. -/
def is_sorted_loop (comp : α → α → Bool) (it : Nat → α) (last : Nat) : Nat → Nat → Nat → Bool
  | 0, _, _ => true
  | fuel + 1, first, next =>
    if next < last then
      if comp (it next) (it first) then false
      else is_sorted_loop comp it last fuel (first + 1) (next + 1)
    else true

/-- The function `scalar::is_sorted` on the range `[it, it + n)`: `next`
starts one place after `first`, and the loop returns false at the first
element that compares before its predecessor. -/
def is_sorted (comp : α → α → Bool) (it : Nat → α) (n : Nat) : Bool :=
  is_sorted_loop comp it n n 0 1

end scalar

/-- Modelled from the spec: the vectorized `thrust::lower_bound` is not under
src/; by §4.2 it writes, for every value, its lower-bound rank in the range. -/
def lower_bound (comp : β → β → Bool) (it : Nat → β) (n : Nat) (values : List β) :
    List Nat :=
  values.map (scalar.lower_bound comp it n)

/-- Modelled from the spec: the vectorized `thrust::upper_bound` is not under
src/; by §4.2 it writes, for every value, its upper-bound rank in the range. -/
def upper_bound (comp : β → β → Bool) (it : Nat → β) (n : Nat) (values : List β) :
    List Nat :=
  values.map (scalar.upper_bound comp it n)

namespace merge_detail

/-- The function `ceil_div`. -/
def ceil_div (up down : Nat) : Nat :=
  let div := up / down
  let rem := up % down
  if rem ≠ 0 then div + 1 else div

/-- The functor `mult_by`. -/
def mult_by (value v : Nat) : Nat := value * v

/-- The iterator `make_leapfrog_iterator init leap_size`: a counting iterator
from `init` transformed by `mult_by leap_size`. -/
def make_leapfrog_iterator (init leap_size : Nat) : Nat → Nat :=
  fun i => mult_by leap_size (init + i)

/-- The iterator `make_splitter_iterator iter split_size`: `iter` permuted
by the leapfrog iterator, so that its element `i` is `iter[i * split_size]`. -/
def make_splitter_iterator (iter : Nat → β) (split_size : Nat) : Nat → β :=
  fun i => iter (make_leapfrog_iterator 0 split_size i)

/-- The functor `strong_compare`, applied to (value, counter) pairs. -/
def strong_compare (comp : α → α → Bool) (lhs rhs : α × Nat) : Bool :=
  if comp lhs.1 rhs.1 then true else decide (lhs.2 < rhs.2)

/-- The zip of an iterator with a counting iterator that starts at `start`. -/
def zip_counter (first : Nat → α) (start : Nat) : Nat → α × Nat :=
  fun i => (first i, start + i)

/-- The range of the iterator `make_merge_iterator` over the two splitter
ranges: its element `k` is `select_functor` at `k`, which calls
`scalar::select` with `thrust::less` of the pairs.  Modelled from the spec:
`scalar::select` is not under src/; by §4.1 the elements it selects are those
of the ordinary sequential two-way merge of the two ranges. -/
def make_merge_iterator (less : α → α → Bool) (range1 range2 : List (α × Nat)) :
    List (α × Nat) :=
  two_way_merge (tuple_less less) range1 range2

/-- The range `[splitters1_begin, splitters1_end)` (and likewise for the
second input): the elements `partition_size, 2 * partition_size, ...` of the
zipped range, `num_splitters` of them. -/
def splitters_of (first_and_counter : Nat → α × Nat) (partition_size num_splitters : Nat) :
    List (α × Nat) :=
  load (make_splitter_iterator first_and_counter partition_size) 1 num_splitters

/-- The offset at which the input of partition `partition_idx` begins: the
rank of the preceding splitter, or the beginning of the range for the first
block (`first += dereference(temp)` after `--temp`). -/
def partition_begin (splitter_ranks : List Nat) (partition_idx : Nat) : Nat :=
  if partition_idx ≠ 0 then splitter_ranks.getD (partition_idx - 1) 0 else 0

/-- The offset at which the input of partition `partition_idx` ends: the rank
of its splitter, or the end `last` of the range for the last block
(`last = first + dereference(temp)`). -/
def partition_end (splitter_ranks : List Nat) (last gridDim partition_idx : Nat) : Nat :=
  if partition_idx ≠ gridDim - 1 then splitter_ranks.getD partition_idx 0 else last

/-- The kernel `merge_kernel`, run by the block `blockIdx` of a grid of
`gridDim` blocks.  The input iterators are `first1`, `first2` with the ends
`last1`, `last2` given as offsets; the output iterator is position `result` of
`out`.  The result is the output storage after the block has run. -/
def merge_kernel (block_size : Nat) (gridDim blockIdx : Nat)
    (first1 : Nat → α) (last1 : Nat) (first2 : Nat → α) (last2 : Nat)
    (splitter_ranks1 splitter_ranks2 : List Nat)
    (out : Nat → α) (result : Nat) (comp : α → α → Bool) : Nat → α :=
  let partition_idx := blockIdx
  -- find the end of the input if this is not the last block
  let last1 := partition_end splitter_ranks1 last1 gridDim partition_idx
  let last2 := partition_end splitter_ranks2 last2 gridDim partition_idx
  -- find the beginning of the input and output if this is not the first block
  let begin1 := partition_begin splitter_ranks1 partition_idx
  let begin2 := partition_begin splitter_ranks2 partition_idx
  let result := result + begin1 + begin2
  if begin1 < last1 ∧ begin2 < last2 then
    -- load the first segment
    let s_input1_size := min block_size (last1 - begin1)
    let s_input1 := load first1 begin1 s_input1_size
    let begin1 := begin1 + s_input1_size
    -- load the second segment
    let s_input2_size := min block_size (last2 - begin2)
    let s_input2 := load first2 begin2 s_input2_size
    let begin2 := begin2 + s_input2_size
    let s_result := block.merge comp s_input1 s_input2
    -- store to gmem
    let stored := block.copy s_result out result
    -- simply copy any remaining input
    let copied1 := block.copy (load first1 begin1 (last1 - begin1)) stored.1 stored.2
    (block.copy (load first2 begin2 (last2 - begin2)) copied1.1 copied1.2).1
  else
    -- simply copy any remaining input
    let copied1 := block.copy (load first1 begin1 (last1 - begin1)) out result
    (block.copy (load first2 begin2 (last2 - begin2)) copied1.1 copied1.2).1

/-- The merged splitters `[splitters_begin, splitters_end)` of `merge`. -/
def splitters (partition_size : Nat) (less : α → α → Bool)
    (first1 : Nat → α) (n1 : Nat) (first2 : Nat → α) : List (α × Nat) :=
  let num_partitions := ceil_div n1 partition_size
  let num_splitters_from_each_range := num_partitions - 1
  let first_and_counter1 := zip_counter first1 0
  let first_and_counter2 := zip_counter first2 n1
  make_merge_iterator less
    (splitters_of first_and_counter1 partition_size num_splitters_from_each_range)
    (splitters_of first_and_counter2 partition_size num_splitters_from_each_range)

/-- The buffer `splitter_ranks1` of `merge`: the upper bound of every
splitter in the first input. -/
def splitter_ranks1 (partition_size : Nat) (less comp : α → α → Bool)
    (first1 : Nat → α) (n1 : Nat) (first2 : Nat → α) : List Nat :=
  upper_bound (strong_compare comp) (zip_counter first1 0) n1
    (splitters partition_size less first1 n1 first2)

/-- The buffer `splitter_ranks2` of `merge`: the lower bound of every
splitter in the second input. -/
def splitter_ranks2 (partition_size : Nat) (less comp : α → α → Bool)
    (first1 : Nat → α) (n1 : Nat) (first2 : Nat → α) (n2 : Nat) : List Nat :=
  lower_bound (strong_compare comp) (zip_counter first2 n1) n2
    (splitters partition_size less first1 n1 first2)

end merge_detail

open merge_detail

/-- The function `merge` with the block size as a parameter (the source fixes
it to 128, see `merge`).  `less` is the `operator<` of the value type, which
`select_functor` uses through `thrust::less`; `comp` is the comparator of the
caller.  The inputs are `[first1, first1 + n1)` and `[first2, first2 + n2)`;
the result is the output storage and the returned output position. -/
def merge_with (block_size : Nat) (less comp : α → α → Bool)
    (first1 : Nat → α) (n1 : Nat) (first2 : Nat → α) (n2 : Nat)
    (out : Nat → α) (result : Nat) : (Nat → α) × Nat :=
  let num_elements1 := n1
  let num_elements2 := n2
  -- check for trivial problem
  if num_elements1 = 0 ∧ num_elements2 = 0 then (out, result)
  else if num_elements2 = 0 then copy (load first1 0 n1) out result
  else if num_elements1 = 0 then copy (load first2 0 n2) out result
  else
    let partition_size := block_size
    let num_partitions := ceil_div num_elements1 partition_size
    let num_splitters_from_each_range := num_partitions - 1
    let num_merged_partitions := 2 * num_splitters_from_each_range + 1
    let ranks1 := splitter_ranks1 partition_size less comp first1 n1 first2
    let ranks2 := splitter_ranks2 partition_size less comp first1 n1 first2 n2
    ((List.range num_merged_partitions).foldl
        (fun o blockIdx =>
          merge_kernel block_size num_merged_partitions blockIdx
            first1 n1 first2 n2 ranks1 ranks2 o result comp)
        out,
     result + num_elements1 + num_elements2)

/-- The function `merge`: `block_size` is 128. -/
def merge (less comp : α → α → Bool)
    (first1 : Nat → α) (n1 : Nat) (first2 : Nat → α) (n2 : Nat)
    (out : Nat → α) (result : Nat) : (Nat → α) × Nat :=
  merge_with 128 less comp first1 n1 first2 n2 out result

/-- The output sequence of a call: what the storage holds from the output
position `result` up to the returned position. -/
def output (r : (Nat → α) × Nat) (result : Nat) : List α :=
  load r.1 result (r.2 - result)

/-- The iterator over the elements of a list; past the end of the list it
reads what `rest` holds there. -/
def iter (xs : List α) (rest : Nat → α) : Nat → α :=
  fun i => xs.getD i (rest i)

/-! ## Notions of the specification -/

/-- A strict weak ordering (glossary): an irreflexive, transitive comparator
whose incomparability is transitive. -/
structure StrictWeakOrdering (comp : α → α → Bool) : Prop where
  irrefl : ∀ a, comp a a = false
  trans : ∀ a b c, comp a b = true → comp b c = true → comp a c = true
  incomp_trans : ∀ a b c, comp a b = false → comp b a = false →
    comp b c = false → comp c b = false → comp a c = false ∧ comp c a = false

/-- The tagged order of §3 on (value, origin-index) pairs: compare the
values, and break a tie of the values by the origin-index. -/
def tagged_less (comp : α → α → Bool) (x y : α × Nat) : Bool :=
  comp x.1 y.1 || (!comp y.1 x.1 && decide (x.2 < y.2))

/-- Loop of `sequential_merge`; `fuel` bounds the number of elements emitted. -/
def sequential_merge_loop (comp : α → α → Bool) : Nat → List α → List α → List α
  | 0, _, _ => []
  | _ + 1, [], ys => ys
  | _ + 1, x :: xs, [] => x :: xs
  | fuel + 1, x :: xs, y :: ys =>
    if comp y x then y :: sequential_merge_loop comp fuel (x :: xs) ys
    else x :: sequential_merge_loop comp fuel xs (y :: ys)

/-- The reference of §8, a straightforward sequential two-way merge: compare
the heads, emit the lesser, on a tie the head of `A`, then copy the
remainder. -/
def sequential_merge (comp : α → α → Bool) (A B : List α) : List α :=
  sequential_merge_loop comp (A.length + B.length) A B

/-- The comparator less-than on natural numbers. -/
def nat_less (a b : Nat) : Bool := decide (a < b)

/-- Less-than on values that carry a key and a payload: only the keys are
compared. -/
def key_less (a b : Nat × Nat) : Bool := decide (a.1 < b.1)

/-- The binary search that `lower_bound_loop` and `upper_bound_loop` share:
the range `[first, first + len)` is halved, and the search continues to the
right of the middle when `p` holds there, to the left otherwise. -/
def search_loop (p : Nat → Bool) : Nat → Nat → Nat → Nat
  | 0, first, _ => first
  | fuel + 1, first, len =>
    if len = 0 then first
    else if p (first + len / 2) then
      search_loop p fuel (first + len / 2 + 1) (len - len / 2 - 1)
    else
      search_loop p fuel first (len / 2)

/-- The number of elements of the tagged range `[tagged, tagged + n)` that are
strictly less than `s` in the tagged order. -/
def count_less (comp : α → α → Bool) (tagged : Nat → α × Nat) (n : Nat) (s : α × Nat) : Nat :=
  (load tagged 0 n).countP (fun x => tagged_less comp x s)

/-- The number of elements of the tagged range `[tagged, tagged + n)` that are
not greater than `s` in the tagged order. -/
def count_not_greater (comp : α → α → Bool) (tagged : Nat → α × Nat) (n : Nat)
    (s : α × Nat) : Nat :=
  (load tagged 0 n).countP (fun x => !tagged_less comp s x)

/-- The comparator greater-than on natural numbers. -/
def nat_greater (a b : Nat) : Bool := decide (b < a)

/-- The kernel launch of `merge_with` with the blocks run one after the other
in the given order of their block indices; `merge_with` runs them in the order
`0, 1, ..., 2 * (num_partitions - 1)`. -/
def merge_kernel_launch (block_size : Nat) (less comp : α → α → Bool)
    (first1 : Nat → α) (n1 : Nat) (first2 : Nat → α) (n2 : Nat)
    (out : Nat → α) (result : Nat) (order : List Nat) : Nat → α :=
  order.foldl
    (fun o blockIdx =>
      merge_kernel block_size (2 * (merge_detail.ceil_div n1 block_size - 1) + 1) blockIdx
        first1 n1 first2 n2
        (merge_detail.splitter_ranks1 block_size less comp first1 n1 first2)
        (merge_detail.splitter_ranks2 block_size less comp first1 n1 first2 n2)
        o result comp)
    out

/-- The Splitter Set that a call of `merge` computes: none on the paths of
the trivial problems, which return before the splitters are set up, and the
merged splitters otherwise. -/
def splitter_set (less : α → α → Bool)
    (first1 : Nat → α) (n1 : Nat) (first2 : Nat → α) (n2 : Nat) : List (α × Nat) :=
  if n1 = 0 ∧ n2 = 0 then []
  else if n2 = 0 then []
  else if n1 = 0 then []
  else merge_detail.splitters 128 less first1 n1 first2

/-- What the block of partition `partition_idx` writes, by §4.5 and §9: with
`X` and `Y` the slices of the two inputs, the local merge of the first
`block_size` elements of each followed by the rest of `X` and the rest of `Y`
when both slices are non-empty, and `X` followed by `Y` otherwise. -/
def partition_output (block_size : Nat) (comp : α → α → Bool) (X Y : List α) : List α :=
  if 0 < X.length ∧ 0 < Y.length then
    two_way_merge comp (X.take block_size) (Y.take block_size)
      ++ X.drop block_size ++ Y.drop block_size
  else X ++ Y

/-- The slice of an input that partition `partition_idx` covers: the elements
from the beginning of the partition up to its end. -/
def partition_slice (first : Nat → α) (splitter_ranks : List Nat)
    (last gridDim partition_idx : Nat) : List α :=
  load first (merge_detail.partition_begin splitter_ranks partition_idx)
    (merge_detail.partition_end splitter_ranks last gridDim partition_idx
      - merge_detail.partition_begin splitter_ranks partition_idx)

end thrust

namespace thrust
open merge_detail

variable {α β : Type}

/-! ## Basic facts about ranges and copies -/

theorem load_length (first : Nat → α) (b n : Nat) : (load first b n).length = n := by
  simp [load]

theorem getElem_load (first : Nat → α) (b n i : Nat) (h : i < (load first b n).length) :
    (load first b n)[i] = first (b + i) := by
  simp [load]

theorem copy_snd (src : List α) (out : Nat → α) (result : Nat) :
    (copy src out result).2 = result + src.length := rfl

theorem copy_fst_inside (src : List α) (out : Nat → α) (result i : Nat) (h : i < src.length) :
    (copy src out result).1 (result + i) = src[i] := by
  simp [copy, List.getD_eq_getElem?_getD, h]

theorem copy_fst_outside (src : List α) (out : Nat → α) (result p : Nat)
    (h : p < result ∨ result + src.length ≤ p) : (copy src out result).1 p = out p := by
  unfold copy
  by_cases hp : p < result
  · simp [hp]
  · have h2 : src.length ≤ p - result := by omega
    simp [hp, List.getD_eq_getElem?_getD, List.getElem?_eq_none h2]

theorem load_copy (src : List α) (out : Nat → α) (result : Nat) :
    load (copy src out result).1 result src.length = src := by
  apply List.ext_getElem
  · simp [load_length]
  · intro i h1 h2
    rw [getElem_load, copy_fst_inside src out result i h2]

theorem copy_nil (out : Nat → α) (result : Nat) : copy [] out result = (out, result) := by
  unfold copy
  congr 1
  funext p
  simp

/-- Two runs written to stretches of the storage that do not overlap can be
written in either order. -/
theorem copy_comm (W1 W2 : List α) (out : Nat → α) (r1 r2 : Nat)
    (h : r1 + W1.length ≤ r2 ∨ r2 + W2.length ≤ r1) :
    (copy W2 (copy W1 out r1).1 r2).1 = (copy W1 (copy W2 out r2).1 r1).1 := by
  funext p
  by_cases h1 : r1 ≤ p ∧ p < r1 + W1.length
  · obtain ⟨i, rfl⟩ : ∃ i, p = r1 + i := ⟨p - r1, by omega⟩
    rw [copy_fst_outside W2 _ r2 _ (by omega), copy_fst_inside W1 _ r1 i (by omega),
      copy_fst_inside W1 _ r1 i (by omega)]
  · by_cases h2 : r2 ≤ p ∧ p < r2 + W2.length
    · obtain ⟨i, rfl⟩ : ∃ i, p = r2 + i := ⟨p - r2, by omega⟩
      rw [copy_fst_inside W2 _ r2 i (by omega), copy_fst_outside W1 _ r1 _ (by omega),
        copy_fst_inside W2 _ r2 i (by omega)]
    · rw [copy_fst_outside W2 _ r2 p (by omega), copy_fst_outside W1 _ r1 p (by omega),
        copy_fst_outside W1 _ r1 p (by omega), copy_fst_outside W2 _ r2 p (by omega)]

/-! ## The returned position and the trivial problems -/

theorem merge_with_snd (block_size : Nat) (less comp : α → α → Bool)
    (first1 : Nat → α) (n1 : Nat) (first2 : Nat → α) (n2 : Nat) (out : Nat → α) (result : Nat) :
    (merge_with block_size less comp first1 n1 first2 n2 out result).2 = result + n1 + n2 := by
  unfold merge_with
  by_cases h1 : n1 = 0 <;> by_cases h2 : n2 = 0 <;> simp [h1, h2, copy_snd, load_length]

/-- C5: for all inputs, of any lengths, `merge` returns the output position
advanced by `n1 + n2`, and the output sequence between the output position and
the returned position has `n1 + n2` elements. -/
theorem merge_returns_end (less comp : α → α → Bool)
    (first1 : Nat → α) (n1 : Nat) (first2 : Nat → α) (n2 : Nat) (out : Nat → α) (result : Nat) :
    (merge less comp first1 n1 first2 n2 out result).2 = result + n1 + n2 ∧
    (output (merge less comp first1 n1 first2 n2 out result) result).length = n1 + n2 := by
  have h := merge_with_snd 128 less comp first1 n1 first2 n2 out result
  refine ⟨h, ?_⟩
  unfold output
  rw [load_length]
  unfold merge
  omega

/-- C6: empty inputs are identities of `merge`.  With an empty second input
the call is the plain copy of the first input, so the output sequence is the
first input and only the positions of the output are written; likewise with
an empty first input; with both empty the storage and the position are
returned unchanged.  Nothing is assumed about the order of the elements. -/
theorem merge_empty_identity (less comp : α → α → Bool)
    (first1 first2 : Nat → α) (n : Nat) (out : Nat → α) (result : Nat) :
    (merge less comp first1 n first2 0 out result = copy (load first1 0 n) out result ∧
      output (merge less comp first1 n first2 0 out result) result = load first1 0 n) ∧
    (merge less comp first1 0 first2 n out result = copy (load first2 0 n) out result ∧
      output (merge less comp first1 0 first2 n out result) result = load first2 0 n) ∧
    merge less comp first1 0 first2 0 out result = (out, result) ∧
    output (merge less comp first1 0 first2 0 out result) result = [] := by
  have hcopy : ∀ first : Nat → α,
      output (copy (load first 0 n) out result) result = load first 0 n := by
    intro first
    unfold output
    rw [copy_snd, load_length]
    have h := load_copy (load first 0 n) out result
    rw [load_length] at h
    simpa using h
  have e1 : merge less comp first1 n first2 0 out result = copy (load first1 0 n) out result := by
    unfold merge merge_with
    by_cases h : n = 0
    · subst h
      simp [load, copy_nil]
    · simp [h]
  have e2 : merge less comp first1 0 first2 n out result = copy (load first2 0 n) out result := by
    unfold merge merge_with
    by_cases h : n = 0
    · subst h
      simp [load, copy_nil]
    · simp [h]
  have e3 : merge less comp first1 0 first2 0 out result = (out, result) := by
    unfold merge merge_with
    simp
  refine ⟨⟨e1, ?_⟩, ⟨e2, ?_⟩, e3, ?_⟩
  · rw [e1]; exact hcopy first1
  · rw [e2]; exact hcopy first2
  · rw [e3]; simp [output, load]

/-- C10: on a tie of the values `strong_compare` falls back to the
origin-index: when neither value compares before the other, the pair
`(v1, i1)` compares before `(v2, i2)` exactly when `i1 < i2`.  In particular an
element of the first input (tagged below `n1`) compares before an
equal-valued element of the second input (tagged `n1 + j`) and never after
it. -/
theorem strong_compare_tie (comp : α → α → Bool) (v1 v2 : α) (i1 i2 : Nat)
    (h12 : comp v1 v2 = false) (h21 : comp v2 v1 = false) :
    (strong_compare comp (v1, i1) (v2, i2) = true ↔ i1 < i2) ∧
    (∀ n1 j : Nat, i1 < n1 →
      strong_compare comp (v1, i1) (v2, n1 + j) = true ∧
      strong_compare comp (v2, n1 + j) (v1, i1) = false) := by
  refine ⟨by simp [strong_compare, h12], ?_⟩
  intro n1 j h
  constructor
  · simp only [strong_compare, h12]
    simp
    omega
  · simp only [strong_compare, h21]
    simp
    omega

/-- Witness of `strong_compare_tie`: the pairs `(2, 0)` and `(2, 1)` under
less-than. -/
theorem strong_compare_tie_witness :
    nat_less 2 2 = false ∧
    ((strong_compare nat_less (2, 0) (2, 1) = true ↔ 0 < 1) ∧
      (∀ n1 j : Nat, 0 < n1 →
        strong_compare nat_less (2, 0) (2, n1 + j) = true ∧
        strong_compare nat_less (2, n1 + j) (2, 0) = false)) :=
  ⟨by decide, strong_compare_tie nat_less 2 2 0 1 (by decide) (by decide)⟩


/-! ## Less-than on natural numbers -/

theorem nat_less_strictWeakOrdering : StrictWeakOrdering nat_less := by
  constructor
  · intro a; simp [nat_less]
  · intro a b c; simp only [nat_less, decide_eq_true_eq]; omega
  · intro a b c; simp only [nat_less, decide_eq_false_iff_not]; omega

theorem key_less_strictWeakOrdering : StrictWeakOrdering key_less := by
  constructor
  · intro a; simp [key_less]
  · intro a b c; simp only [key_less, decide_eq_true_eq]; omega
  · intro a b c; simp only [key_less, decide_eq_false_iff_not]; omega

/-! ## Strict weak orderings and sorted ranges -/

theorem StrictWeakOrdering.asymm {comp : α → α → Bool} (h : StrictWeakOrdering comp)
    (a b : α) (hab : comp a b = true) : comp b a = false := by
  cases hba : comp b a with
  | false => rfl
  | true =>
    have := h.trans a b a hab hba
    rw [h.irrefl a] at this
    exact absurd this (by simp)

/-- Negative transitivity: not-before is transitive. -/
theorem StrictWeakOrdering.not_before_trans {comp : α → α → Bool} (h : StrictWeakOrdering comp)
    (a b c : α) (hab : comp a b = false) (hbc : comp b c = false) : comp a c = false := by
  cases hac : comp a c with
  | false => rfl
  | true =>
    exfalso
    have hba : comp b a = false := by
      cases hba : comp b a with
      | false => rfl
      | true =>
        have := h.trans b a c hba hac
        rw [hbc] at this
        exact absurd this (by simp)
    have hcb : comp c b = false := by
      cases hcb : comp c b with
      | false => rfl
      | true =>
        have := h.trans a c b hac hcb
        rw [hab] at this
        exact absurd this (by simp)
    have := (h.incomp_trans a b c hab hba hbc hcb).1
    rw [hac] at this
    exact absurd this (by simp)

theorem is_sorted_loop_iff (comp : α → α → Bool) (it : Nat → α) (last fuel first : Nat)
    (hfuel : last ≤ first + 1 + fuel) :
    scalar.is_sorted_loop comp it last fuel first (first + 1) = true ↔
      ∀ i, first ≤ i → i + 1 < last → comp (it (i + 1)) (it i) = false := by
  induction fuel generalizing first with
  | zero =>
    simp only [scalar.is_sorted_loop, true_iff]
    intro i h1 h2
    omega
  | succ k ih =>
    simp only [scalar.is_sorted_loop]
    by_cases hlast : first + 1 < last
    · simp only [hlast, if_true]
      cases hc : comp (it (first + 1)) (it first) with
      | true =>
        simp only [if_true, Bool.false_eq_true, false_iff]
        intro h
        have := h first (le_refl _) hlast
        rw [hc] at this
        exact absurd this (by simp)
      | false =>
        simp only [Bool.false_eq_true, if_false]
        rw [ih (first + 1) (by omega)]
        constructor
        · intro h i h1 h2
          by_cases hi : i = first
          · subst hi; exact hc
          · exact h i (by omega) h2
        · intro h i h1 h2
          exact h i (by omega) h2
    · simp only [hlast, if_false, true_iff]
      intro i h1 h2
      omega

/-- The function `is_sorted` returns true exactly on the ranges in which no
element compares before its predecessor. -/
theorem is_sorted_iff (comp : α → α → Bool) (it : Nat → α) (n : Nat) :
    scalar.is_sorted comp it n = true ↔
      ∀ i, i + 1 < n → comp (it (i + 1)) (it i) = false := by
  unfold scalar.is_sorted
  rw [is_sorted_loop_iff comp it n n 0 (by omega)]
  constructor
  · intro h i hi
    exact h i (Nat.zero_le _) hi
  · intro h i _ hi
    exact h i hi

theorem is_sorted_adjacent {comp : α → α → Bool} {first : Nat → α} {n : Nat}
    (h : scalar.is_sorted comp first n = true) (i : Nat) (hi : i + 1 < n) :
    comp (first (i + 1)) (first i) = false :=
  (is_sorted_iff comp first n).mp h i hi

/-- In a sorted range no element compares before an earlier one. -/
theorem is_sorted_pairwise {comp : α → α → Bool} (hcomp : StrictWeakOrdering comp)
    {first : Nat → α} {n : Nat} (h : scalar.is_sorted comp first n = true)
    (i j : Nat) (hij : i ≤ j) (hj : j < n) : comp (first j) (first i) = false := by
  induction j with
  | zero =>
    have : i = 0 := by omega
    subst this
    exact hcomp.irrefl _
  | succ k ih =>
    by_cases hik : i = k + 1
    · subst hik
      exact hcomp.irrefl _
    · exact hcomp.not_before_trans _ _ _ (is_sorted_adjacent h k hj) (ih (by omega) (by omega))

/-! ## Binary search -/

theorem lower_bound_loop_eq (comp : β → β → Bool) (it : Nat → β) (val : β)
    (fuel first len : Nat) :
    scalar.lower_bound_loop comp it val fuel first len
      = search_loop (fun i => comp (it i) val) fuel first len := by
  induction fuel generalizing first len with
  | zero => rfl
  | succ k ih =>
    simp only [scalar.lower_bound_loop, search_loop, ih]

theorem upper_bound_loop_eq (comp : β → β → Bool) (it : Nat → β) (val : β)
    (fuel first len : Nat) :
    scalar.upper_bound_loop comp it val fuel first len
      = search_loop (fun i => !comp val (it i)) fuel first len := by
  induction fuel generalizing first len with
  | zero => rfl
  | succ k ih =>
    simp only [scalar.upper_bound_loop, search_loop, ih]
    by_cases hl : len = 0
    · simp [hl]
    · by_cases hc : comp val (it (first + len / 2)) = true <;> simp [hl, hc]

/-- With enough fuel the search returns the partition point of a predicate
that holds on an initial part of the range and fails on the rest. -/
theorem search_loop_spec (p : Nat → Bool) (fuel first len : Nat) (hfuel : len ≤ fuel)
    (hp : ∀ i j, first ≤ i → i ≤ j → j < first + len → p j = true → p i = true) :
    first ≤ search_loop p fuel first len ∧ search_loop p fuel first len ≤ first + len ∧
    (∀ i, first ≤ i → i < search_loop p fuel first len → p i = true) ∧
    (∀ i, search_loop p fuel first len ≤ i → i < first + len → p i = false) := by
  induction fuel generalizing first len with
  | zero =>
    have : len = 0 := by omega
    subst this
    simp only [search_loop]
    refine ⟨le_refl _, by omega, ?_, ?_⟩ <;> intro i h1 h2 <;> omega
  | succ k ih =>
    simp only [search_loop]
    by_cases hl : len = 0
    · subst hl
      simp only [if_true]
      refine ⟨le_refl _, by omega, ?_, ?_⟩ <;> intro i h1 h2 <;> omega
    · have hhalf : len / 2 < len := Nat.div_lt_self (by omega) (by omega)
      simp only [hl, if_false]
      cases hm : p (first + len / 2) with
      | true =>
        simp only [if_true]
        obtain ⟨r1, r2, r3, r4⟩ := ih (first + len / 2 + 1) (len - len / 2 - 1) (by omega)
          (fun i j h1 h2 h3 h4 => hp i j (by omega) h2 (by omega) h4)
        refine ⟨by omega, by omega, ?_, ?_⟩
        · intro i h1 h2
          by_cases hi : i ≤ first + len / 2
          · exact hp i (first + len / 2) h1 hi (by omega) hm
          · exact r3 i (by omega) h2
        · intro i h1 h2
          exact r4 i h1 (by omega)
      | false =>
        simp only [Bool.false_eq_true, if_false]
        obtain ⟨r1, r2, r3, r4⟩ := ih first (len / 2) (by omega)
          (fun i j h1 h2 h3 h4 => hp i j h1 h2 (by omega) h4)
        refine ⟨r1, by omega, r3, ?_⟩
        intro i h1 h2
        by_cases hi : i < first + len / 2
        · exact r4 i h1 hi
        · cases hpi : p i with
          | false => rfl
          | true =>
            have := hp (first + len / 2) i (by omega) (by omega) h2 hpi
            rw [hm] at this
            exact absurd this (by simp)

theorem countP_range_of_partition_point (p : Nat → Bool) (n r : Nat) (hr : r ≤ n)
    (h1 : ∀ i, i < r → p i = true) (h2 : ∀ i, r ≤ i → i < n → p i = false) :
    (List.range n).countP p = r := by
  induction n generalizing r with
  | zero =>
    have : r = 0 := by omega
    simp [this]
  | succ k ih =>
    rw [List.range_succ, List.countP_append]
    by_cases hrk : r = k + 1
    · have hk : p k = true := h1 k (by omega)
      have := ih k (le_refl _) (fun i hi => h1 i (by omega)) (fun i hi1 hi2 => by omega)
      simp [this, hk, hrk]
    · have hk : p k = false := h2 k (by omega) (by omega)
      have := ih r (by omega) h1 (fun i hi1 hi2 => h2 i hi1 (by omega))
      simp [this, hk]

/-- The search over `[0, n)` counts the positions at which the predicate
holds, when it holds on an initial part of the range only. -/
theorem search_loop_eq_countP (p : Nat → Bool) (n : Nat)
    (hp : ∀ i j, i ≤ j → j < n → p j = true → p i = true) :
    search_loop p n 0 n = (List.range n).countP p := by
  obtain ⟨_, r2, r3, r4⟩ := search_loop_spec p n 0 n (le_refl _)
    (fun i j _ h2 h3 h4 => hp i j h2 (by omega) h4)
  symm
  exact countP_range_of_partition_point p n _ (by omega) (fun i hi => r3 i (by omega) hi)
    (fun i hi1 hi2 => r4 i hi1 (by omega))

theorem countP_load (q : β → Bool) (it : Nat → β) (n : Nat) :
    (load it 0 n).countP q = (List.range n).countP (fun i => q (it i)) := by
  unfold load
  rw [List.countP_map]
  congr 1
  funext i
  simp

theorem countP_range_congr (p q : Nat → Bool) (n : Nat) (h : ∀ i, i < n → p i = q i) :
    (List.range n).countP p = (List.range n).countP q := by
  apply List.countP_congr
  intro i hi
  rw [h i (List.mem_range.mp hi)]

/-- The rank `scalar::lower_bound` returns is the number of elements that
compare before the value, on a range that these elements begin. -/
theorem lower_bound_eq_countP (comp : β → β → Bool) (it : Nat → β) (n : Nat) (val : β)
    (q : Nat → Bool) (hq : ∀ i, i < n → comp (it i) val = q i)
    (hmono : ∀ i j, i ≤ j → j < n → q j = true → q i = true) :
    scalar.lower_bound comp it n val = (List.range n).countP q := by
  unfold scalar.lower_bound
  rw [lower_bound_loop_eq, search_loop_eq_countP]
  · exact countP_range_congr _ _ n hq
  · intro i j hij hj h
    rw [hq i (by omega)]
    rw [hq j hj] at h
    exact hmono i j hij hj h

/-- The rank `scalar::upper_bound` returns is the number of elements that the
value does not compare before, on a range that these elements begin. -/
theorem upper_bound_eq_countP (comp : β → β → Bool) (it : Nat → β) (n : Nat) (val : β)
    (q : Nat → Bool) (hq : ∀ i, i < n → comp val (it i) = q i)
    (hmono : ∀ i j, i ≤ j → j < n → q i = true → q j = true) :
    scalar.upper_bound comp it n val = (List.range n).countP (fun i => !q i) := by
  unfold scalar.upper_bound
  rw [upper_bound_loop_eq, search_loop_eq_countP]
  · exact countP_range_congr _ _ n (fun i hi => by rw [hq i hi])
  · intro i j hij hj h
    rw [hq i (by omega)]
    rw [hq j hj] at h
    cases hqi : q i with
    | false => rfl
    | true =>
      rw [hmono i j hij hj hqi] at h
      exact absurd h (by simp)

/-! ## The splitters and their ranks -/

theorem two_way_merge_perm (comp : β → β → Bool) (xs ys : List β) :
    (two_way_merge comp xs ys).Perm (xs ++ ys) := by
  induction xs generalizing ys with
  | nil => exact List.Perm.refl _
  | cons x xs ih =>
    show (two_way_merge_aux comp x (two_way_merge comp xs) ys).Perm (x :: xs ++ ys)
    induction ys with
    | nil =>
      simp only [two_way_merge_aux]
      exact (ih []).cons x
    | cons y ys ih2 =>
      simp only [two_way_merge_aux]
      split
      · exact ((ih2).cons y).trans (List.perm_middle.symm)
      · exact (ih (y :: ys)).cons x

theorem mem_two_way_merge (comp : β → β → Bool) (xs ys : List β) (s : β) :
    s ∈ two_way_merge comp xs ys ↔ s ∈ xs ∨ s ∈ ys := by
  rw [(two_way_merge_perm comp xs ys).mem_iff, List.mem_append]

theorem mem_splitters_of (tagged : Nat → β × Nat) (partition_size num_splitters : Nat)
    (s : β × Nat) :
    s ∈ splitters_of tagged partition_size num_splitters ↔
      ∃ i, i < num_splitters ∧ s = tagged (partition_size * (i + 1)) := by
  unfold splitters_of load make_splitter_iterator make_leapfrog_iterator mult_by
  simp only [List.mem_map, List.mem_range]
  constructor
  · rintro ⟨i, hi, rfl⟩
    exact ⟨i, hi, by congr 2; omega⟩
  · rintro ⟨i, hi, rfl⟩
    exact ⟨i, hi, by congr 2; omega⟩

/-- Every splitter is a sampled element of the first range, tagged with its
index, or a sampled element of the second range, tagged with `n1` plus its
index. -/
theorem mem_splitters (partition_size : Nat) (less : α → α → Bool)
    (first1 : Nat → α) (n1 : Nat) (first2 : Nat → α) (s : α × Nat)
    (hs : s ∈ splitters partition_size less first1 n1 first2) :
    ∃ i, i < ceil_div n1 partition_size - 1 ∧
      (s = zip_counter first1 0 (partition_size * (i + 1)) ∨
        s = zip_counter first2 n1 (partition_size * (i + 1))) := by
  unfold splitters make_merge_iterator at hs
  rw [mem_two_way_merge, mem_splitters_of, mem_splitters_of] at hs
  rcases hs with ⟨i, hi, h⟩ | ⟨i, hi, h⟩
  · exact ⟨i, hi, Or.inl h⟩
  · exact ⟨i, hi, Or.inr h⟩

/-- The indices sampled from the first range are indices of the first
range. -/
theorem sample_index_lt (n1 i : Nat) (hi : i < ceil_div n1 128 - 1) : 128 * (i + 1) < n1 := by
  unfold ceil_div at hi
  simp only at hi
  split at hi <;> omega

/-- The ranks of a splitter `(first1[j], j)` taken from the first range. -/
theorem ranks_of_first_origin {comp : α → α → Bool} (hcomp : StrictWeakOrdering comp)
    (first1 : Nat → α) (n1 : Nat) (first2 : Nat → α) (n2 : Nat)
    (h1 : scalar.is_sorted comp first1 n1 = true) (h2 : scalar.is_sorted comp first2 n2 = true)
    (j : Nat) (hj : j < n1) :
    scalar.upper_bound (strong_compare comp) (zip_counter first1 0) n1 (zip_counter first1 0 j)
      = count_not_greater comp (zip_counter first1 0) n1 (zip_counter first1 0 j) ∧
    scalar.lower_bound (strong_compare comp) (zip_counter first2 n1) n2 (zip_counter first1 0 j)
      = count_less comp (zip_counter first2 n1) n2 (zip_counter first1 0 j) := by
  constructor
  · rw [upper_bound_eq_countP _ _ _ _ (fun i => decide (j < i))]
    · unfold count_not_greater
      rw [countP_load]
      apply countP_range_congr
      intro i hi
      simp only [tagged_less, zip_counter, Nat.zero_add]
      by_cases hji : j < i
      · simp [hji, is_sorted_pairwise hcomp h1 j i (by omega) hi]
      · simp [hji, is_sorted_pairwise hcomp h1 i j (by omega) hj]
    · intro i hi
      simp only [strong_compare, zip_counter, Nat.zero_add]
      by_cases hji : j < i
      · simp [hji]
      · simp [hji, is_sorted_pairwise hcomp h1 i j (by omega) hj]
    · intro i k hik hk h
      simp only [decide_eq_true_eq] at h ⊢
      omega
  · rw [lower_bound_eq_countP _ _ _ _ (fun i => comp (first2 i) (first1 j))]
    · unfold count_less
      rw [countP_load]
      apply countP_range_congr
      intro i hi
      simp only [tagged_less, zip_counter, Nat.zero_add]
      have : ¬ (n1 + i < j) := by omega
      simp [this]
    · intro i hi
      simp only [strong_compare, zip_counter, Nat.zero_add]
      have : ¬ (n1 + i < j) := by omega
      simp [this]
    · intro i k hik hk h
      cases hc : comp (first2 i) (first1 j) with
      | true => rfl
      | false =>
        have := hcomp.not_before_trans _ _ _ (is_sorted_pairwise hcomp h2 i k hik hk) hc
        rw [h] at this
        exact absurd this (by simp)

/-- The ranks of a splitter `(first2[j], n1 + j)` taken from the second
range, at an index `j` of the second range. -/
theorem ranks_of_second_origin {comp : α → α → Bool} (hcomp : StrictWeakOrdering comp)
    (first1 : Nat → α) (n1 : Nat) (first2 : Nat → α) (n2 : Nat)
    (h1 : scalar.is_sorted comp first1 n1 = true) (h2 : scalar.is_sorted comp first2 n2 = true)
    (j : Nat) (hj : j < n2) :
    scalar.upper_bound (strong_compare comp) (zip_counter first1 0) n1 (zip_counter first2 n1 j)
      = count_not_greater comp (zip_counter first1 0) n1 (zip_counter first2 n1 j) ∧
    scalar.lower_bound (strong_compare comp) (zip_counter first2 n1) n2 (zip_counter first2 n1 j)
      = count_less comp (zip_counter first2 n1) n2 (zip_counter first2 n1 j) := by
  constructor
  · rw [upper_bound_eq_countP _ _ _ _ (fun i => comp (first2 j) (first1 i))]
    · unfold count_not_greater
      rw [countP_load]
      apply countP_range_congr
      intro i hi
      simp only [tagged_less, zip_counter, Nat.zero_add]
      have : ¬ (n1 + j < i) := by omega
      simp [this]
    · intro i hi
      simp only [strong_compare, zip_counter, Nat.zero_add]
      have : ¬ (n1 + j < i) := by omega
      simp [this]
    · intro i k hik hk h
      cases hc : comp (first2 j) (first1 k) with
      | true => rfl
      | false =>
        have := hcomp.not_before_trans _ _ _ hc (is_sorted_pairwise hcomp h1 i k hik hk)
        rw [h] at this
        exact absurd this (by simp)
  · rw [lower_bound_eq_countP _ _ _ _ (fun i => decide (i < j))]
    · unfold count_less
      rw [countP_load]
      apply countP_range_congr
      intro i hi
      simp only [tagged_less, zip_counter]
      by_cases hij : i < j
      · simp [hij, is_sorted_pairwise hcomp h2 i j (by omega) hj]
      · simp [hij, is_sorted_pairwise hcomp h2 j i (by omega) hi]
    · intro i hi
      simp only [strong_compare, zip_counter]
      by_cases hij : i < j
      · simp [hij]
      · simp [hij, is_sorted_pairwise hcomp h2 j i (by omega) hi]
    · intro i k hik hk h
      simp only [decide_eq_true_eq] at h ⊢
      omega

/-- C9, as the code has it: for inputs sorted under a strict weak ordering
and sampled inside both ranges, the rank of every splitter `s` in the second
range is the number of tagged elements of the second range strictly less than
`s` in the tagged order, and its rank in the first range is the number of
tagged elements of the first range not greater than `s` (a splitter taken
from the first range counts itself). -/
theorem splitter_ranks_count (less comp : α → α → Bool) (hcomp : StrictWeakOrdering comp)
    (first1 : Nat → α) (n1 : Nat) (first2 : Nat → α) (n2 : Nat)
    (h1 : scalar.is_sorted comp first1 n1 = true) (h2 : scalar.is_sorted comp first2 n2 = true)
    (hrange : ∀ i, 1 ≤ i → i < ceil_div n1 128 → 128 * i < n2) :
    splitter_ranks1 128 less comp first1 n1 first2
      = (splitters 128 less first1 n1 first2).map
          (count_not_greater comp (zip_counter first1 0) n1) ∧
    splitter_ranks2 128 less comp first1 n1 first2 n2
      = (splitters 128 less first1 n1 first2).map
          (count_less comp (zip_counter first2 n1) n2) := by
  unfold splitter_ranks1 splitter_ranks2 upper_bound lower_bound
  constructor
  · apply List.map_congr_left
    intro s hs
    obtain ⟨i, hi, h | h⟩ := mem_splitters 128 less first1 n1 first2 s hs
    · rw [h]
      exact (ranks_of_first_origin hcomp first1 n1 first2 n2 h1 h2 _ (sample_index_lt n1 i hi)).1
    · rw [h]
      exact (ranks_of_second_origin hcomp first1 n1 first2 n2 h1 h2 _
        (hrange (i + 1) (by omega) (by omega))).1
  · apply List.map_congr_left
    intro s hs
    obtain ⟨i, hi, h | h⟩ := mem_splitters 128 less first1 n1 first2 s hs
    · rw [h]
      exact (ranks_of_first_origin hcomp first1 n1 first2 n2 h1 h2 _ (sample_index_lt n1 i hi)).2
    · rw [h]
      exact (ranks_of_second_origin hcomp first1 n1 first2 n2 h1 h2 _
        (hrange (i + 1) (by omega) (by omega))).2

/-! ## The partition count -/

/-- C19: `ceil_div up down` is the ceiling of `up / down` for a positive
`down`: it is the least `q` with `up ≤ q * down`; when `up > 0` it satisfies
`(q - 1) * down < up ≤ q * down`, and it is 0 when `up = 0`. -/
theorem ceil_div_is_ceiling (up down : Nat) (hdown : 0 < down) :
    up ≤ ceil_div up down * down ∧
    (∀ q, up ≤ q * down → ceil_div up down ≤ q) ∧
    (0 < up → (ceil_div up down - 1) * down < up ∧ up ≤ ceil_div up down * down) ∧
    ceil_div 0 down = 0 ∧
    ceil_div up down = ⌈(up : ℚ) / (down : ℚ)⌉₊ := by
  have hdm := Nat.div_add_mod up down
  have hmod := Nat.mod_lt up hdown
  have hle : up ≤ ceil_div up down * down := by
    unfold ceil_div
    simp only
    split
    · rw [Nat.add_mul]; nlinarith [Nat.mul_comm down (up / down)]
    · rename_i h
      have : up % down = 0 := by simpa using h
      nlinarith [Nat.mul_comm down (up / down)]
  have hleast : ∀ q, up ≤ q * down → ceil_div up down ≤ q := by
    intro q hq
    unfold ceil_div
    simp only
    split
    · rename_i h
      by_contra hlt
      have hq2 : q ≤ up / down := by omega
      have : q * down ≤ up / down * down := Nat.mul_le_mul_right _ hq2
      have h3 : up / down * down ≤ up := Nat.div_mul_le_self up down
      have : up = up / down * down := by omega
      have : up % down = 0 := by
        rw [Nat.mul_comm] at this
        omega
      exact h this
    · by_contra hlt
      have hq2 : q + 1 ≤ up / down := by omega
      have : (q + 1) * down ≤ up / down * down := Nat.mul_le_mul_right _ hq2
      have h3 : up / down * down ≤ up := Nat.div_mul_le_self up down
      have : q * down + down ≤ up := by
        rw [Nat.add_mul, Nat.one_mul] at this
        omega
      omega
  refine ⟨hle, hleast, ?_, ?_, ?_⟩
  · intro hup
    refine ⟨?_, hle⟩
    by_contra hcon
    have := hleast (ceil_div up down - 1) (by omega)
    have hpos : 0 < ceil_div up down := by
      by_contra h0
      have h0 : ceil_div up down = 0 := by omega
      rw [h0] at hle
      omega
    omega
  · simp [ceil_div]
  · symm
    apply le_antisymm
    · rw [Nat.ceil_le, div_le_iff₀ (by exact_mod_cast hdown)]
      exact_mod_cast hle
    · apply hleast
      have h := Nat.le_ceil ((up : ℚ) / (down : ℚ))
      rw [div_le_iff₀ (by exact_mod_cast hdown)] at h
      exact_mod_cast h

/-- Witness of `ceil_div_is_ceiling`: 130 elements in blocks of 128. -/
theorem ceil_div_is_ceiling_witness :
    130 ≤ ceil_div 130 128 * 128 ∧
    (∀ q, 130 ≤ q * 128 → ceil_div 130 128 ≤ q) ∧
    (0 < 130 → (ceil_div 130 128 - 1) * 128 < 130 ∧ 130 ≤ ceil_div 130 128 * 128) ∧
    ceil_div 0 128 = 0 ∧
    ceil_div 130 128 = ⌈((130 : Nat) : ℚ) / ((128 : Nat) : ℚ)⌉₊ :=
  ceil_div_is_ceiling 130 128 (by decide)

/-! ## What one block writes -/

theorem copy_copy (xs ys : List α) (out : Nat → α) (result : Nat) :
    copy ys (copy xs out result).1 (copy xs out result).2 = copy (xs ++ ys) out result := by
  unfold copy
  simp only [List.length_append, Prod.mk.injEq]
  refine ⟨?_, by omega⟩
  funext p
  by_cases h1 : p < result
  · have h2 : p < result + xs.length := by omega
    simp [h1, h2]
  · by_cases h2 : p < result + xs.length
    · have h3 : p - result < xs.length := by omega
      simp [h1, h2, List.getD_eq_getElem?_getD, List.getElem?_append_left h3]
    · have h3 : xs.length ≤ p - result := by omega
      have h4 : p - (result + xs.length) = p - result - xs.length := by omega
      simp [h1, h2, List.getD_eq_getElem?_getD, List.getElem?_append_right h3,
        List.getElem?_eq_none h3, h4]

theorem load_zero (first : Nat → α) (b : Nat) : load first b 0 = [] := by
  simp [load]

theorem load_append (first : Nat → α) (b n m : Nat) :
    load first b (n + m) = load first b n ++ load first (b + n) m := by
  apply List.ext_getElem
  · simp [load_length]
  · intro i h1 h2
    rw [getElem_load]
    by_cases hi : i < n
    · rw [List.getElem_append_left (by simpa [load_length] using hi), getElem_load]
    · rw [List.getElem_append_right (by simpa [load_length] using hi), getElem_load]
      congr 1
      simp [load_length]
      omega

theorem load_take (first : Nat → α) (b n k : Nat) :
    (load first b n).take k = load first b (min k n) := by
  by_cases h : k ≤ n
  · obtain ⟨m, rfl⟩ := Nat.exists_eq_add_of_le h
    rw [load_append, List.take_left' (load_length _ _ _), Nat.min_eq_left h]
  · have h2 : n ≤ k := by omega
    rw [Nat.min_eq_right h2, List.take_of_length_le (by simp [load_length, h2])]

theorem load_drop (first : Nat → α) (b n k : Nat) :
    (load first b n).drop k = load first (b + min k n) (n - min k n) := by
  by_cases h : k ≤ n
  · obtain ⟨m, rfl⟩ := Nat.exists_eq_add_of_le h
    rw [load_append, List.drop_left' (load_length _ _ _), Nat.min_eq_left h]
    congr 1
    omega
  · have h2 : n ≤ k := by omega
    rw [Nat.min_eq_right h2, List.drop_of_length_le (by simp [load_length, h2])]
    simp [load_zero]

theorem mem_load (first : Nat → α) (b n : Nat) (a : α) :
    a ∈ load first b n ↔ ∃ i, i < n ∧ a = first (b + i) := by
  unfold load
  simp only [List.mem_map, List.mem_range]
  constructor
  · rintro ⟨i, hi, rfl⟩
    exact ⟨i, hi, rfl⟩
  · rintro ⟨i, hi, rfl⟩
    exact ⟨i, hi, rfl⟩

theorem two_way_merge_length (comp : β → β → Bool) (xs ys : List β) :
    (two_way_merge comp xs ys).length = xs.length + ys.length := by
  rw [(two_way_merge_perm comp xs ys).length_eq, List.length_append]

theorem partition_output_length (block_size : Nat) (comp : α → α → Bool) (X Y : List α) :
    (partition_output block_size comp X Y).length = X.length + Y.length := by
  unfold partition_output
  split
  · simp only [List.length_append, two_way_merge_length, List.length_take, List.length_drop]
    omega
  · simp

/-- The block of partition `blockIdx` writes `partition_output` of its two
slices to the output, from the output offset of the partition on, and leaves
the rest of the storage as it is. -/
theorem merge_kernel_writes (block_size gridDim blockIdx : Nat)
    (first1 : Nat → α) (last1 : Nat) (first2 : Nat → α) (last2 : Nat)
    (splitter_ranks1 splitter_ranks2 : List Nat)
    (out : Nat → α) (result : Nat) (comp : α → α → Bool) :
    merge_kernel block_size gridDim blockIdx first1 last1 first2 last2
        splitter_ranks1 splitter_ranks2 out result comp
      = (copy
          (partition_output block_size comp
            (load first1 (partition_begin splitter_ranks1 blockIdx)
              (partition_end splitter_ranks1 last1 gridDim blockIdx
                - partition_begin splitter_ranks1 blockIdx))
            (load first2 (partition_begin splitter_ranks2 blockIdx)
              (partition_end splitter_ranks2 last2 gridDim blockIdx
                - partition_begin splitter_ranks2 blockIdx)))
          out
          (result + partition_begin splitter_ranks1 blockIdx
            + partition_begin splitter_ranks2 blockIdx)).1 := by
  unfold merge_kernel partition_output block.copy block.merge
  simp only [load_length]
  split
  · rename_i h
    have h' : 0 < partition_end splitter_ranks1 last1 gridDim blockIdx
          - partition_begin splitter_ranks1 blockIdx ∧
        0 < partition_end splitter_ranks2 last2 gridDim blockIdx
          - partition_begin splitter_ranks2 blockIdx := by omega
    rw [if_pos h', copy_copy, copy_copy, load_take, load_take, load_drop, load_drop]
    simp only [List.append_assoc, Nat.sub_add_eq]
  · rename_i h
    have h' : ¬ (0 < partition_end splitter_ranks1 last1 gridDim blockIdx
          - partition_begin splitter_ranks1 blockIdx ∧
        0 < partition_end splitter_ranks2 last2 gridDim blockIdx
          - partition_begin splitter_ranks2 blockIdx) := by omega
    rw [if_neg h', copy_copy]

/-- C17: the block of a partition with the slices `X` of the first input and
`Y` of the second, of any lengths.  When both are non-empty it writes the
local merge of the first `block_size` elements of `X` and of `Y`, then the
rest of `X`, then the rest of `Y`; when one is empty it writes `X` followed by
`Y`.  In each case these `|X| + |Y|` elements go to consecutive positions from
the output offset of the partition on, and no other position is written. -/
theorem worker_behaviour (block_size gridDim blockIdx : Nat)
    (first1 : Nat → α) (last1 : Nat) (first2 : Nat → α) (last2 : Nat)
    (splitter_ranks1 splitter_ranks2 : List Nat)
    (out : Nat → α) (result : Nat) (comp : α → α → Bool) :
    let X := load first1 (partition_begin splitter_ranks1 blockIdx)
      (partition_end splitter_ranks1 last1 gridDim blockIdx
        - partition_begin splitter_ranks1 blockIdx)
    let Y := load first2 (partition_begin splitter_ranks2 blockIdx)
      (partition_end splitter_ranks2 last2 gridDim blockIdx
        - partition_begin splitter_ranks2 blockIdx)
    let offset := result + partition_begin splitter_ranks1 blockIdx
      + partition_begin splitter_ranks2 blockIdx
    let written := merge_kernel block_size gridDim blockIdx first1 last1 first2 last2
      splitter_ranks1 splitter_ranks2 out result comp
    (X ≠ [] → Y ≠ [] →
      load written offset (X.length + Y.length)
        = block.merge comp (X.take block_size) (Y.take block_size)
            ++ X.drop block_size ++ Y.drop block_size) ∧
    (X = [] ∨ Y = [] → load written offset (X.length + Y.length) = X ++ Y) ∧
    (∀ p, p < offset ∨ offset + (X.length + Y.length) ≤ p → written p = out p) := by
  intro X Y offset written
  have hw : written = (copy (partition_output block_size comp X Y) out offset).1 :=
    merge_kernel_writes block_size gridDim blockIdx first1 last1 first2 last2
      splitter_ranks1 splitter_ranks2 out result comp
  have hload : load written offset (X.length + Y.length) = partition_output block_size comp X Y := by
    rw [hw, ← partition_output_length block_size comp X Y]
    exact load_copy _ _ _
  refine ⟨?_, ?_, ?_⟩
  · intro hX hY
    rw [hload]
    unfold partition_output block.merge
    rw [if_pos ⟨List.length_pos.mpr hX, List.length_pos.mpr hY⟩]
  · intro h
    rw [hload]
    unfold partition_output
    rw [if_neg]
    rcases h with h | h <;> simp [h]
  · intro p hp
    rw [hw]
    apply copy_fst_outside
    rw [partition_output_length]
    exact hp

/-! ## The splitter sampler -/

theorem merge_with_eq_launch (block_size : Nat) (less comp : α → α → Bool)
    (first1 : Nat → α) (n1 : Nat) (first2 : Nat → α) (n2 : Nat) (out : Nat → α) (result : Nat)
    (h1 : 0 < n1) (h2 : 0 < n2) :
    merge_with block_size less comp first1 n1 first2 n2 out result
      = (merge_kernel_launch block_size less comp first1 n1 first2 n2 out result
          (List.range (2 * (ceil_div n1 block_size - 1) + 1)),
         result + n1 + n2) := by
  unfold merge_with merge_kernel_launch
  have h1' : n1 ≠ 0 := by omega
  have h2' : n2 ≠ 0 := by omega
  simp [h1', h2']

theorem splitters_of_length (tagged : Nat → β × Nat) (partition_size num_splitters : Nat) :
    (splitters_of tagged partition_size num_splitters).length = num_splitters := by
  simp [splitters_of, load_length]

theorem splitters_of_getElem? (tagged : Nat → β × Nat) (partition_size num_splitters i : Nat)
    (hi : i < num_splitters) :
    (splitters_of tagged partition_size num_splitters)[i]? = some (tagged (partition_size * (i + 1))) := by
  unfold splitters_of
  rw [List.getElem?_eq_getElem (by simpa [load_length] using hi), getElem_load]
  simp only [make_splitter_iterator, make_leapfrog_iterator, mult_by]
  congr 3
  omega

theorem splitters_length (partition_size : Nat) (less : α → α → Bool)
    (first1 : Nat → α) (n1 : Nat) (first2 : Nat → α) :
    (splitters partition_size less first1 n1 first2).length
      = 2 * (ceil_div n1 partition_size - 1) := by
  unfold splitters make_merge_iterator
  simp only [two_way_merge_length, splitters_of_length]
  omega

/-- C12: with `k = ceil_div n1 128`, the sampler takes `k - 1` splitters from
each input.  The `i`-th of the first input (`i = 1, ..., k - 1`) is
`first1[i * 128]` tagged `i * 128`, at an index of the first input; the `i`-th
of the second input is `first2[i * 128]` tagged `n1 + i * 128`.  The Splitter
Set merges the two samples and has `2 * (k - 1)` entries, as have the two rank
buffers, and for non-empty inputs `merge` launches the blocks
`0, ..., 2 * (k - 1)`, one per partition. -/
theorem splitter_sampler (less comp : α → α → Bool)
    (first1 : Nat → α) (n1 : Nat) (first2 : Nat → α) (n2 : Nat) (out : Nat → α) (result : Nat)
    (h1 : 0 < n1) (h2 : 0 < n2) :
    (splitters_of (zip_counter first1 0) 128 (ceil_div n1 128 - 1)).length = ceil_div n1 128 - 1 ∧
    (splitters_of (zip_counter first2 n1) 128 (ceil_div n1 128 - 1)).length
      = ceil_div n1 128 - 1 ∧
    (∀ i, 1 ≤ i → i < ceil_div n1 128 →
      i * 128 < n1 ∧
      (splitters_of (zip_counter first1 0) 128 (ceil_div n1 128 - 1))[i - 1]?
        = some (first1 (i * 128), i * 128) ∧
      (splitters_of (zip_counter first2 n1) 128 (ceil_div n1 128 - 1))[i - 1]?
        = some (first2 (i * 128), n1 + i * 128)) ∧
    splitters 128 less first1 n1 first2
      = make_merge_iterator less
          (splitters_of (zip_counter first1 0) 128 (ceil_div n1 128 - 1))
          (splitters_of (zip_counter first2 n1) 128 (ceil_div n1 128 - 1)) ∧
    (splitters 128 less first1 n1 first2).length = 2 * (ceil_div n1 128 - 1) ∧
    (splitter_ranks1 128 less comp first1 n1 first2).length = 2 * (ceil_div n1 128 - 1) ∧
    (splitter_ranks2 128 less comp first1 n1 first2 n2).length = 2 * (ceil_div n1 128 - 1) ∧
    (merge less comp first1 n1 first2 n2 out result).1
      = merge_kernel_launch 128 less comp first1 n1 first2 n2 out result
          (List.range (2 * (ceil_div n1 128 - 1) + 1)) ∧
    (List.range (2 * (ceil_div n1 128 - 1) + 1)).length = 2 * (ceil_div n1 128 - 1) + 1 := by
  refine ⟨splitters_of_length _ _ _, splitters_of_length _ _ _, ?_, rfl,
    splitters_length _ _ _ _ _, ?_, ?_, ?_, List.length_range _⟩
  · intro i hi1 hi2
    have hlt := sample_index_lt n1 (i - 1) (by omega)
    have e : i - 1 + 1 = i := by omega
    rw [e] at hlt
    refine ⟨by omega, ?_, ?_⟩
    · rw [splitters_of_getElem? _ _ _ _ (by omega), e]
      simp [zip_counter, Nat.mul_comm]
    · rw [splitters_of_getElem? _ _ _ _ (by omega), e]
      simp [zip_counter, Nat.mul_comm]
  · simp [splitter_ranks1, upper_bound, splitters_length]
  · simp [splitter_ranks2, lower_bound, splitters_length]
  · unfold merge
    rw [merge_with_eq_launch 128 less comp first1 n1 first2 n2 out result h1 h2]

/-! ## Small inputs -/

theorem ceil_div_eq_one (n : Nat) (h1 : 0 < n) (h2 : n ≤ 128) : ceil_div n 128 = 1 := by
  unfold ceil_div
  simp only
  split <;> omega

theorem splitters_eq_nil (less : α → α → Bool) (first1 : Nat → α) (n1 : Nat) (first2 : Nat → α)
    (h : ceil_div n1 128 - 1 = 0) : splitters 128 less first1 n1 first2 = [] := by
  unfold splitters make_merge_iterator splitters_of
  simp only [h, load_zero]
  rfl

/-- C18: non-empty inputs of at most 128 elements each.  `merge` generates no
splitters and launches the single block 0, whose partition is all of the first
and all of the second input, and the output sequence is the local two-way
merge of the two inputs (ties taken from the first). -/
theorem small_inputs_single_partition (less comp : α → α → Bool)
    (first1 : Nat → α) (n1 : Nat) (first2 : Nat → α) (n2 : Nat) (out : Nat → α) (result : Nat)
    (h1 : 0 < n1) (h1' : n1 ≤ 128) (h2 : 0 < n2) (h2' : n2 ≤ 128) :
    splitters 128 less first1 n1 first2 = [] ∧
    (merge less comp first1 n1 first2 n2 out result).1
      = merge_kernel_launch 128 less comp first1 n1 first2 n2 out result [0] ∧
    (partition_begin (splitter_ranks1 128 less comp first1 n1 first2) 0 = 0 ∧
      partition_end (splitter_ranks1 128 less comp first1 n1 first2) n1 1 0 = n1 ∧
      partition_begin (splitter_ranks2 128 less comp first1 n1 first2 n2) 0 = 0 ∧
      partition_end (splitter_ranks2 128 less comp first1 n1 first2 n2) n2 1 0 = n2) ∧
    output (merge less comp first1 n1 first2 n2 out result) result
      = block.merge comp (load first1 0 n1) (load first2 0 n2) := by
  have hk := ceil_div_eq_one n1 h1 h1'
  have hs : splitters 128 less first1 n1 first2 = [] :=
    splitters_eq_nil less first1 n1 first2 (by omega)
  have hm : merge less comp first1 n1 first2 n2 out result
      = (merge_kernel_launch 128 less comp first1 n1 first2 n2 out result [0],
         result + n1 + n2) := by
    unfold merge
    rw [merge_with_eq_launch 128 less comp first1 n1 first2 n2 out result h1 h2, hk]
    rfl
  refine ⟨hs, by rw [hm], ⟨rfl, rfl, rfl, rfl⟩, ?_⟩
  rw [hm]
  unfold output merge_kernel_launch
  simp only [List.foldl_cons, List.foldl_nil, hk]
  rw [merge_kernel_writes]
  have hr1 : splitter_ranks1 128 less comp first1 n1 first2 = [] := by
    simp [splitter_ranks1, upper_bound, hs]
  have hr2 : splitter_ranks2 128 less comp first1 n1 first2 n2 = [] := by
    simp [splitter_ranks2, lower_bound, hs]
  rw [hr1, hr2]
  simp only [partition_begin, partition_end, if_neg, ne_eq, not_true_eq_false, if_false,
    Nat.sub_zero, Nat.add_zero]
  have hlen : result + n1 + n2 - result
      = (partition_output 128 comp (load first1 0 n1) (load first2 0 n2)).length := by
    rw [partition_output_length, load_length, load_length]
    omega
  rw [hlen, load_copy]
  unfold partition_output block.merge
  rw [if_pos (by simp [load_length]; omega)]
  rw [List.take_of_length_le (by simp [load_length]; omega),
    List.take_of_length_le (by simp [load_length]; omega),
    List.drop_of_length_le (by simp [load_length]; omega),
    List.drop_of_length_le (by simp [load_length]; omega)]
  simp

/-! ## The sequential two-way merge -/

theorem two_way_merge_nil_right (comp : β → β → Bool) (xs : List β) :
    two_way_merge comp xs [] = xs := by
  induction xs with
  | nil => rfl
  | cons x xs ih =>
    show two_way_merge_aux comp x (two_way_merge comp xs) [] = x :: xs
    simp only [two_way_merge_aux, ih]

theorem two_way_merge_cons_cons (comp : β → β → Bool) (x y : β) (xs ys : List β) :
    two_way_merge comp (x :: xs) (y :: ys)
      = if comp y x then y :: two_way_merge comp (x :: xs) ys
        else x :: two_way_merge comp xs (y :: ys) := rfl

/-- A run of the second input whose elements all compare before the elements
of the first input is emitted first. -/
theorem two_way_merge_append_right (comp : β → β → Bool) (A2 B1 B2 : List β)
    (h : ∀ b ∈ B1, ∀ a ∈ A2, comp b a = true) :
    two_way_merge comp A2 (B1 ++ B2) = B1 ++ two_way_merge comp A2 B2 := by
  induction B1 with
  | nil => rfl
  | cons b B1 ih =>
    cases A2 with
    | nil => rfl
    | cons a A2 =>
      have hba : comp b a = true := h b (List.mem_cons_self _ _) a (List.mem_cons_self _ _)
      rw [List.cons_append, two_way_merge_cons_cons, if_pos hba,
        ih (fun b' hb' a' ha' => h b' (List.mem_cons_of_mem _ hb') a' ha')]
      rfl

/-- A run of the first input that no element of the second input compares
before is emitted first. -/
theorem two_way_merge_append_left (comp : β → β → Bool) (A1 A2 B2 : List β)
    (h : ∀ a ∈ A1, ∀ b ∈ B2, comp b a = false) :
    two_way_merge comp (A1 ++ A2) B2 = A1 ++ two_way_merge comp A2 B2 := by
  induction A1 with
  | nil => rfl
  | cons a A1 ih =>
    cases B2 with
    | nil => simp [two_way_merge_nil_right]
    | cons b B2 =>
      have hba : comp b a = false := h a (List.mem_cons_self _ _) b (List.mem_cons_self _ _)
      rw [List.cons_append, two_way_merge_cons_cons, hba,
        ih (fun a' ha' b' hb' => h a' (List.mem_cons_of_mem _ ha') b' hb')]
      rfl

/-- The merge splits at a pair of cuts of the two inputs, when no element
after the cut of the second input compares before an element before the cut
of the first, and every element before the cut of the second input compares
before every element after the cut of the first. -/
theorem two_way_merge_split (comp : β → β → Bool) (A1 A2 B1 B2 : List β)
    (h12 : ∀ a ∈ A1, ∀ b ∈ B2, comp b a = false)
    (h21 : ∀ b ∈ B1, ∀ a ∈ A2, comp b a = true) :
    two_way_merge comp (A1 ++ A2) (B1 ++ B2)
      = two_way_merge comp A1 B1 ++ two_way_merge comp A2 B2 := by
  induction A1 generalizing B1 with
  | nil =>
    rw [List.nil_append]
    exact two_way_merge_append_right comp A2 B1 B2 h21
  | cons a A1 ihA =>
    induction B1 with
    | nil =>
      rw [List.nil_append, two_way_merge_nil_right]
      exact two_way_merge_append_left comp (a :: A1) A2 B2 h12
    | cons b B1 ihB =>
      rw [List.cons_append, List.cons_append, two_way_merge_cons_cons, two_way_merge_cons_cons]
      by_cases hba : comp b a = true
      · rw [if_pos hba, if_pos hba]
        have := ihB (fun b' hb' a' ha' => h21 b' (List.mem_cons_of_mem _ hb') a' ha')
        rw [List.cons_append] at this
        rw [this]
        rfl
      · rw [if_neg hba, if_neg hba]
        have := ihA (b :: B1) (fun a' ha' b' hb' => h12 a' (List.mem_cons_of_mem _ ha') b' hb')
          h21
        rw [List.cons_append] at this
        rw [this]
        rfl

theorem sequential_merge_loop_eq (comp : α → α → Bool) (fuel : Nat) (A B : List α)
    (h : A.length + B.length ≤ fuel) :
    sequential_merge_loop comp fuel A B = two_way_merge comp A B := by
  induction fuel generalizing A B with
  | zero =>
    have hA : A = [] := List.length_eq_zero.mp (by omega)
    have hB : B = [] := List.length_eq_zero.mp (by omega)
    subst hA hB
    rfl
  | succ k ih =>
    cases A with
    | nil => rfl
    | cons a A =>
      cases B with
      | nil => simp [sequential_merge_loop, two_way_merge_nil_right]
      | cons b B =>
        simp only [sequential_merge_loop, two_way_merge_cons_cons]
        simp only [List.length_cons] at h
        rw [ih (a :: A) B (by simp only [List.length_cons]; omega),
          ih A (b :: B) (by simp only [List.length_cons]; omega)]

/-- The reference merge of §8 and the local merge of §4.4 are the same
function. -/
theorem sequential_merge_eq (comp : α → α → Bool) (A B : List α) :
    sequential_merge comp A B = two_way_merge comp A B :=
  sequential_merge_loop_eq comp _ A B (le_refl _)

/-- The merge of two non-decreasing runs is non-decreasing. -/
theorem two_way_merge_sorted {comp : β → β → Bool} (hcomp : StrictWeakOrdering comp)
    (xs ys : List β)
    (hx : xs.Pairwise (fun a b => comp b a = false))
    (hy : ys.Pairwise (fun a b => comp b a = false)) :
    (two_way_merge comp xs ys).Pairwise (fun a b => comp b a = false) := by
  induction xs generalizing ys with
  | nil => exact hy
  | cons x xs ihx =>
    induction ys with
    | nil => rw [two_way_merge_nil_right]; exact hx
    | cons y ys ihy =>
      rw [two_way_merge_cons_cons]
      rw [List.pairwise_cons] at hx hy
      by_cases hyx : comp y x = true
      · rw [if_pos hyx, List.pairwise_cons]
        refine ⟨?_, ihy hy.2⟩
        intro z hz
        rw [mem_two_way_merge] at hz
        rcases hz with hz | hz
        · rcases List.mem_cons.mp hz with rfl | hz
          · exact hcomp.asymm _ _ hyx
          · exact hcomp.not_before_trans _ _ _ (hx.1 z hz) (hcomp.asymm _ _ hyx)
        · exact hy.1 z hz
      · have hyx' : comp y x = false := by simpa using hyx
        rw [if_neg hyx, List.pairwise_cons]
        refine ⟨?_, ihx (y :: ys) hx.2 (List.pairwise_cons.mpr hy)⟩
        intro z hz
        rw [mem_two_way_merge] at hz
        rcases hz with hz | hz
        · exact hx.1 z hz
        · rcases List.mem_cons.mp hz with rfl | hz
          · exact hyx'
          · exact hcomp.not_before_trans _ _ _ (hy.1 z hz) hyx'

/-! ## The tagged order -/

/-- The tagged order of a strict weak ordering is a strict weak ordering. -/
theorem tagged_less_strictWeakOrdering {comp : α → α → Bool} (hcomp : StrictWeakOrdering comp) :
    StrictWeakOrdering (tagged_less comp) := by
  have key : ∀ x y : α × Nat, tagged_less comp x y = false ↔
      (comp x.1 y.1 = false ∧ (comp y.1 x.1 = true ∨ y.2 ≤ x.2)) := by
    intro x y
    unfold tagged_less
    cases h1 : comp x.1 y.1 <;> cases h2 : comp y.1 x.1 <;> simp
  have keyt : ∀ x y : α × Nat, tagged_less comp x y = true ↔
      (comp x.1 y.1 = true ∨ (comp y.1 x.1 = false ∧ x.2 < y.2)) := by
    intro x y
    unfold tagged_less
    cases h1 : comp x.1 y.1 <;> cases h2 : comp y.1 x.1 <;> simp
  have nbt : ∀ a b c : α × Nat, tagged_less comp a b = false → tagged_less comp b c = false →
      tagged_less comp a c = false := by
    intro a b c hab hbc
    rw [key] at hab hbc ⊢
    obtain ⟨h1, h2⟩ := hab
    obtain ⟨h3, h4⟩ := hbc
    refine ⟨hcomp.not_before_trans _ _ _ h1 h3, ?_⟩
    rcases h2 with h2 | h2
    · left
      cases hca : comp c.1 a.1 with
      | true => rfl
      | false =>
        have := hcomp.not_before_trans _ _ _ h3 hca
        rw [h2] at this
        exact absurd this (by simp)
    · rcases h4 with h4 | h4
      · left
        cases hca : comp c.1 a.1 with
        | true => rfl
        | false =>
          have := hcomp.not_before_trans _ _ _ hca h1
          rw [h4] at this
          exact absurd this (by simp)
      · right
        omega
  have irr : ∀ a : α × Nat, tagged_less comp a a = false := by
    intro a
    rw [key]
    exact ⟨hcomp.irrefl _, Or.inr (le_refl _)⟩
  have asym : ∀ a b : α × Nat, tagged_less comp a b = true → tagged_less comp b a = false := by
    intro a b hab
    rw [keyt] at hab
    rw [key]
    rcases hab with h | ⟨h1, h2⟩
    · exact ⟨hcomp.asymm _ _ h, Or.inl h⟩
    · exact ⟨h1, Or.inr (by omega)⟩
  constructor
  · exact irr
  · intro a b c hab hbc
    cases hac : tagged_less comp a c with
    | true => rfl
    | false =>
      have hca : tagged_less comp c b = false := asym _ _ hbc
      have := nbt _ _ _ hac hca
      rw [hab] at this
      exact absurd this (by simp)
  · intro a b c hab hba hbc hcb
    exact ⟨nbt _ _ _ hab hbc, nbt _ _ _ hcb hba⟩

/-! ## The ranks as partition points -/

theorem tagged_less_eq_false {comp : α → α → Bool} (x y : α × Nat) :
    tagged_less comp x y = false ↔
      (comp x.1 y.1 = false ∧ (comp y.1 x.1 = true ∨ y.2 ≤ x.2)) := by
  unfold tagged_less
  cases h1 : comp x.1 y.1 <;> cases h2 : comp y.1 x.1 <;> simp

theorem tagged_less_eq_true {comp : α → α → Bool} (x y : α × Nat) :
    tagged_less comp x y = true ↔
      (comp x.1 y.1 = true ∨ (comp y.1 x.1 = false ∧ x.2 < y.2)) := by
  unfold tagged_less
  cases h1 : comp x.1 y.1 <;> cases h2 : comp y.1 x.1 <;> simp

/-- The comparison `strong_compare` agrees with the tagged order on a pair
whose second value does not compare before the first when its index is the
larger one. -/
theorem strong_compare_eq_tagged_less (comp : α → α → Bool) (x y : α × Nat)
    (h : x.2 < y.2 → comp y.1 x.1 = false) :
    strong_compare comp x y = tagged_less comp x y := by
  unfold strong_compare tagged_less
  cases h1 : comp x.1 y.1 with
  | true => simp
  | false =>
    by_cases h2 : x.2 < y.2
    · simp [h2, h h2]
    · simp [h2]

/-- A sorted range zipped with a counter is non-decreasing in the tagged
order. -/
theorem zip_counter_sorted {comp : α → α → Bool} (hcomp : StrictWeakOrdering comp)
    {first : Nat → α} {n : Nat} (h : scalar.is_sorted comp first n = true) (start i j : Nat)
    (hij : i ≤ j) (hj : j < n) :
    tagged_less comp (zip_counter first start j) (zip_counter first start i) = false := by
  rw [tagged_less_eq_false]
  exact ⟨is_sorted_pairwise hcomp h i j hij hj, Or.inr (by simp [zip_counter]; omega)⟩

theorem zip_counter_lt {comp : α → α → Bool} (hcomp : StrictWeakOrdering comp)
    {first : Nat → α} {n : Nat} (h : scalar.is_sorted comp first n = true) (start i j : Nat)
    (hij : i < j) (hj : j < n) :
    tagged_less comp (zip_counter first start i) (zip_counter first start j) = true := by
  rw [tagged_less_eq_true]
  exact Or.inr ⟨is_sorted_pairwise hcomp h i j (by omega) hj, by simp [zip_counter]; omega⟩

theorem search_loop_partition (p : Nat → Bool) (n : Nat)
    (hp : ∀ i j, i ≤ j → j < n → p j = true → p i = true) :
    search_loop p n 0 n ≤ n ∧ ∀ i, i < n → (i < search_loop p n 0 n ↔ p i = true) := by
  obtain ⟨_, r2, r3, r4⟩ := search_loop_spec p n 0 n (le_refl _)
    (fun i j _ h2 h3 h4 => hp i j h2 (by omega) h4)
  refine ⟨by omega, ?_⟩
  intro i hi
  constructor
  · intro h
    exact r3 i (Nat.zero_le _) h
  · intro h
    by_contra hlt
    have := r4 i (by omega) (by omega)
    rw [h] at this
    exact absurd this (by simp)

/-- The rank of `s` in the first range is its upper bound in the tagged
order: the positions below it hold the elements not greater than `s`. -/
theorem rank_in_first_spec {comp : α → α → Bool} (hcomp : StrictWeakOrdering comp)
    {first1 : Nat → α} {n1 : Nat} (h1 : scalar.is_sorted comp first1 n1 = true) (s : α × Nat)
    (hs : ∀ i, i < n1 → s.2 < i → comp (first1 i) s.1 = false) :
    scalar.upper_bound (strong_compare comp) (zip_counter first1 0) n1 s ≤ n1 ∧
    ∀ i, i < n1 →
      (i < scalar.upper_bound (strong_compare comp) (zip_counter first1 0) n1 s ↔
        tagged_less comp s (zip_counter first1 0 i) = false) := by
  have hT := tagged_less_strictWeakOrdering hcomp
  have heq : ∀ i, i < n1 →
      strong_compare comp s (zip_counter first1 0 i) = tagged_less comp s (zip_counter first1 0 i) := by
    intro i hi
    apply strong_compare_eq_tagged_less
    intro hlt
    exact hs i hi (by simpa [zip_counter] using hlt)
  unfold scalar.upper_bound
  rw [upper_bound_loop_eq]
  obtain ⟨r1, r2⟩ := search_loop_partition
    (fun i => !strong_compare comp s (zip_counter first1 0 i)) n1 (by
      intro i j hij hj h
      simp only [Bool.not_eq_true', heq j hj] at h
      simp only [Bool.not_eq_true', heq i (by omega)]
      exact hT.not_before_trans _ _ _ h (zip_counter_sorted hcomp h1 0 i j hij hj))
  refine ⟨r1, ?_⟩
  intro i hi
  rw [r2 i hi]
  simp only [Bool.not_eq_true', heq i hi]

/-- The rank of `s` in the second range is its lower bound in the tagged
order: the positions below it hold the elements less than `s`. -/
theorem rank_in_second_spec {comp : α → α → Bool} (hcomp : StrictWeakOrdering comp)
    {first2 : Nat → α} {n2 : Nat} (n1 : Nat) (h2 : scalar.is_sorted comp first2 n2 = true)
    (s : α × Nat) (hs : ∀ i, i < n2 → n1 + i < s.2 → comp s.1 (first2 i) = false) :
    scalar.lower_bound (strong_compare comp) (zip_counter first2 n1) n2 s ≤ n2 ∧
    ∀ i, i < n2 →
      (i < scalar.lower_bound (strong_compare comp) (zip_counter first2 n1) n2 s ↔
        tagged_less comp (zip_counter first2 n1 i) s = true) := by
  have hT := tagged_less_strictWeakOrdering hcomp
  have heq : ∀ i, i < n2 →
      strong_compare comp (zip_counter first2 n1 i) s
        = tagged_less comp (zip_counter first2 n1 i) s := by
    intro i hi
    apply strong_compare_eq_tagged_less
    intro hlt
    exact hs i hi (by simpa [zip_counter] using hlt)
  unfold scalar.lower_bound
  rw [lower_bound_loop_eq]
  obtain ⟨r1, r2⟩ := search_loop_partition
    (fun i => strong_compare comp (zip_counter first2 n1 i) s) n2 (by
      intro i j hij hj h
      simp only [heq j hj] at h
      simp only [heq i (by omega)]
      cases hc : tagged_less comp (zip_counter first2 n1 i) s with
      | true => rfl
      | false =>
        have := hT.not_before_trans _ _ _ (zip_counter_sorted hcomp h2 n1 i j hij hj) hc
        rw [h] at this
        exact absurd this (by simp))
  refine ⟨r1, ?_⟩
  intro i hi
  rw [r2 i hi]
  simp only [heq i hi]

/-- A pair is a well-placed splitter when it is consistent with both sorted
ranges: no element of the first range with a larger index compares before
it, and it compares before no element of the second range with a smaller
index. -/
theorem splitter_well_placed {comp : α → α → Bool} (hcomp : StrictWeakOrdering comp)
    (less : α → α → Bool) {first1 : Nat → α} {n1 : Nat} {first2 : Nat → α} {n2 : Nat}
    (h1 : scalar.is_sorted comp first1 n1 = true) (h2 : scalar.is_sorted comp first2 n2 = true)
    (hrange : ∀ i, 1 ≤ i → i < ceil_div n1 128 → 128 * i < n2)
    (s : α × Nat) (hs : s ∈ splitters 128 less first1 n1 first2) :
    (∀ i, i < n1 → s.2 < i → comp (first1 i) s.1 = false) ∧
    (∀ i, i < n2 → n1 + i < s.2 → comp s.1 (first2 i) = false) := by
  obtain ⟨k, hk, h | h⟩ := mem_splitters 128 less first1 n1 first2 s hs
  · have hlt := sample_index_lt n1 k hk
    subst h
    simp only [zip_counter, Nat.zero_add]
    constructor
    · intro i hi hlt2
      exact is_sorted_pairwise hcomp h1 _ i (by omega) hi
    · intro i hi hlt2
      omega
  · have hlt := hrange (k + 1) (by omega) (by omega)
    subst h
    simp only [zip_counter]
    constructor
    · intro i hi hlt2
      omega
    · intro i hi hlt2
      exact is_sorted_pairwise hcomp h2 i _ (by omega) hlt

/-- The rank in the first range does not decrease along the tagged order. -/
theorem rank_in_first_mono {comp : α → α → Bool} (hcomp : StrictWeakOrdering comp)
    {first1 : Nat → α} {n1 : Nat} (h1 : scalar.is_sorted comp first1 n1 = true) (s t : α × Nat)
    (hs : ∀ i, i < n1 → s.2 < i → comp (first1 i) s.1 = false)
    (ht : ∀ i, i < n1 → t.2 < i → comp (first1 i) t.1 = false)
    (hst : tagged_less comp t s = false) :
    scalar.upper_bound (strong_compare comp) (zip_counter first1 0) n1 s
      ≤ scalar.upper_bound (strong_compare comp) (zip_counter first1 0) n1 t := by
  have hT := tagged_less_strictWeakOrdering hcomp
  obtain ⟨s1, s2⟩ := rank_in_first_spec hcomp h1 s hs
  obtain ⟨t1, t2⟩ := rank_in_first_spec hcomp h1 t ht
  by_contra hlt
  have hlt : scalar.upper_bound (strong_compare comp) (zip_counter first1 0) n1 t
      < scalar.upper_bound (strong_compare comp) (zip_counter first1 0) n1 s := by omega
  have hi : scalar.upper_bound (strong_compare comp) (zip_counter first1 0) n1 t < n1 := by omega
  have a := (s2 _ hi).mp hlt
  have b := hT.not_before_trans _ _ _ hst a
  have c := (t2 _ hi).mpr b
  omega

/-- The rank in the second range does not decrease along the tagged order. -/
theorem rank_in_second_mono {comp : α → α → Bool} (hcomp : StrictWeakOrdering comp)
    {first2 : Nat → α} {n2 : Nat} (n1 : Nat) (h2 : scalar.is_sorted comp first2 n2 = true)
    (s t : α × Nat)
    (hs : ∀ i, i < n2 → n1 + i < s.2 → comp s.1 (first2 i) = false)
    (ht : ∀ i, i < n2 → n1 + i < t.2 → comp t.1 (first2 i) = false)
    (hst : tagged_less comp t s = false) :
    scalar.lower_bound (strong_compare comp) (zip_counter first2 n1) n2 s
      ≤ scalar.lower_bound (strong_compare comp) (zip_counter first2 n1) n2 t := by
  have hT := tagged_less_strictWeakOrdering hcomp
  obtain ⟨s1, s2⟩ := rank_in_second_spec hcomp n1 h2 s hs
  obtain ⟨t1, t2⟩ := rank_in_second_spec hcomp n1 h2 t ht
  by_contra hlt
  have hlt : scalar.lower_bound (strong_compare comp) (zip_counter first2 n1) n2 t
      < scalar.lower_bound (strong_compare comp) (zip_counter first2 n1) n2 s := by omega
  have hi : scalar.lower_bound (strong_compare comp) (zip_counter first2 n1) n2 t < n2 := by omega
  have a := (s2 _ hi).mp hlt
  have b : tagged_less comp (zip_counter first2 n1
      (scalar.lower_bound (strong_compare comp) (zip_counter first2 n1) n2 t)) t = false := by
    cases hc : tagged_less comp (zip_counter first2 n1
      (scalar.lower_bound (strong_compare comp) (zip_counter first2 n1) n2 t)) t with
    | false => rfl
    | true =>
      have := (t2 _ hi).mpr hc
      omega
  have c := hT.not_before_trans _ _ _ b hst
  rw [a] at c
  exact absurd c (by simp)

/-- The rank in the first range of the element `j` of the first range. -/
theorem rank_in_first_of_first {comp : α → α → Bool} (hcomp : StrictWeakOrdering comp)
    {first1 : Nat → α} {n1 : Nat} (h1 : scalar.is_sorted comp first1 n1 = true)
    (j : Nat) (hj : j < n1) :
    scalar.upper_bound (strong_compare comp) (zip_counter first1 0) n1 (zip_counter first1 0 j)
      = j + 1 := by
  have hT := tagged_less_strictWeakOrdering hcomp
  obtain ⟨r1, r2⟩ := rank_in_first_spec hcomp h1 (zip_counter first1 0 j) (by
    intro i hi hlt
    simp only [zip_counter, Nat.zero_add] at hlt ⊢
    exact is_sorted_pairwise hcomp h1 j i (by omega) hi)
  have hjr := (r2 j hj).mpr (hT.irrefl _)
  by_contra hne
  have hlt : j + 1 < scalar.upper_bound (strong_compare comp) (zip_counter first1 0) n1
      (zip_counter first1 0 j) := by omega
  have := (r2 (j + 1) (by omega)).mp hlt
  rw [zip_counter_lt hcomp h1 0 j (j + 1) (by omega) (by omega)] at this
  exact absurd this (by simp)

/-- The rank in the second range of the element `j` of the second range. -/
theorem rank_in_second_of_second {comp : α → α → Bool} (hcomp : StrictWeakOrdering comp)
    {first2 : Nat → α} {n2 : Nat} (n1 : Nat) (h2 : scalar.is_sorted comp first2 n2 = true)
    (j : Nat) (hj : j < n2) :
    scalar.lower_bound (strong_compare comp) (zip_counter first2 n1) n2 (zip_counter first2 n1 j)
      = j := by
  have hT := tagged_less_strictWeakOrdering hcomp
  obtain ⟨r1, r2⟩ := rank_in_second_spec hcomp n1 h2 (zip_counter first2 n1 j) (by
    intro i hi hlt
    simp only [zip_counter] at hlt ⊢
    exact is_sorted_pairwise hcomp h2 i j (by omega) hj)
  by_contra hne
  rcases Nat.lt_or_gt_of_ne hne with hlt | hgt
  · have := (r2 _ (by omega)).mpr (zip_counter_lt hcomp h2 n1 _ j hlt hj)
    omega
  · have := (r2 j hj).mp hgt
    rw [hT.irrefl] at this
    exact absurd this (by simp)

/-! ## Partitions cut out by a non-decreasing list of ranks -/

theorem partition_begin_zero (R : List Nat) : partition_begin R 0 = 0 := rfl

theorem partition_begin_succ (R : List Nat) (p : Nat) (hp : p < R.length) :
    partition_begin R (p + 1) = R[p] := by
  simp [partition_begin, List.getElem?_eq_getElem hp]

theorem partition_end_lt (R : List Nat) (n grid p : Nat) (hgrid : grid = R.length + 1)
    (hp : p < R.length) : partition_end R n grid p = R[p] := by
  have : p ≠ grid - 1 := by omega
  simp [partition_end, this, List.getElem?_eq_getElem hp]

theorem partition_end_last (R : List Nat) (n grid : Nat) (hgrid : grid = R.length + 1) :
    partition_end R n grid R.length = n := by
  simp [partition_end, hgrid]

theorem sorted_getElem_le (R : List Nat) (hs : R.Pairwise (· ≤ ·)) (i j : Nat) (hij : i ≤ j)
    (hj : j < R.length) : R[i] ≤ R[j] := by
  by_cases h : i = j
  · subst h; exact le_refl _
  · exact List.pairwise_iff_getElem.mp hs i j (by omega) hj (by omega)

/-- The partitions follow one another and stay inside the range. -/
theorem partition_bounds (R : List Nat) (n grid : Nat) (hgrid : grid = R.length + 1)
    (hs : R.Pairwise (· ≤ ·)) (hb : ∀ r ∈ R, r ≤ n) (p : Nat) (hp : p ≤ R.length) :
    partition_begin R p ≤ partition_end R n grid p ∧ partition_end R n grid p ≤ n := by
  rcases Nat.eq_zero_or_pos p with h0 | hpos
  · subst h0
    rw [partition_begin_zero]
    refine ⟨Nat.zero_le _, ?_⟩
    by_cases hl : 0 < R.length
    · rw [partition_end_lt R n grid 0 hgrid hl]
      exact hb _ (List.getElem_mem _)
    · have : R.length = 0 := by omega
      have h2 := partition_end_last R n grid hgrid
      rw [this] at h2
      rw [h2]
  · obtain ⟨q, rfl⟩ : ∃ q, p = q + 1 := ⟨p - 1, by omega⟩
    rw [partition_begin_succ R q (by omega)]
    by_cases hl : q + 1 < R.length
    · rw [partition_end_lt R n grid (q + 1) hgrid hl]
      exact ⟨sorted_getElem_le R hs q (q + 1) (by omega) hl, hb _ (List.getElem_mem _)⟩
    · have h1 : q + 1 = R.length := by omega
      have h2 := partition_end_last R n grid hgrid
      rw [← h1] at h2
      rw [h2]
      exact ⟨hb _ (List.getElem_mem _), le_refl _⟩

/-- A splitter lies before a partition with both its ranks or after it with
both its ranks. -/
theorem partition_cross {γ : Type} (S : List γ) (f g : γ → Nat) (n grid : Nat)
    (hgrid : grid = S.length + 1)
    (hf : (S.map f).Pairwise (· ≤ ·)) (hg : (S.map g).Pairwise (· ≤ ·))
    (s : γ) (hs : s ∈ S) (p : Nat) (hp : p ≤ S.length) :
    f s ≤ partition_begin (S.map f) p ∨ partition_end (S.map g) n grid p ≤ g s := by
  obtain ⟨q, hq, rfl⟩ := List.mem_iff_getElem.mp hs
  by_cases hqp : q < p
  · left
    obtain ⟨p', rfl⟩ : ∃ p', p = p' + 1 := ⟨p - 1, by omega⟩
    rw [partition_begin_succ _ p' (by simp; omega)]
    have := sorted_getElem_le (S.map f) hf q p' (by omega) (by simp; omega)
    simpa using this
  · right
    have hp' : p < S.length := by omega
    rw [partition_end_lt _ n grid p (by simp [hgrid]) (by simp; omega)]
    have := sorted_getElem_le (S.map g) hg p q (by omega) (by simp; omega)
    simpa using this

/-- A rank of the list lies before or after each partition. -/
theorem partition_excludes (R : List Nat) (n grid : Nat) (hgrid : grid = R.length + 1)
    (hs : R.Pairwise (· ≤ ·)) (c : Nat) (hc : c ∈ R) (p : Nat) (hp : p ≤ R.length) :
    c ≤ partition_begin R p ∨ partition_end R n grid p ≤ c := by
  have := partition_cross R id id n grid hgrid (by simpa using hs) (by simpa using hs) c hc p hp
  simpa using this

/-- When the ranks contain every multiple of 128 below `n`, no partition
holds more than 128 elements. -/
theorem slice_second_le (R : List Nat) (n grid m : Nat) (hgrid : grid = R.length + 1)
    (hs : R.Pairwise (· ≤ ·)) (hb : ∀ r ∈ R, r ≤ n) (hn : n ≤ 128 * (m + 1))
    (hmem : ∀ i, 1 ≤ i → i ≤ m → 128 * i ∈ R) (p : Nat) (hp : p ≤ R.length) :
    partition_end R n grid p - partition_begin R p ≤ 128 := by
  obtain ⟨b1, b2⟩ := partition_bounds R n grid hgrid hs hb p hp
  by_contra hcon
  have hc := hmem (partition_begin R p / 128 + 1) (by omega) (by omega)
  rcases partition_excludes R n grid hgrid hs _ hc p hp with h | h <;> omega

/-- When the ranks contain the successor of every positive multiple of 128
below `n`, a partition holds at most 128 elements, or it is the range of the
indices 0 to 128. -/
theorem slice_first_le (R : List Nat) (n grid m : Nat) (hgrid : grid = R.length + 1)
    (hs : R.Pairwise (· ≤ ·)) (hb : ∀ r ∈ R, r ≤ n) (hn : n ≤ 128 * (m + 1))
    (hmem : ∀ i, 1 ≤ i → i ≤ m → 128 * i + 1 ∈ R) (p : Nat) (hp : p ≤ R.length) :
    partition_end R n grid p - partition_begin R p ≤ 128 ∨
      (partition_begin R p = 0 ∧ partition_end R n grid p = 129) := by
  obtain ⟨b1, b2⟩ := partition_bounds R n grid hgrid hs hb p hp
  by_contra hcon
  rw [not_or] at hcon
  obtain ⟨h1, h2⟩ := hcon
  by_cases hlo : partition_begin R p = 0
  · have hc := hmem 1 (le_refl _) (by omega)
    rcases partition_excludes R n grid hgrid hs _ hc p hp with h | h <;> omega
  · have hc := hmem ((partition_begin R p - 1) / 128 + 1) (by omega) (by omega)
    rcases partition_excludes R n grid hgrid hs _ hc p hp with h | h <;> omega

/-- The partitions up to a boundary end at or before its rank, and the
partitions after it begin at or after its rank. -/
theorem partition_sides (R : List Nat) (n grid : Nat) (hgrid : grid = R.length + 1)
    (hs : R.Pairwise (· ≤ ·)) (i p q : Nat) (hi : i < R.length) (hp : p ≤ i) (hq : i < q)
    (hq2 : q ≤ R.length) :
    partition_end R n grid p ≤ R[i] ∧ R[i] ≤ partition_begin R q := by
  constructor
  · rw [partition_end_lt R n grid p hgrid (by omega)]
    exact sorted_getElem_le R hs p i hp hi
  · obtain ⟨q', rfl⟩ : ∃ q', q = q' + 1 := ⟨q - 1, by omega⟩
    rw [partition_begin_succ R q' (by omega)]
    exact sorted_getElem_le R hs i q' (by omega) (by omega)

/-! ## The splitters of sorted inputs with the same number of blocks -/

theorem le_ceil_div_mul (n : Nat) : n ≤ 128 * ceil_div n 128 := by
  unfold ceil_div
  simp only
  split <;> omega

theorem ceil_div_pos (n : Nat) (h : 0 < n) : 0 < ceil_div n 128 := by
  unfold ceil_div
  simp only
  split <;> omega

theorem same_blocks_in_range (n1 n2 : Nat) (hk : ceil_div n1 128 = ceil_div n2 128) :
    ∀ i, 1 ≤ i → i < ceil_div n1 128 → 128 * i < n2 := by
  intro i hi1 hi2
  have := sample_index_lt n2 (i - 1) (by rw [← hk]; omega)
  have e : i - 1 + 1 = i := by omega
  rw [e] at this
  exact this

theorem splitters_of_sorted {comp : α → α → Bool} (hcomp : StrictWeakOrdering comp)
    {first : Nat → α} {n : Nat} (h : scalar.is_sorted comp first n = true) (start m : Nat)
    (hm : ∀ i, i < m → 128 * (i + 1) < n) :
    (splitters_of (zip_counter first start) 128 m).Pairwise
      (fun a b => tagged_less comp b a = false) := by
  unfold splitters_of load
  rw [List.pairwise_map]
  apply (List.pairwise_lt_range m).imp_of_mem
  intro i j hi hj hij
  simp only [make_splitter_iterator, make_leapfrog_iterator, mult_by]
  have hj' := hm j (List.mem_range.mp hj)
  exact zip_counter_sorted hcomp h start _ _ (by omega) (by omega)

/-- The Splitter Set of inputs sorted under `less` is non-decreasing in the
tagged order of `less`, when the second range is sampled inside it. -/
theorem splitters_sorted {less : α → α → Bool} (hless : StrictWeakOrdering less)
    {first1 : Nat → α} {n1 : Nat} {first2 : Nat → α} {n2 : Nat}
    (h1 : scalar.is_sorted less first1 n1 = true) (h2 : scalar.is_sorted less first2 n2 = true)
    (hrange : ∀ i, 1 ≤ i → i < ceil_div n1 128 → 128 * i < n2) :
    (splitters 128 less first1 n1 first2).Pairwise
      (fun a b => tagged_less less b a = false) := by
  unfold splitters make_merge_iterator
  have e : tuple_less less = tagged_less less := rfl
  rw [e]
  apply two_way_merge_sorted (tagged_less_strictWeakOrdering hless)
  · exact splitters_of_sorted hless h1 0 _ (fun i hi => sample_index_lt n1 i hi)
  · exact splitters_of_sorted hless h2 n1 _ (fun i hi => hrange (i + 1) (by omega) (by omega))

theorem splitter_ranks1_sorted {less : α → α → Bool} (hless : StrictWeakOrdering less)
    {first1 : Nat → α} {n1 : Nat} {first2 : Nat → α} {n2 : Nat}
    (h1 : scalar.is_sorted less first1 n1 = true) (h2 : scalar.is_sorted less first2 n2 = true)
    (hrange : ∀ i, 1 ≤ i → i < ceil_div n1 128 → 128 * i < n2) :
    (splitter_ranks1 128 less less first1 n1 first2).Pairwise (· ≤ ·) := by
  unfold splitter_ranks1 upper_bound
  rw [List.pairwise_map]
  apply (splitters_sorted hless h1 h2 hrange).imp_of_mem
  intro s t hs ht hst
  exact rank_in_first_mono hless h1 s t
    (splitter_well_placed hless less h1 h2 hrange s hs).1
    (splitter_well_placed hless less h1 h2 hrange t ht).1 hst

theorem splitter_ranks2_sorted {less : α → α → Bool} (hless : StrictWeakOrdering less)
    {first1 : Nat → α} {n1 : Nat} {first2 : Nat → α} {n2 : Nat}
    (h1 : scalar.is_sorted less first1 n1 = true) (h2 : scalar.is_sorted less first2 n2 = true)
    (hrange : ∀ i, 1 ≤ i → i < ceil_div n1 128 → 128 * i < n2) :
    (splitter_ranks2 128 less less first1 n1 first2 n2).Pairwise (· ≤ ·) := by
  unfold splitter_ranks2 lower_bound
  rw [List.pairwise_map]
  apply (splitters_sorted hless h1 h2 hrange).imp_of_mem
  intro s t hs ht hst
  exact rank_in_second_mono hless n1 h2 s t
    (splitter_well_placed hless less h1 h2 hrange s hs).2
    (splitter_well_placed hless less h1 h2 hrange t ht).2 hst

theorem splitter_ranks1_le {less : α → α → Bool} (hless : StrictWeakOrdering less)
    {first1 : Nat → α} {n1 : Nat} {first2 : Nat → α} {n2 : Nat}
    (h1 : scalar.is_sorted less first1 n1 = true) (h2 : scalar.is_sorted less first2 n2 = true)
    (hrange : ∀ i, 1 ≤ i → i < ceil_div n1 128 → 128 * i < n2) :
    ∀ r ∈ splitter_ranks1 128 less less first1 n1 first2, r ≤ n1 := by
  intro r hr
  unfold splitter_ranks1 upper_bound at hr
  obtain ⟨s, hs, rfl⟩ := List.mem_map.mp hr
  exact (rank_in_first_spec hless h1 s (splitter_well_placed hless less h1 h2 hrange s hs).1).1

theorem splitter_ranks2_le {less : α → α → Bool} (hless : StrictWeakOrdering less)
    {first1 : Nat → α} {n1 : Nat} {first2 : Nat → α} {n2 : Nat}
    (h1 : scalar.is_sorted less first1 n1 = true) (h2 : scalar.is_sorted less first2 n2 = true)
    (hrange : ∀ i, 1 ≤ i → i < ceil_div n1 128 → 128 * i < n2) :
    ∀ r ∈ splitter_ranks2 128 less less first1 n1 first2 n2, r ≤ n2 := by
  intro r hr
  unfold splitter_ranks2 lower_bound at hr
  obtain ⟨s, hs, rfl⟩ := List.mem_map.mp hr
  exact (rank_in_second_spec hless n1 h2 s (splitter_well_placed hless less h1 h2 hrange s hs).2).1

theorem first_sample_mem_splitters (less : α → α → Bool) (first1 : Nat → α) (n1 : Nat)
    (first2 : Nat → α) (i : Nat) (hi1 : 1 ≤ i) (hi2 : i < ceil_div n1 128) :
    zip_counter first1 0 (128 * i) ∈ splitters 128 less first1 n1 first2 := by
  unfold splitters make_merge_iterator
  rw [mem_two_way_merge, mem_splitters_of]
  exact Or.inl ⟨i - 1, by omega, by congr 2; omega⟩

theorem second_sample_mem_splitters (less : α → α → Bool) (first1 : Nat → α) (n1 : Nat)
    (first2 : Nat → α) (i : Nat) (hi1 : 1 ≤ i) (hi2 : i < ceil_div n1 128) :
    zip_counter first2 n1 (128 * i) ∈ splitters 128 less first1 n1 first2 := by
  unfold splitters make_merge_iterator
  rw [mem_two_way_merge, mem_splitters_of, mem_splitters_of]
  exact Or.inr ⟨i - 1, by omega, by congr 2; omega⟩

/-- The cut that a well-placed splitter makes: no element of the second
range from its rank on compares before an element of the first range below
its rank, and every element of the second range below its rank compares
before every element of the first range from its rank on. -/
theorem splitter_cut {comp : α → α → Bool} (hcomp : StrictWeakOrdering comp)
    {first1 : Nat → α} {n1 : Nat} {first2 : Nat → α} {n2 : Nat}
    (h1 : scalar.is_sorted comp first1 n1 = true) (h2 : scalar.is_sorted comp first2 n2 = true)
    (s : α × Nat)
    (hs1 : ∀ i, i < n1 → s.2 < i → comp (first1 i) s.1 = false)
    (hs2 : ∀ i, i < n2 → n1 + i < s.2 → comp s.1 (first2 i) = false) :
    (∀ i j, i < scalar.upper_bound (strong_compare comp) (zip_counter first1 0) n1 s →
      scalar.lower_bound (strong_compare comp) (zip_counter first2 n1) n2 s ≤ j → j < n2 →
      comp (first2 j) (first1 i) = false) ∧
    (∀ i j, j < scalar.lower_bound (strong_compare comp) (zip_counter first2 n1) n2 s →
      scalar.upper_bound (strong_compare comp) (zip_counter first1 0) n1 s ≤ i → i < n1 →
      comp (first2 j) (first1 i) = true) := by
  have hT := tagged_less_strictWeakOrdering hcomp
  obtain ⟨a1, a2⟩ := rank_in_first_spec hcomp h1 s hs1
  obtain ⟨b1, b2⟩ := rank_in_second_spec hcomp n1 h2 s hs2
  constructor
  · intro i j hi hj hj2
    have x := (a2 i (by omega)).mp hi
    have y : tagged_less comp (zip_counter first2 n1 j) s = false := by
      cases hc : tagged_less comp (zip_counter first2 n1 j) s with
      | false => rfl
      | true =>
        have := (b2 j hj2).mpr hc
        omega
    have z := hT.not_before_trans _ _ _ y x
    rw [tagged_less_eq_false] at z
    exact z.1
  · intro i j hj hi hi2
    have x := (b2 j (by omega)).mp hj
    have y : tagged_less comp s (zip_counter first1 0 i) = true := by
      cases hc : tagged_less comp s (zip_counter first1 0 i) with
      | true => rfl
      | false =>
        have := (a2 i hi2).mpr hc
        omega
    have z := hT.trans _ _ _ x y
    rw [tagged_less_eq_true] at z
    rcases z with z | ⟨_, z⟩
    · exact z
    · simp only [zip_counter] at z
      omega

/-- The block writes the merge of its two slices when the second slice fits
the scratch and the elements of the first slice that do not fit come after
all of the second slice. -/
theorem partition_output_eq (block_size : Nat) (comp : α → α → Bool) (X Y : List α)
    (hY : Y.length ≤ block_size)
    (hX : ∀ b ∈ Y, ∀ a ∈ X.drop block_size, comp b a = true) :
    partition_output block_size comp X Y = two_way_merge comp X Y := by
  unfold partition_output
  split
  · rw [List.take_of_length_le hY, List.drop_of_length_le hY, List.append_nil]
    have := two_way_merge_split comp (X.take block_size) (X.drop block_size) Y []
      (by intro a _ b hb; simp at hb) hX
    rw [List.take_append_drop, List.append_nil, two_way_merge_nil_right] at this
    exact this.symm
  · rename_i h
    by_cases hx : X.length = 0
    · have : X = [] := List.length_eq_zero.mp hx
      subst this
      rfl
    · have hy : Y.length = 0 := by omega
      have : Y = [] := List.length_eq_zero.mp hy
      subst this
      rw [two_way_merge_nil_right, List.append_nil]

theorem splitter_ranks1_length (partition_size : Nat) (less comp : α → α → Bool)
    (first1 : Nat → α) (n1 : Nat) (first2 : Nat → α) :
    (splitter_ranks1 partition_size less comp first1 n1 first2).length
      = 2 * (ceil_div n1 partition_size - 1) := by
  simp [splitter_ranks1, upper_bound, splitters_length]

theorem splitter_ranks2_length (partition_size : Nat) (less comp : α → α → Bool)
    (first1 : Nat → α) (n1 : Nat) (first2 : Nat → α) (n2 : Nat) :
    (splitter_ranks2 partition_size less comp first1 n1 first2 n2).length
      = 2 * (ceil_div n1 partition_size - 1) := by
  simp [splitter_ranks2, lower_bound, splitters_length]

theorem load_congr (f g : Nat → α) (b n : Nat) (h : ∀ i, i < n → f (b + i) = g (b + i)) :
    load f b n = load g b n := by
  unfold load
  apply List.map_congr_left
  intro i hi
  exact h i (List.mem_range.mp hi)

/-- Writing a run right after a stretch of the storage extends the stretch by
the run. -/
theorem load_copy_append (W : List α) (st : Nat → α) (result len : Nat) :
    load (copy W st (result + len)).1 result (len + W.length) = load st result len ++ W := by
  rw [load_append]
  congr 1
  · apply load_congr
    intro i hi
    exact copy_fst_outside W st (result + len) (result + i) (Or.inl (by omega))
  · exact load_copy W st (result + len)

/-- The facts about partition `p` of sorted inputs with the same number of
blocks: it lies inside both inputs, its block writes the merge of its two
slices, and, when it is not the last one, the merge of the inputs splits at
its end. -/
theorem partition_facts {less : α → α → Bool} (hless : StrictWeakOrdering less)
    {first1 : Nat → α} {n1 : Nat} {first2 : Nat → α} {n2 : Nat}
    (h1 : scalar.is_sorted less first1 n1 = true) (h2 : scalar.is_sorted less first2 n2 = true)
    (hn1 : 0 < n1) (hk : ceil_div n1 128 = ceil_div n2 128)
    (p : Nat) (hp : p ≤ 2 * (ceil_div n1 128 - 1)) :
    (partition_begin (splitter_ranks1 128 less less first1 n1 first2) p
        ≤ partition_end (splitter_ranks1 128 less less first1 n1 first2) n1
            (2 * (ceil_div n1 128 - 1) + 1) p ∧
      partition_end (splitter_ranks1 128 less less first1 n1 first2) n1
        (2 * (ceil_div n1 128 - 1) + 1) p ≤ n1) ∧
    (partition_begin (splitter_ranks2 128 less less first1 n1 first2 n2) p
        ≤ partition_end (splitter_ranks2 128 less less first1 n1 first2 n2) n2
            (2 * (ceil_div n1 128 - 1) + 1) p ∧
      partition_end (splitter_ranks2 128 less less first1 n1 first2 n2) n2
        (2 * (ceil_div n1 128 - 1) + 1) p ≤ n2) ∧
    partition_output 128 less
        (load first1 (partition_begin (splitter_ranks1 128 less less first1 n1 first2) p)
          (partition_end (splitter_ranks1 128 less less first1 n1 first2) n1
              (2 * (ceil_div n1 128 - 1) + 1) p
            - partition_begin (splitter_ranks1 128 less less first1 n1 first2) p))
        (load first2 (partition_begin (splitter_ranks2 128 less less first1 n1 first2 n2) p)
          (partition_end (splitter_ranks2 128 less less first1 n1 first2 n2) n2
              (2 * (ceil_div n1 128 - 1) + 1) p
            - partition_begin (splitter_ranks2 128 less less first1 n1 first2 n2) p))
      = two_way_merge less
        (load first1 (partition_begin (splitter_ranks1 128 less less first1 n1 first2) p)
          (partition_end (splitter_ranks1 128 less less first1 n1 first2) n1
              (2 * (ceil_div n1 128 - 1) + 1) p
            - partition_begin (splitter_ranks1 128 less less first1 n1 first2) p))
        (load first2 (partition_begin (splitter_ranks2 128 less less first1 n1 first2 n2) p)
          (partition_end (splitter_ranks2 128 less less first1 n1 first2 n2) n2
              (2 * (ceil_div n1 128 - 1) + 1) p
            - partition_begin (splitter_ranks2 128 less less first1 n1 first2 n2) p)) ∧
    (p < 2 * (ceil_div n1 128 - 1) →
      (∀ i j, i < partition_end (splitter_ranks1 128 less less first1 n1 first2) n1
            (2 * (ceil_div n1 128 - 1) + 1) p →
          partition_end (splitter_ranks2 128 less less first1 n1 first2 n2) n2
            (2 * (ceil_div n1 128 - 1) + 1) p ≤ j → j < n2 →
          less (first2 j) (first1 i) = false) ∧
      (∀ i j, j < partition_end (splitter_ranks2 128 less less first1 n1 first2 n2) n2
            (2 * (ceil_div n1 128 - 1) + 1) p →
          partition_end (splitter_ranks1 128 less less first1 n1 first2) n1
            (2 * (ceil_div n1 128 - 1) + 1) p ≤ i → i < n1 →
          less (first2 j) (first1 i) = true)) := by
  have hrange := same_blocks_in_range n1 n2 hk
  have hkpos := ceil_div_pos n1 hn1
  have hS := splitters_length 128 less first1 n1 first2
  have hl1 := splitter_ranks1_length 128 less less first1 n1 first2
  have hl2 := splitter_ranks2_length 128 less less first1 n1 first2 n2
  have hs1 := splitter_ranks1_sorted hless h1 h2 hrange
  have hs2 := splitter_ranks2_sorted hless h1 h2 hrange
  have hb1 := splitter_ranks1_le hless h1 h2 hrange
  have hb2 := splitter_ranks2_le hless h1 h2 hrange
  have hg1 : 2 * (ceil_div n1 128 - 1) + 1
      = (splitter_ranks1 128 less less first1 n1 first2).length + 1 := by rw [hl1]
  have hg2 : 2 * (ceil_div n1 128 - 1) + 1
      = (splitter_ranks2 128 less less first1 n1 first2 n2).length + 1 := by rw [hl2]
  have hgS : 2 * (ceil_div n1 128 - 1) + 1
      = (splitters 128 less first1 n1 first2).length + 1 := by rw [hS]
  obtain ⟨bA1, bA2⟩ := partition_bounds _ n1 _ hg1 hs1 hb1 p (by rw [hl1]; exact hp)
  obtain ⟨bB1, bB2⟩ := partition_bounds _ n2 _ hg2 hs2 hb2 p (by rw [hl2]; exact hp)
  have hmem1 : ∀ i, 1 ≤ i → i ≤ ceil_div n1 128 - 1 →
      128 * i + 1 ∈ splitter_ranks1 128 less less first1 n1 first2 := by
    intro i hi1 hi2
    unfold splitter_ranks1 upper_bound
    refine List.mem_map.mpr ⟨zip_counter first1 0 (128 * i),
      first_sample_mem_splitters less first1 n1 first2 i hi1 (by omega), ?_⟩
    have := sample_index_lt n1 (i - 1) (by omega)
    exact rank_in_first_of_first hless h1 (128 * i) (by omega)
  have hmem2 : ∀ i, 1 ≤ i → i ≤ ceil_div n1 128 - 1 →
      128 * i ∈ splitter_ranks2 128 less less first1 n1 first2 n2 := by
    intro i hi1 hi2
    unfold splitter_ranks2 lower_bound
    refine List.mem_map.mpr ⟨zip_counter first2 n1 (128 * i),
      second_sample_mem_splitters less first1 n1 first2 i hi1 (by omega), ?_⟩
    exact rank_in_second_of_second hless n1 h2 (128 * i) (hrange i hi1 (by omega))
  have hle1 : n1 ≤ 128 * (ceil_div n1 128 - 1 + 1) := by
    have := le_ceil_div_mul n1
    have e : ceil_div n1 128 - 1 + 1 = ceil_div n1 128 := by omega
    rw [e]; exact this
  have hle2 : n2 ≤ 128 * (ceil_div n1 128 - 1 + 1) := by
    have := le_ceil_div_mul n2
    have e : ceil_div n1 128 - 1 + 1 = ceil_div n2 128 := by omega
    rw [e]; exact this
  have hsize2 := slice_second_le _ n2 _ (ceil_div n1 128 - 1) hg2 hs2 hb2 hle2 hmem2 p
    (by rw [hl2]; exact hp)
  have hsize1 := slice_first_le _ n1 _ (ceil_div n1 128 - 1) hg1 hs1 hb1 hle1 hmem1 p
    (by rw [hl1]; exact hp)
  refine ⟨⟨bA1, bA2⟩, ⟨bB1, bB2⟩, ?_, ?_⟩
  · apply partition_output_eq
    · rw [load_length]; exact hsize2
    · intro b hb a ha
      rcases hsize1 with hsmall | ⟨hlo, hhi⟩
      · rw [List.drop_of_length_le (by rw [load_length]; exact hsmall)] at ha
        simp at ha
      · rw [load_drop, hlo, hhi] at ha
        obtain ⟨i, hi, rfl⟩ := (mem_load _ _ _ _).mp ha
        obtain ⟨j, hj, rfl⟩ := (mem_load _ _ _ _).mp hb
        have hi0 : i = 0 := by omega
        subst hi0
        have hk2 : 1 < ceil_div n1 128 := by
          have := le_ceil_div_mul n1
          omega
        have hsmem := first_sample_mem_splitters less first1 n1 first2 1 (le_refl _) hk2
        have hcross := partition_cross (splitters 128 less first1 n1 first2)
          (scalar.upper_bound (strong_compare less) (zip_counter first1 0) n1)
          (scalar.lower_bound (strong_compare less) (zip_counter first2 n1) n2)
          n2 _ hgS hs1 hs2 _ hsmem p (by rw [hS]; exact hp)
        rw [rank_in_first_of_first hless h1 (128 * 1) (by omega)] at hcross
        have hcross2 : partition_end (splitter_ranks2 128 less less first1 n1 first2 n2) n2
            (2 * (ceil_div n1 128 - 1) + 1) p
            ≤ scalar.lower_bound (strong_compare less) (zip_counter first2 n1) n2
                (zip_counter first1 0 (128 * 1)) := by
          rcases hcross with hc | hc
          · have : partition_begin (splitter_ranks1 128 less less first1 n1 first2) p = 0 := hlo
            unfold splitter_ranks1 upper_bound at this
            omega
          · exact hc
        obtain ⟨_, r2⟩ := rank_in_second_spec hless n1 h2 (zip_counter first1 0 (128 * 1))
          (splitter_well_placed hless less h1 h2 hrange _ hsmem).2
        have hlt := (r2 (partition_begin (splitter_ranks2 128 less less first1 n1 first2 n2) p + j)
          (by omega)).mp (by omega)
        rw [tagged_less_eq_true] at hlt
        rcases hlt with hlt | ⟨_, hlt⟩
        · simpa [zip_counter] using hlt
        · simp only [zip_counter] at hlt
          omega
  · intro hplt
    have hpS : p < (splitters 128 less first1 n1 first2).length := by rw [hS]; exact hplt
    have e1 : partition_end (splitter_ranks1 128 less less first1 n1 first2) n1
        (2 * (ceil_div n1 128 - 1) + 1) p
        = scalar.upper_bound (strong_compare less) (zip_counter first1 0) n1
            ((splitters 128 less first1 n1 first2)[p]) := by
      rw [partition_end_lt _ n1 _ p hg1 (by rw [hl1]; exact hplt)]
      simp [splitter_ranks1, upper_bound]
    have e2 : partition_end (splitter_ranks2 128 less less first1 n1 first2 n2) n2
        (2 * (ceil_div n1 128 - 1) + 1) p
        = scalar.lower_bound (strong_compare less) (zip_counter first2 n1) n2
            ((splitters 128 less first1 n1 first2)[p]) := by
      rw [partition_end_lt _ n2 _ p hg2 (by rw [hl2]; exact hplt)]
      simp [splitter_ranks2, lower_bound]
    rw [e1, e2]
    have hwp := splitter_well_placed hless less h1 h2 hrange _ (List.getElem_mem hpS)
    exact splitter_cut hless h1 h2 _ hwp.1 hwp.2

theorem merge_kernel_launch_succ (block_size : Nat) (less comp : α → α → Bool)
    (first1 : Nat → α) (n1 : Nat) (first2 : Nat → α) (n2 : Nat) (out : Nat → α) (result t : Nat) :
    merge_kernel_launch block_size less comp first1 n1 first2 n2 out result (List.range (t + 1))
      = merge_kernel block_size (2 * (ceil_div n1 block_size - 1) + 1) t first1 n1 first2 n2
          (splitter_ranks1 block_size less comp first1 n1 first2)
          (splitter_ranks2 block_size less comp first1 n1 first2 n2)
          (merge_kernel_launch block_size less comp first1 n1 first2 n2 out result (List.range t))
          result comp := by
  unfold merge_kernel_launch
  rw [List.range_succ, List.foldl_append]
  rfl

/-- After the blocks `0, ..., t - 1` the output holds, up to the beginning of
partition `t`, the part of the merge of the inputs that precedes the merge of
what is left of the inputs. -/
theorem launch_upto {less : α → α → Bool} (hless : StrictWeakOrdering less)
    {first1 : Nat → α} {n1 : Nat} {first2 : Nat → α} {n2 : Nat}
    (h1 : scalar.is_sorted less first1 n1 = true) (h2 : scalar.is_sorted less first2 n2 = true)
    (hn1 : 0 < n1) (hk : ceil_div n1 128 = ceil_div n2 128)
    (out : Nat → α) (result t : Nat) (ht : t ≤ 2 * (ceil_div n1 128 - 1)) :
    load (merge_kernel_launch 128 less less first1 n1 first2 n2 out result (List.range t)) result
        (partition_begin (splitter_ranks1 128 less less first1 n1 first2) t
          + partition_begin (splitter_ranks2 128 less less first1 n1 first2 n2) t)
      ++ two_way_merge less
          (load first1 (partition_begin (splitter_ranks1 128 less less first1 n1 first2) t)
            (n1 - partition_begin (splitter_ranks1 128 less less first1 n1 first2) t))
          (load first2 (partition_begin (splitter_ranks2 128 less less first1 n1 first2 n2) t)
            (n2 - partition_begin (splitter_ranks2 128 less less first1 n1 first2 n2) t))
      = two_way_merge less (load first1 0 n1) (load first2 0 n2) := by
  induction t with
  | zero =>
    simp [partition_begin_zero, load_zero]
  | succ t ih =>
    have ih := ih (by omega)
    obtain ⟨⟨a1, a2⟩, ⟨b1, b2⟩, hW, hcut⟩ := partition_facts hless h1 h2 hn1 hk t (by omega)
    obtain ⟨c1, c2⟩ := hcut (by omega)
    have hl1 := splitter_ranks1_length 128 less less first1 n1 first2
    have hl2 := splitter_ranks2_length 128 less less first1 n1 first2 n2
    have e1 : partition_begin (splitter_ranks1 128 less less first1 n1 first2) (t + 1)
        = partition_end (splitter_ranks1 128 less less first1 n1 first2) n1
            (2 * (ceil_div n1 128 - 1) + 1) t := by
      rw [partition_begin_succ _ t (by rw [hl1]; omega),
        partition_end_lt _ n1 _ t (by rw [hl1]) (by rw [hl1]; omega)]
    have e2 : partition_begin (splitter_ranks2 128 less less first1 n1 first2 n2) (t + 1)
        = partition_end (splitter_ranks2 128 less less first1 n1 first2 n2) n2
            (2 * (ceil_div n1 128 - 1) + 1) t := by
      rw [partition_begin_succ _ t (by rw [hl2]; omega),
        partition_end_lt _ n2 _ t (by rw [hl2]) (by rw [hl2]; omega)]
    rw [e1, e2, merge_kernel_launch_succ, merge_kernel_writes, hW]
    generalize hb1 : partition_begin (splitter_ranks1 128 less less first1 n1 first2) t = pb1
      at ih a1 a2 ⊢
    generalize hb2 : partition_begin (splitter_ranks2 128 less less first1 n1 first2 n2) t = pb2
      at ih b1 b2 ⊢
    generalize he1 : partition_end (splitter_ranks1 128 less less first1 n1 first2) n1
      (2 * (ceil_div n1 128 - 1) + 1) t = pe1 at a1 a2 c1 c2 ⊢
    generalize he2 : partition_end (splitter_ranks2 128 less less first1 n1 first2 n2) n2
      (2 * (ceil_div n1 128 - 1) + 1) t = pe2 at b1 b2 c1 c2 ⊢
    generalize merge_kernel_launch 128 less less first1 n1 first2 n2 out result (List.range t)
      = st at ih ⊢
    have hlen : pe1 + pe2 = (pb1 + pb2)
        + (two_way_merge less (load first1 pb1 (pe1 - pb1)) (load first2 pb2 (pe2 - pb2))).length := by
      rw [two_way_merge_length, load_length, load_length]
      omega
    have hoff : result + pb1 + pb2 = result + (pb1 + pb2) := by omega
    rw [hlen, hoff, load_copy_append, List.append_assoc]
    have hsplit := two_way_merge_split less
      (load first1 pb1 (pe1 - pb1)) (load first1 pe1 (n1 - pe1))
      (load first2 pb2 (pe2 - pb2)) (load first2 pe2 (n2 - pe2))
      (by
        intro a ha b hb
        obtain ⟨i, hi, rfl⟩ := (mem_load _ _ _ _).mp ha
        obtain ⟨j, hj, rfl⟩ := (mem_load _ _ _ _).mp hb
        exact c1 _ _ (by omega) (by omega) (by omega))
      (by
        intro b hb a ha
        obtain ⟨i, hi, rfl⟩ := (mem_load _ _ _ _).mp ha
        obtain ⟨j, hj, rfl⟩ := (mem_load _ _ _ _).mp hb
        exact c2 _ _ (by omega) (by omega) (by omega))
    have hA : load first1 pb1 (n1 - pb1)
        = load first1 pb1 (pe1 - pb1) ++ load first1 pe1 (n1 - pe1) := by
      have e : n1 - pb1 = (pe1 - pb1) + (n1 - pe1) := by omega
      rw [e, load_append]
      congr 2
      omega
    have hB : load first2 pb2 (n2 - pb2)
        = load first2 pb2 (pe2 - pb2) ++ load first2 pe2 (n2 - pe2) := by
      have e : n2 - pb2 = (pe2 - pb2) + (n2 - pe2) := by omega
      rw [e, load_append]
      congr 2
      omega
    rw [← hsplit, ← hA, ← hB]
    exact ih

/-- The output of the launch on sorted inputs with the same number of blocks
is the two-way merge of the inputs. -/
theorem launch_output {less : α → α → Bool} (hless : StrictWeakOrdering less)
    {first1 : Nat → α} {n1 : Nat} {first2 : Nat → α} {n2 : Nat}
    (h1 : scalar.is_sorted less first1 n1 = true) (h2 : scalar.is_sorted less first2 n2 = true)
    (hn1 : 0 < n1) (hk : ceil_div n1 128 = ceil_div n2 128) (out : Nat → α) (result : Nat) :
    load (merge_kernel_launch 128 less less first1 n1 first2 n2 out result
        (List.range (2 * (ceil_div n1 128 - 1) + 1))) result (n1 + n2)
      = two_way_merge less (load first1 0 n1) (load first2 0 n2) := by
  have hpre := launch_upto hless h1 h2 hn1 hk out result (2 * (ceil_div n1 128 - 1)) (le_refl _)
  obtain ⟨⟨a1, a2⟩, ⟨b1, b2⟩, hW, _⟩ :=
    partition_facts hless h1 h2 hn1 hk (2 * (ceil_div n1 128 - 1)) (le_refl _)
  have hl1 := splitter_ranks1_length 128 less less first1 n1 first2
  have hl2 := splitter_ranks2_length 128 less less first1 n1 first2 n2
  have e1 : partition_end (splitter_ranks1 128 less less first1 n1 first2) n1
      (2 * (ceil_div n1 128 - 1) + 1) (2 * (ceil_div n1 128 - 1)) = n1 := by
    have := partition_end_last (splitter_ranks1 128 less less first1 n1 first2) n1
      (2 * (ceil_div n1 128 - 1) + 1) (by rw [hl1])
    rw [hl1] at this
    exact this
  have e2 : partition_end (splitter_ranks2 128 less less first1 n1 first2 n2) n2
      (2 * (ceil_div n1 128 - 1) + 1) (2 * (ceil_div n1 128 - 1)) = n2 := by
    have := partition_end_last (splitter_ranks2 128 less less first1 n1 first2 n2) n2
      (2 * (ceil_div n1 128 - 1) + 1) (by rw [hl2])
    rw [hl2] at this
    exact this
  rw [e1] at a1 hW
  rw [e2] at b1 hW
  rw [merge_kernel_launch_succ, merge_kernel_writes, e1, e2, hW]
  generalize partition_begin (splitter_ranks1 128 less less first1 n1 first2)
    (2 * (ceil_div n1 128 - 1)) = pb1 at hpre a1 ⊢
  generalize partition_begin (splitter_ranks2 128 less less first1 n1 first2 n2)
    (2 * (ceil_div n1 128 - 1)) = pb2 at hpre b1 ⊢
  generalize merge_kernel_launch 128 less less first1 n1 first2 n2 out result
    (List.range (2 * (ceil_div n1 128 - 1))) = st at hpre ⊢
  have hlen : n1 + n2 = (pb1 + pb2)
      + (two_way_merge less (load first1 pb1 (n1 - pb1)) (load first2 pb2 (n2 - pb2))).length := by
    rw [two_way_merge_length, load_length, load_length]
    omega
  have hoff : result + pb1 + pb2 = result + (pb1 + pb2) := by omega
  rw [hlen, hoff, load_copy_append]
  exact hpre

theorem load_sorted {comp : α → α → Bool} (hcomp : StrictWeakOrdering comp)
    {first : Nat → α} {n : Nat} (h : scalar.is_sorted comp first n = true) :
    (load first 0 n).Pairwise (fun a b => comp b a = false) := by
  unfold load
  rw [List.pairwise_map]
  apply (List.pairwise_lt_range n).imp_of_mem
  intro i j hi hj hij
  simp only [Nat.zero_add]
  exact is_sorted_pairwise hcomp h i j (by omega) (List.mem_range.mp hj)

/-! ## The order of the blocks -/

/-- The output ranges of the partitions of sorted inputs sampled in range
follow one another: a partition ends, in the output, at or before the
beginning of every later partition. -/
theorem partition_output_ranges {less : α → α → Bool} (hless : StrictWeakOrdering less)
    {first1 : Nat → α} {n1 : Nat} {first2 : Nat → α} {n2 : Nat}
    (h1 : scalar.is_sorted less first1 n1 = true) (h2 : scalar.is_sorted less first2 n2 = true)
    (hrange : ∀ i, 1 ≤ i → i < ceil_div n1 128 → 128 * i < n2)
    (p q : Nat) (hpq : p < q) (hq : q ≤ 2 * (ceil_div n1 128 - 1)) :
    partition_begin (splitter_ranks1 128 less less first1 n1 first2) p
        + partition_begin (splitter_ranks2 128 less less first1 n1 first2 n2) p
        + ((partition_end (splitter_ranks1 128 less less first1 n1 first2) n1
              (2 * (ceil_div n1 128 - 1) + 1) p
            - partition_begin (splitter_ranks1 128 less less first1 n1 first2) p)
          + (partition_end (splitter_ranks2 128 less less first1 n1 first2 n2) n2
              (2 * (ceil_div n1 128 - 1) + 1) p
            - partition_begin (splitter_ranks2 128 less less first1 n1 first2 n2) p))
      ≤ partition_begin (splitter_ranks1 128 less less first1 n1 first2) q
        + partition_begin (splitter_ranks2 128 less less first1 n1 first2 n2) q := by
  have hl1 := splitter_ranks1_length 128 less less first1 n1 first2
  have hl2 := splitter_ranks2_length 128 less less first1 n1 first2 n2
  have hs1 := splitter_ranks1_sorted hless h1 h2 hrange
  have hs2 := splitter_ranks2_sorted hless h1 h2 hrange
  have hb1 := splitter_ranks1_le hless h1 h2 hrange
  have hb2 := splitter_ranks2_le hless h1 h2 hrange
  have hg1 : 2 * (ceil_div n1 128 - 1) + 1
      = (splitter_ranks1 128 less less first1 n1 first2).length + 1 := by rw [hl1]
  have hg2 : 2 * (ceil_div n1 128 - 1) + 1
      = (splitter_ranks2 128 less less first1 n1 first2 n2).length + 1 := by rw [hl2]
  obtain ⟨sA1, sA2⟩ := partition_sides _ n1 _ hg1 hs1 p p q (by rw [hl1]; omega) (le_refl _) hpq
    (by rw [hl1]; exact hq)
  obtain ⟨sB1, sB2⟩ := partition_sides _ n2 _ hg2 hs2 p p q (by rw [hl2]; omega) (le_refl _) hpq
    (by rw [hl2]; exact hq)
  obtain ⟨bA, _⟩ := partition_bounds _ n1 _ hg1 hs1 hb1 p (by rw [hl1]; omega)
  obtain ⟨bB, _⟩ := partition_bounds _ n2 _ hg2 hs2 hb2 p (by rw [hl2]; omega)
  omega

/-- On sorted inputs sampled in range, two blocks of the launch can run in
either order: they write to stretches of the output that do not overlap. -/
theorem merge_kernel_comm {less : α → α → Bool} (hless : StrictWeakOrdering less)
    {first1 : Nat → α} {n1 : Nat} {first2 : Nat → α} {n2 : Nat}
    (h1 : scalar.is_sorted less first1 n1 = true) (h2 : scalar.is_sorted less first2 n2 = true)
    (hrange : ∀ i, 1 ≤ i → i < ceil_div n1 128 → 128 * i < n2)
    (p q : Nat) (hp : p ≤ 2 * (ceil_div n1 128 - 1)) (hq : q ≤ 2 * (ceil_div n1 128 - 1))
    (o : Nat → α) (result : Nat) :
    merge_kernel 128 (2 * (ceil_div n1 128 - 1) + 1) q first1 n1 first2 n2
        (splitter_ranks1 128 less less first1 n1 first2)
        (splitter_ranks2 128 less less first1 n1 first2 n2)
        (merge_kernel 128 (2 * (ceil_div n1 128 - 1) + 1) p first1 n1 first2 n2
          (splitter_ranks1 128 less less first1 n1 first2)
          (splitter_ranks2 128 less less first1 n1 first2 n2) o result less)
        result less
      = merge_kernel 128 (2 * (ceil_div n1 128 - 1) + 1) p first1 n1 first2 n2
        (splitter_ranks1 128 less less first1 n1 first2)
        (splitter_ranks2 128 less less first1 n1 first2 n2)
        (merge_kernel 128 (2 * (ceil_div n1 128 - 1) + 1) q first1 n1 first2 n2
          (splitter_ranks1 128 less less first1 n1 first2)
          (splitter_ranks2 128 less less first1 n1 first2 n2) o result less)
        result less := by
  rcases Nat.lt_trichotomy p q with hpq | hpq | hpq
  · have hd := partition_output_ranges hless h1 h2 hrange p q hpq hq
    simp only [merge_kernel_writes]
    apply copy_comm
    left
    rw [partition_output_length, load_length, load_length]
    omega
  · subst hpq
    rfl
  · have hd := partition_output_ranges hless h1 h2 hrange q p hpq hp
    simp only [merge_kernel_writes]
    apply copy_comm
    right
    rw [partition_output_length, load_length, load_length]
    omega

/-- On sorted inputs sampled in range, the launch leaves the same storage in
whatever order the blocks run. -/
theorem launch_any_order {less : α → α → Bool} (hless : StrictWeakOrdering less)
    {first1 : Nat → α} {n1 : Nat} {first2 : Nat → α} {n2 : Nat}
    (h1 : scalar.is_sorted less first1 n1 = true) (h2 : scalar.is_sorted less first2 n2 = true)
    (hrange : ∀ i, 1 ≤ i → i < ceil_div n1 128 → 128 * i < n2)
    (out : Nat → α) (result : Nat) (order : List Nat)
    (horder : order.Perm (List.range (2 * (ceil_div n1 128 - 1) + 1))) :
    merge_kernel_launch 128 less less first1 n1 first2 n2 out result order
      = merge_kernel_launch 128 less less first1 n1 first2 n2 out result
          (List.range (2 * (ceil_div n1 128 - 1) + 1)) := by
  unfold merge_kernel_launch
  apply List.Perm.foldl_eq' horder
  intro p hp q hq o
  have hp2 := List.mem_range.mp (horder.mem_iff.mp hp)
  have hq2 := List.mem_range.mp (horder.mem_iff.mp hq)
  exact merge_kernel_comm hless h1 h2 hrange p q (by omega) (by omega) o result

/-- C20: for non-empty inputs sorted under less-than (any strict weak
ordering `less` of the values, used as the comparator) that need the same
number of blocks of 128 elements, the output sequence of `merge` is the
sequential stable two-way merge of the two inputs, which takes the element of
the first input on a tie.  It is non-decreasing and a permutation of the two
inputs.  The order in which the blocks of the launch run plays no part: run in
any order of the block indices, each block once, they leave the storage that
`merge` returns, which holds the sequential merge from `result` on. -/
theorem merge_same_blocks (less : α → α → Bool) (hless : StrictWeakOrdering less)
    (first1 : Nat → α) (n1 : Nat) (first2 : Nat → α) (n2 : Nat) (out : Nat → α) (result : Nat)
    (hn1 : 0 < n1) (hn2 : 0 < n2)
    (h1 : scalar.is_sorted less first1 n1 = true) (h2 : scalar.is_sorted less first2 n2 = true)
    (hk : ceil_div n1 128 = ceil_div n2 128) :
    output (merge less less first1 n1 first2 n2 out result) result
      = sequential_merge less (load first1 0 n1) (load first2 0 n2) ∧
    (output (merge less less first1 n1 first2 n2 out result) result).Pairwise
      (fun a b => less b a = false) ∧
    (output (merge less less first1 n1 first2 n2 out result) result).Perm
      (load first1 0 n1 ++ load first2 0 n2) ∧
    (∀ order : List Nat, order.Perm (List.range (2 * (ceil_div n1 128 - 1) + 1)) →
      merge_kernel_launch 128 less less first1 n1 first2 n2 out result order
        = (merge less less first1 n1 first2 n2 out result).1 ∧
      load (merge_kernel_launch 128 less less first1 n1 first2 n2 out result order) result
          (n1 + n2)
        = sequential_merge less (load first1 0 n1) (load first2 0 n2)) := by
  have hout : output (merge less less first1 n1 first2 n2 out result) result
      = two_way_merge less (load first1 0 n1) (load first2 0 n2) := by
    unfold merge
    rw [merge_with_eq_launch 128 less less first1 n1 first2 n2 out result hn1 hn2]
    unfold output
    have e : result + n1 + n2 - result = n1 + n2 := by omega
    simp only [e]
    exact launch_output hless h1 h2 hn1 hk out result
  refine ⟨?_, ?_, ?_, ?_⟩
  · rw [hout, sequential_merge_eq]
  · rw [hout]
    exact two_way_merge_sorted hless _ _ (load_sorted hless h1) (load_sorted hless h2)
  · rw [hout]
    exact two_way_merge_perm less _ _
  · intro order horder
    have hany := launch_any_order hless h1 h2 (same_blocks_in_range n1 n2 hk) out result order
      horder
    constructor
    · rw [hany]
      unfold merge
      rw [merge_with_eq_launch 128 less less first1 n1 first2 n2 out result hn1 hn2]
    · rw [hany, launch_output hless h1 h2 hn1 hk out result, sequential_merge_eq]

/-! ## When no splitters are generated -/

/-- C13, as the code has it: when an input is empty or the first input has
at most 128 elements, the Splitter Set that `merge` computes is empty, and a
call on non-empty inputs launches the single block 0.  The length of the
second input alone does not decide it. -/
theorem no_splitters (less comp : α → α → Bool)
    (first1 : Nat → α) (n1 : Nat) (first2 : Nat → α) (n2 : Nat) (out : Nat → α) (result : Nat)
    (h : n1 = 0 ∨ n2 = 0 ∨ n1 ≤ 128) :
    splitter_set less first1 n1 first2 n2 = [] ∧
    (0 < n1 → 0 < n2 →
      (merge less comp first1 n1 first2 n2 out result).1
        = merge_kernel_launch 128 less comp first1 n1 first2 n2 out result [0]) := by
  constructor
  · unfold splitter_set
    by_cases h1 : n1 = 0
    · by_cases h2 : n2 = 0 <;> simp [h1, h2]
    · by_cases h2 : n2 = 0
      · simp [h1, h2]
      · have h3 : n1 ≤ 128 := by omega
        simp only [h1, h2, false_and, if_false]
        exact splitters_eq_nil less first1 n1 first2
          (by rw [ceil_div_eq_one n1 (by omega) h3])
  · intro hn1 hn2
    have h3 : n1 ≤ 128 := by omega
    unfold merge
    rw [merge_with_eq_launch 128 less comp first1 n1 first2 n2 out result hn1 hn2,
      ceil_div_eq_one n1 hn1 h3]
    rfl

/-! ## The comparison of tagged elements -/

/-- C11, as the code has it: for a strict weak ordering `comp` the comparison
`strong_compare` is irreflexive, and of two tagged elements with distinct
origin-indices at least one compares before the other.  It agrees with the
tagged order on every pair in which the element with the larger index does
not have the smaller value, and the tagged order is a strict weak ordering
that is total on elements with distinct indices; so on the tagged elements of
one sorted range `strong_compare` is the order of the indices. -/
theorem strong_compare_order (comp : α → α → Bool) (hcomp : StrictWeakOrdering comp) :
    (∀ x : α × Nat, strong_compare comp x x = false) ∧
    (∀ x y : α × Nat, x.2 ≠ y.2 →
      strong_compare comp x y = true ∨ strong_compare comp y x = true) ∧
    (∀ x y : α × Nat, (x.2 < y.2 → comp y.1 x.1 = false) →
      strong_compare comp x y = tagged_less comp x y) ∧
    (StrictWeakOrdering (tagged_less comp) ∧
      ∀ x y : α × Nat, x.2 ≠ y.2 → tagged_less comp x y = true ∨ tagged_less comp y x = true) ∧
    (∀ (first : Nat → α) (n start : Nat), scalar.is_sorted comp first n = true →
      ∀ i j, i < n → j < n →
        strong_compare comp (zip_counter first start i) (zip_counter first start j)
          = decide (i < j)) := by
  refine ⟨?_, ?_, ?_, ⟨tagged_less_strictWeakOrdering hcomp, ?_⟩, ?_⟩
  · intro x
    simp [strong_compare, hcomp.irrefl]
  · intro x y hxy
    unfold strong_compare
    rcases Nat.lt_or_gt_of_ne hxy with h | h
    · left
      split
      · rfl
      · simpa using h
    · right
      split
      · rfl
      · simpa using h
  · intro x y h
    exact strong_compare_eq_tagged_less comp x y h
  · intro x y hxy
    rcases Nat.lt_or_gt_of_ne hxy with h | h
    · cases hc : comp y.1 x.1 with
      | true => right; rw [tagged_less_eq_true]; exact Or.inl hc
      | false => left; rw [tagged_less_eq_true]; exact Or.inr ⟨hc, h⟩
    · cases hc : comp x.1 y.1 with
      | true => left; rw [tagged_less_eq_true]; exact Or.inl hc
      | false => right; rw [tagged_less_eq_true]; exact Or.inr ⟨hc, h⟩
  · intro first n start hs i j hi hj
    rw [strong_compare_eq_tagged_less]
    · by_cases hij : i < j
      · rw [zip_counter_lt hcomp hs start i j hij hj]
        simp [hij]
      · rw [zip_counter_sorted hcomp hs start j i (by omega) hi]
        simp [hij]
    · intro hlt
      simp only [zip_counter] at hlt ⊢
      exact is_sorted_pairwise hcomp hs i j (by omega) hj

/-- Witness of `strong_compare_order`: less-than on natural numbers. -/
theorem strong_compare_order_witness :
    (∀ x : Nat × Nat, strong_compare nat_less x x = false) ∧
    (∀ x y : Nat × Nat, x.2 ≠ y.2 →
      strong_compare nat_less x y = true ∨ strong_compare nat_less y x = true) ∧
    (∀ x y : Nat × Nat, (x.2 < y.2 → nat_less y.1 x.1 = false) →
      strong_compare nat_less x y = tagged_less nat_less x y) ∧
    (StrictWeakOrdering (tagged_less nat_less) ∧
      ∀ x y : Nat × Nat, x.2 ≠ y.2 →
        tagged_less nat_less x y = true ∨ tagged_less nat_less y x = true) ∧
    (∀ (first : Nat → Nat) (n start : Nat), scalar.is_sorted nat_less first n = true →
      ∀ i j, i < n → j < n →
        strong_compare nat_less (zip_counter first start i) (zip_counter first start j)
          = decide (i < j)) :=
  strong_compare_order nat_less nat_less_strictWeakOrdering

/-- Witness of `splitter_ranks_count`: `A = [0, 1, ..., 199]` and
`B = [0, 2, ..., 298]` under less-than; the one index sampled from `B` is
128. -/
theorem splitter_ranks_count_witness :
    (scalar.is_sorted nat_less (iter (List.range 200) (fun _ => 0)) 200 = true ∧
      scalar.is_sorted nat_less (iter ((List.range 150).map (2 * ·)) (fun _ => 0)) 150 = true ∧
      ceil_div 200 128 = 2 ∧ 128 * 1 < 150) ∧
    (splitter_ranks1 128 nat_less nat_less (iter (List.range 200) (fun _ => 0)) 200
        (iter ((List.range 150).map (2 * ·)) (fun _ => 0))
      = (splitters 128 nat_less (iter (List.range 200) (fun _ => 0)) 200
          (iter ((List.range 150).map (2 * ·)) (fun _ => 0))).map
          (count_not_greater nat_less (zip_counter (iter (List.range 200) (fun _ => 0)) 0) 200) ∧
    splitter_ranks2 128 nat_less nat_less (iter (List.range 200) (fun _ => 0)) 200
        (iter ((List.range 150).map (2 * ·)) (fun _ => 0)) 150
      = (splitters 128 nat_less (iter (List.range 200) (fun _ => 0)) 200
          (iter ((List.range 150).map (2 * ·)) (fun _ => 0))).map
          (count_less nat_less
            (zip_counter (iter ((List.range 150).map (2 * ·)) (fun _ => 0)) 200) 150)) :=
  ⟨by decide,
   splitter_ranks_count nat_less nat_less nat_less_strictWeakOrdering
    (iter (List.range 200) (fun _ => 0)) 200
    (iter ((List.range 150).map (2 * ·)) (fun _ => 0)) 150 (by decide) (by decide)
    (by
      intro i h1 h2
      have h3 : ceil_div 200 128 = 2 := by decide
      rw [h3] at h2
      omega)⟩

/-- C9, as stated, fails on `A = B = [0, 1, ..., 128]` under less-than.  The
splitters are `(128, 128)`, taken from `A`, and `(128, 257)`, taken from `B`.
The rank of the first in `A` is 129, while 128 tagged elements of `A` are
strictly less than it in the tagged order. -/
theorem rank_in_first_range_counts_the_splitter :
    scalar.is_sorted nat_less (iter (List.range 129) (fun _ => 0)) 129 = true ∧
    splitters 128 nat_less (iter (List.range 129) (fun _ => 0)) 129
        (iter (List.range 129) (fun _ => 0))
      = [(128, 128), (128, 257)] ∧
    splitter_ranks1 128 nat_less nat_less (iter (List.range 129) (fun _ => 0)) 129
        (iter (List.range 129) (fun _ => 0))
      = [129, 129] ∧
    (splitters 128 nat_less (iter (List.range 129) (fun _ => 0)) 129
        (iter (List.range 129) (fun _ => 0))).map
        (count_less nat_less (zip_counter (iter (List.range 129) (fun _ => 0)) 0) 129)
      = [128, 129] ∧
    splitter_ranks1 128 nat_less nat_less (iter (List.range 129) (fun _ => 0)) 129
        (iter (List.range 129) (fun _ => 0))
      ≠ (splitters 128 nat_less (iter (List.range 129) (fun _ => 0)) 129
          (iter (List.range 129) (fun _ => 0))).map
          (count_less nat_less (zip_counter (iter (List.range 129) (fun _ => 0)) 0) 129) := by
  decide


/-! ## Inputs on which the second range has more blocks than the first -/

/-- C1: on the sorted inputs `A = [5]` and `B` = 129 ones, `merge` with
less-than loads 128 elements of `B`, merges them with `A` and appends the
last element of `B` unmerged: the output ends in `5, 1`, while the sequential
two-way merge ends in `1, 5`. -/
theorem merge_differs_from_sequential_merge :
    scalar.is_sorted nat_less (iter [5] (fun _ => 0)) 1 = true ∧
    scalar.is_sorted nat_less (iter (List.replicate 129 1) (fun _ => 0)) 129 = true ∧
    output (merge nat_less nat_less (iter [5] (fun _ => 0)) 1
        (iter (List.replicate 129 1) (fun _ => 0)) 129 (fun _ => 0) 0) 0
      = List.replicate 128 1 ++ [5, 1] ∧
    sequential_merge nat_less [5] (List.replicate 129 1) = List.replicate 129 1 ++ [5] ∧
    output (merge nat_less nat_less (iter [5] (fun _ => 0)) 1
        (iter (List.replicate 129 1) (fun _ => 0)) 129 (fun _ => 0) 0) 0
      ≠ sequential_merge nat_less [5] (List.replicate 129 1) := by
  decide

/-- C2: on the sorted inputs `A = [500]` and `B = [0, 1, ..., 128]` the
output of `merge` with less-than is `0, ..., 127, 500, 128`: position 129
holds 128, which compares before the 500 of position 128. -/
theorem merge_output_unsorted :
    StrictWeakOrdering nat_less ∧
    scalar.is_sorted nat_less (iter [500] (fun _ => 0)) 1 = true ∧
    scalar.is_sorted nat_less (iter (List.range 129) (fun _ => 0)) 129 = true ∧
    output (merge nat_less nat_less (iter [500] (fun _ => 0)) 1
        (iter (List.range 129) (fun _ => 0)) 129 (fun _ => 0) 0) 0
      = List.range 128 ++ [500, 128] ∧
    nat_less
      ((merge nat_less nat_less (iter [500] (fun _ => 0)) 1
        (iter (List.range 129) (fun _ => 0)) 129 (fun _ => 0) 0).1 129)
      ((merge nat_less nat_less (iter [500] (fun _ => 0)) 1
        (iter (List.range 129) (fun _ => 0)) 129 (fun _ => 0) 0).1 128) = true :=
  ⟨nat_less_strictWeakOrdering, by decide⟩

/-! ## Inputs on which the second range is sampled past its end -/

/-- C3: the sorted inputs are `A = [1, 2, ..., 130]` and `B = [200]`, where
`B` is the first element of a buffer that holds 0 from there on.  The
splitter sampled from the second range is `first2[128]`, which lies outside
`B`; the output of `merge` is `200, 1, ..., 128, 130, 200`: the element 129 of
`A` is written nowhere and the element 200 of `B` is written twice. -/
theorem merge_output_loses_element :
    scalar.is_sorted nat_less (iter ((List.range 130).map (· + 1)) (fun _ => 0)) 130 = true ∧
    scalar.is_sorted nat_less (iter [200] (fun _ => 0)) 1 = true ∧
    output (merge nat_less nat_less (iter ((List.range 130).map (· + 1)) (fun _ => 0)) 130
        (iter [200] (fun _ => 0)) 1 (fun _ => 0) 0) 0
      = 200 :: (List.range 128).map (· + 1) ++ [130, 200] ∧
    129 ∈ load (iter ((List.range 130).map (· + 1)) (fun _ => 0)) 0 130 ∧
    129 ∉ output (merge nat_less nat_less (iter ((List.range 130).map (· + 1)) (fun _ => 0)) 130
        (iter [200] (fun _ => 0)) 1 (fun _ => 0) 0) 0 := by
  decide

/-- C4: the values carry a key and a payload that records the origin, and
only the keys are compared.  `A` holds 130 elements of key 5, `B` holds one
element of key 5 and is the first element of a buffer that holds key 0 from
there on.  All elements of `A` and `B` are equivalent, and the output of
`merge` begins with the element of `B`, followed by the first element of
`A`. -/
theorem merge_output_unstable :
    StrictWeakOrdering key_less ∧
    scalar.is_sorted key_less (iter ((List.range 130).map (fun i => (5, i))) (fun _ => (0, 0)))
      130 = true ∧
    scalar.is_sorted key_less (iter [(5, 1000)] (fun _ => (0, 0))) 1 = true ∧
    key_less (5, 0) (5, 1000) = false ∧ key_less (5, 1000) (5, 0) = false ∧
    (output (merge key_less key_less
        (iter ((List.range 130).map (fun i => (5, i))) (fun _ => (0, 0))) 130
        (iter [(5, 1000)] (fun _ => (0, 0))) 1 (fun _ => (0, 0)) 0) 0).take 2
      = [(5, 1000), (5, 0)] :=
  ⟨key_less_strictWeakOrdering, by decide⟩

/-- C7: on the sorted inputs `A = [10, 11, ..., 139]` and `B = [300]`, where
`B` is the first element of a buffer that holds 0 from there on, the ranks of
the two splitters are `0, 129` in `A` and `1, 0` in `B`: partition 1 begins
at index 1 of `B` and ends at index 0, and partition 2 covers index 0 of `B`
a second time. -/
theorem splitter_ranks_not_monotone :
    scalar.is_sorted nat_less (iter ((List.range 130).map (· + 10)) (fun _ => 0)) 130 = true ∧
    scalar.is_sorted nat_less (iter [300] (fun _ => 0)) 1 = true ∧
    splitter_ranks1 128 nat_less nat_less
      (iter ((List.range 130).map (· + 10)) (fun _ => 0)) 130 (iter [300] (fun _ => 0))
      = [0, 129] ∧
    splitter_ranks2 128 nat_less nat_less
      (iter ((List.range 130).map (· + 10)) (fun _ => 0)) 130 (iter [300] (fun _ => 0)) 1
      = [1, 0] ∧
    partition_end (splitter_ranks2 128 nat_less nat_less
      (iter ((List.range 130).map (· + 10)) (fun _ => 0)) 130 (iter [300] (fun _ => 0)) 1) 1 3 1
      < partition_begin (splitter_ranks2 128 nat_less nat_less
      (iter ((List.range 130).map (· + 10)) (fun _ => 0)) 130 (iter [300] (fun _ => 0)) 1) 1 ∧
    (partition_begin [1, 0] 0, partition_end [1, 0] 1 3 0) = (0, 1) ∧
    (partition_begin [1, 0] 2, partition_end [1, 0] 1 3 2) = (0, 1) := by
  decide

/-- C8: on the sorted inputs `A = [20, 21, ..., 149]` and `B = [400]`, where
`B` is the first element of a buffer that holds 0 from there on, the ranks are
`0, 129` and `1, 0`.  Block 1 writes `A[0..129)` to the positions 1 to 129 and
block 2, whose output begins at `129 + 0` although the blocks 0 and 1 consume
`1 + 129` elements, writes `A[129], B[0]` to the positions 129 and 130: both
blocks write position 129. -/
theorem partition_outputs_overlap :
    scalar.is_sorted nat_less (iter ((List.range 130).map (· + 20)) (fun _ => 0)) 130 = true ∧
    scalar.is_sorted nat_less (iter [400] (fun _ => 0)) 1 = true ∧
    splitter_ranks1 128 nat_less nat_less
      (iter ((List.range 130).map (· + 20)) (fun _ => 0)) 130 (iter [400] (fun _ => 0))
      = [0, 129] ∧
    splitter_ranks2 128 nat_less nat_less
      (iter ((List.range 130).map (· + 20)) (fun _ => 0)) 130 (iter [400] (fun _ => 0)) 1
      = [1, 0] ∧
    partition_begin [0, 129] 2 + partition_begin [1, 0] 2 = 129 ∧
    (partition_end [0, 129] 130 3 0 - partition_begin [0, 129] 0)
      + (partition_end [1, 0] 1 3 0 - partition_begin [1, 0] 0)
      + (partition_end [0, 129] 130 3 1 - partition_begin [0, 129] 1)
      + (partition_end [1, 0] 1 3 1 - partition_begin [1, 0] 1) = 130 ∧
    load (merge_kernel 128 3 1 (iter ((List.range 130).map (· + 20)) (fun _ => 0)) 130
        (iter [400] (fun _ => 0)) 1 [0, 129] [1, 0] (fun _ => 0) 0 nat_less) 0 131
      = 0 :: (List.range 129).map (· + 20) ++ [0] ∧
    load (merge_kernel 128 3 2 (iter ((List.range 130).map (· + 20)) (fun _ => 0)) 130
        (iter [400] (fun _ => 0)) 1 [0, 129] [1, 0] (fun _ => 0) 0 nat_less) 0 131
      = List.replicate 129 0 ++ [149, 400] := by
  decide

/-! ## Evaluations for the sampler, the comparison and the launch -/

/-- Witness of `no_splitters`: a first input of 100 elements and a second
input of 500 elements. -/
theorem no_splitters_witness :
    ((100 : Nat) = 0 ∨ (500 : Nat) = 0 ∨ 100 ≤ 128) ∧
    (splitter_set nat_less (fun i => i) 100 (fun i => 2 * i) 500 = [] ∧
      (0 < 100 → 0 < 500 →
        (merge nat_less nat_less (fun i => i) 100 (fun i => 2 * i) 500 (fun _ => 0) 0).1
          = merge_kernel_launch 128 nat_less nat_less (fun i => i) 100 (fun i => 2 * i) 500
              (fun _ => 0) 0 [0])) :=
  ⟨by decide,
   no_splitters nat_less nat_less (fun i => i) 100 (fun i => 2 * i) 500 (fun _ => 0) 0
    (by decide)⟩

/-- C13, as stated, fails on `A = [30, 31, ..., 159]` and `B = [500]`, where
`B` is the first element of a buffer that holds 0 from there on: the second
input is shorter than 128, and `merge` computes the two splitters
`(first2[128], 130 + 128)` and `(first1[128], 128)`. -/
theorem splitters_for_short_second_input :
    scalar.is_sorted nat_less (iter ((List.range 130).map (· + 30)) (fun _ => 0)) 130 = true ∧
    scalar.is_sorted nat_less (iter [500] (fun _ => 0)) 1 = true ∧
    (1 : Nat) < 128 ∧
    splitter_set nat_less (iter ((List.range 130).map (· + 30)) (fun _ => 0)) 130
        (iter [500] (fun _ => 0)) 1
      = [(0, 258), (158, 128)] ∧
    splitter_set nat_less (iter ((List.range 130).map (· + 30)) (fun _ => 0)) 130
        (iter [500] (fun _ => 0)) 1
      ≠ [] := by
  decide

/-- C11: under less-than, `A = [1, 4, 5]` and `B = [3]` are sorted and their
tagged elements are `(1, 0)`, `(4, 1)`, `(5, 2)` and `(3, 3)`.  The comparison
`strong_compare` holds in both directions between `(5, 2)` and `(3, 3)`, so it
is not asymmetric, and it holds from `(5, 2)` to `(3, 3)` and from `(3, 3)` to
`(4, 1)` but not from `(5, 2)` to `(4, 1)`, so it is not transitive. -/
theorem strong_compare_not_an_order :
    StrictWeakOrdering nat_less ∧
    scalar.is_sorted nat_less (iter [1, 4, 5] (fun _ => 0)) 3 = true ∧
    scalar.is_sorted nat_less (iter [3] (fun _ => 0)) 1 = true ∧
    load (zip_counter (iter [1, 4, 5] (fun _ => 0)) 0) 0 3 = [(1, 0), (4, 1), (5, 2)] ∧
    load (zip_counter (iter [3] (fun _ => 0)) 3) 0 1 = [(3, 3)] ∧
    (strong_compare nat_less (5, 2) (3, 3) = true ∧
      strong_compare nat_less (3, 3) (5, 2) = true) ∧
    (strong_compare nat_less (5, 2) (3, 3) = true ∧
      strong_compare nat_less (3, 3) (4, 1) = true ∧
      strong_compare nat_less (5, 2) (4, 1) = false) :=
  ⟨nat_less_strictWeakOrdering, by decide⟩

/-- Witness of `splitter_sampler`: 300 and 200 elements, three blocks of the
first input. -/
theorem splitter_sampler_witness :
    (0 < 300 ∧ 0 < 200 ∧ ceil_div 300 128 = 3) ∧
    ((splitters_of (zip_counter (fun i => i) 0) 128 (ceil_div 300 128 - 1)).length
        = ceil_div 300 128 - 1 ∧
    (splitters_of (zip_counter (fun i => 2 * i) 300) 128 (ceil_div 300 128 - 1)).length
      = ceil_div 300 128 - 1 ∧
    (∀ i, 1 ≤ i → i < ceil_div 300 128 →
      i * 128 < 300 ∧
      (splitters_of (zip_counter (fun i => i) 0) 128 (ceil_div 300 128 - 1))[i - 1]?
        = some ((fun i => i) (i * 128), i * 128) ∧
      (splitters_of (zip_counter (fun i => 2 * i) 300) 128 (ceil_div 300 128 - 1))[i - 1]?
        = some ((fun i => 2 * i) (i * 128), 300 + i * 128)) ∧
    splitters 128 nat_less (fun i => i) 300 (fun i => 2 * i)
      = make_merge_iterator nat_less
          (splitters_of (zip_counter (fun i => i) 0) 128 (ceil_div 300 128 - 1))
          (splitters_of (zip_counter (fun i => 2 * i) 300) 128 (ceil_div 300 128 - 1)) ∧
    (splitters 128 nat_less (fun i => i) 300 (fun i => 2 * i)).length
      = 2 * (ceil_div 300 128 - 1) ∧
    (splitter_ranks1 128 nat_less nat_less (fun i => i) 300 (fun i => 2 * i)).length
      = 2 * (ceil_div 300 128 - 1) ∧
    (splitter_ranks2 128 nat_less nat_less (fun i => i) 300 (fun i => 2 * i) 200).length
      = 2 * (ceil_div 300 128 - 1) ∧
    (merge nat_less nat_less (fun i => i) 300 (fun i => 2 * i) 200 (fun _ => 0) 0).1
      = merge_kernel_launch 128 nat_less nat_less (fun i => i) 300 (fun i => 2 * i) 200
          (fun _ => 0) 0 (List.range (2 * (ceil_div 300 128 - 1) + 1)) ∧
    (List.range (2 * (ceil_div 300 128 - 1) + 1)).length = 2 * (ceil_div 300 128 - 1) + 1) :=
  ⟨by decide,
   splitter_sampler nat_less nat_less (fun i => i) 300 (fun i => 2 * i) 200 (fun _ => 0) 0
    (by decide) (by decide)⟩

/-- C14: the caller's comparator is greater-than and the inputs are sorted
under it: `A = [138, 137, ..., 10]` and `B = [148, 147, ..., 20]`, 129
elements each.  The samples are `(10, 128)` from `A` and `(20, 257)` from `B`;
the Splitter Set, merged under less-than of the pairs, is `(10, 128)` followed
by `(20, 257)`, although `(20, 257)` precedes `(10, 128)` in the tagged order
of greater-than.  The ranks `129, 119` in `A` then decrease, the partitions 0
and 2 overlap, and when block 0 runs last the output ends in `11, 10, 20`. -/
theorem splitters_ignore_comparator :
    StrictWeakOrdering nat_greater ∧
    scalar.is_sorted nat_greater (iter ((List.range 129).map (138 - ·)) (fun _ => 0)) 129 = true ∧
    scalar.is_sorted nat_greater (iter ((List.range 129).map (148 - ·)) (fun _ => 0)) 129 = true ∧
    splitters 128 nat_less (iter ((List.range 129).map (138 - ·)) (fun _ => 0)) 129
        (iter ((List.range 129).map (148 - ·)) (fun _ => 0))
      = [(10, 128), (20, 257)] ∧
    tagged_less nat_greater (20, 257) (10, 128) = true ∧
    splitter_ranks1 128 nat_less nat_greater
        (iter ((List.range 129).map (138 - ·)) (fun _ => 0)) 129
        (iter ((List.range 129).map (148 - ·)) (fun _ => 0))
      = [129, 119] ∧
    (load (merge_kernel_launch 128 nat_less nat_greater
          (iter ((List.range 129).map (138 - ·)) (fun _ => 0)) 129
          (iter ((List.range 129).map (148 - ·)) (fun _ => 0)) 129 (fun _ => 0) 0 [2, 1, 0])
        0 258).drop 255
      = [11, 10, 20] :=
  ⟨by
    constructor
    · intro a; simp [nat_greater]
    · intro a b c; simp only [nat_greater, decide_eq_true_eq]; omega
    · intro a b c; simp only [nat_greater, decide_eq_false_iff_not]; omega,
   by decide⟩

/-- C15: the output depends on the order of the blocks.  On the sorted inputs
`A = [30, 31, ..., 159]` and `B = [500]`, where `B` is the first element of a
buffer that holds 0 from there on, the blocks 1 and 2 both write position 129:
run in the order 0, 1, 2 it ends up holding `A[129] = 159`, and in the order
0, 2, 1 it holds `A[128] = 158`.  The same happens without any read outside
the inputs when the comparator is greater-than, on the inputs
`A = [138, ..., 10]` and `B = [148, ..., 20]`. -/
theorem launch_depends_on_block_order :
    scalar.is_sorted nat_less (iter ((List.range 130).map (· + 30)) (fun _ => 0)) 130 = true ∧
    scalar.is_sorted nat_less (iter [500] (fun _ => 0)) 1 = true ∧
    (merge nat_less nat_less (iter ((List.range 130).map (· + 30)) (fun _ => 0)) 130
        (iter [500] (fun _ => 0)) 1 (fun _ => 0) 0).1
      = merge_kernel_launch 128 nat_less nat_less
          (iter ((List.range 130).map (· + 30)) (fun _ => 0)) 130
          (iter [500] (fun _ => 0)) 1 (fun _ => 0) 0 [0, 1, 2] ∧
    load (merge_kernel_launch 128 nat_less nat_less
          (iter ((List.range 130).map (· + 30)) (fun _ => 0)) 130
          (iter [500] (fun _ => 0)) 1 (fun _ => 0) 0 [0, 1, 2]) 0 131
      = 500 :: (List.range 128).map (· + 30) ++ [159, 500] ∧
    load (merge_kernel_launch 128 nat_less nat_less
          (iter ((List.range 130).map (· + 30)) (fun _ => 0)) 130
          (iter [500] (fun _ => 0)) 1 (fun _ => 0) 0 [0, 2, 1]) 0 131
      = 500 :: (List.range 129).map (· + 30) ++ [500] ∧
    load (merge_kernel_launch 128 nat_less nat_greater
          (iter ((List.range 129).map (138 - ·)) (fun _ => 0)) 129
          (iter ((List.range 129).map (148 - ·)) (fun _ => 0)) 129 (fun _ => 0) 0 [0, 1, 2]) 0 258
      ≠ load (merge_kernel_launch 128 nat_less nat_greater
          (iter ((List.range 129).map (138 - ·)) (fun _ => 0)) 129
          (iter ((List.range 129).map (148 - ·)) (fun _ => 0)) 129 (fun _ => 0) 0 [2, 1, 0]) 0 258 := by
  refine ⟨by decide, by decide, rfl, by decide, by decide, by decide⟩

/-- C16: on the sorted inputs `A = [9]` and `B` = 130 twos the one partition
has a slice of 130 elements of `B`.  Its block merges `A` with the first 128
of them and copies the two leftovers after the 9: the output range of the
partition is 128 twos, 9, 2, 2, which is not sorted. -/
theorem remainder_copy_unsorted :
    scalar.is_sorted nat_less (iter [9] (fun _ => 0)) 1 = true ∧
    scalar.is_sorted nat_less (iter (List.replicate 130 2) (fun _ => 0)) 130 = true ∧
    splitter_ranks1 128 nat_less nat_less (iter [9] (fun _ => 0)) 1
      (iter (List.replicate 130 2) (fun _ => 0)) = [] ∧
    splitter_ranks2 128 nat_less nat_less (iter [9] (fun _ => 0)) 1
      (iter (List.replicate 130 2) (fun _ => 0)) 130 = [] ∧
    partition_end [] 130 1 0 - partition_begin [] 0 = 130 ∧
    output (merge nat_less nat_less (iter [9] (fun _ => 0)) 1
        (iter (List.replicate 130 2) (fun _ => 0)) 130 (fun _ => 0) 0) 0
      = List.replicate 128 2 ++ [9, 2, 2] ∧
    load (merge_kernel 128 1 0 (iter [9] (fun _ => 0)) 1
        (iter (List.replicate 130 2) (fun _ => 0)) 130 [] [] (fun _ => 0) 0 nat_less) 0 131
      = List.replicate 128 2 ++ [9, 2, 2] ∧
    nat_less 2 9 = true ∧
    scalar.is_sorted nat_less (merge_kernel 128 1 0 (iter [9] (fun _ => 0)) 1
        (iter (List.replicate 130 2) (fun _ => 0)) 130 [] [] (fun _ => 0) 0 nat_less) 131
      = false := by
  decide

/-- Witness of `small_inputs_single_partition`: the example of §8,
`A = [1, 3, 5, 7]` and `B = [2, 4, 6, 8]` under less-than, whose output is
`[1, 2, 3, 4, 5, 6, 7, 8]`. -/
theorem small_inputs_single_partition_witness :
    (0 < 4 ∧ 4 ≤ 128 ∧
      block.merge nat_less (load (iter [1, 3, 5, 7] (fun _ => 0)) 0 4)
        (load (iter [2, 4, 6, 8] (fun _ => 0)) 0 4) = [1, 2, 3, 4, 5, 6, 7, 8]) ∧
    (splitters 128 nat_less (iter [1, 3, 5, 7] (fun _ => 0)) 4 (iter [2, 4, 6, 8] (fun _ => 0))
        = [] ∧
    (merge nat_less nat_less (iter [1, 3, 5, 7] (fun _ => 0)) 4
        (iter [2, 4, 6, 8] (fun _ => 0)) 4 (fun _ => 0) 0).1
      = merge_kernel_launch 128 nat_less nat_less (iter [1, 3, 5, 7] (fun _ => 0)) 4
          (iter [2, 4, 6, 8] (fun _ => 0)) 4 (fun _ => 0) 0 [0] ∧
    (partition_begin (splitter_ranks1 128 nat_less nat_less (iter [1, 3, 5, 7] (fun _ => 0)) 4
        (iter [2, 4, 6, 8] (fun _ => 0))) 0 = 0 ∧
      partition_end (splitter_ranks1 128 nat_less nat_less (iter [1, 3, 5, 7] (fun _ => 0)) 4
        (iter [2, 4, 6, 8] (fun _ => 0))) 4 1 0 = 4 ∧
      partition_begin (splitter_ranks2 128 nat_less nat_less (iter [1, 3, 5, 7] (fun _ => 0)) 4
        (iter [2, 4, 6, 8] (fun _ => 0)) 4) 0 = 0 ∧
      partition_end (splitter_ranks2 128 nat_less nat_less (iter [1, 3, 5, 7] (fun _ => 0)) 4
        (iter [2, 4, 6, 8] (fun _ => 0)) 4) 4 1 0 = 4) ∧
    output (merge nat_less nat_less (iter [1, 3, 5, 7] (fun _ => 0)) 4
        (iter [2, 4, 6, 8] (fun _ => 0)) 4 (fun _ => 0) 0) 0
      = block.merge nat_less (load (iter [1, 3, 5, 7] (fun _ => 0)) 0 4)
          (load (iter [2, 4, 6, 8] (fun _ => 0)) 0 4)) :=
  ⟨by decide,
   small_inputs_single_partition nat_less nat_less (iter [1, 3, 5, 7] (fun _ => 0)) 4
    (iter [2, 4, 6, 8] (fun _ => 0)) 4 (fun _ => 0) 0
    (by decide) (by decide) (by decide) (by decide)⟩

/-- Witness of `merge_same_blocks`: `A = [0, 2, ..., 258]` and
`B = [1, 3, ..., 259]`, 130 elements and two blocks each. -/
theorem merge_same_blocks_witness :
    (scalar.is_sorted nat_less (iter ((List.range 130).map (2 * ·)) (fun _ => 0)) 130 = true ∧
      scalar.is_sorted nat_less (iter ((List.range 130).map (2 * · + 1)) (fun _ => 0)) 130 = true ∧
      ceil_div 130 128 = ceil_div 130 128) ∧
    (output (merge nat_less nat_less (iter ((List.range 130).map (2 * ·)) (fun _ => 0)) 130
        (iter ((List.range 130).map (2 * · + 1)) (fun _ => 0)) 130 (fun _ => 0) 0) 0
      = sequential_merge nat_less
          (load (iter ((List.range 130).map (2 * ·)) (fun _ => 0)) 0 130)
          (load (iter ((List.range 130).map (2 * · + 1)) (fun _ => 0)) 0 130) ∧
    (output (merge nat_less nat_less (iter ((List.range 130).map (2 * ·)) (fun _ => 0)) 130
        (iter ((List.range 130).map (2 * · + 1)) (fun _ => 0)) 130 (fun _ => 0) 0) 0).Pairwise
      (fun a b => nat_less b a = false) ∧
    (output (merge nat_less nat_less (iter ((List.range 130).map (2 * ·)) (fun _ => 0)) 130
        (iter ((List.range 130).map (2 * · + 1)) (fun _ => 0)) 130 (fun _ => 0) 0) 0).Perm
      (load (iter ((List.range 130).map (2 * ·)) (fun _ => 0)) 0 130
        ++ load (iter ((List.range 130).map (2 * · + 1)) (fun _ => 0)) 0 130) ∧
    (∀ order : List Nat, order.Perm (List.range (2 * (ceil_div 130 128 - 1) + 1)) →
      merge_kernel_launch 128 nat_less nat_less
          (iter ((List.range 130).map (2 * ·)) (fun _ => 0)) 130
          (iter ((List.range 130).map (2 * · + 1)) (fun _ => 0)) 130 (fun _ => 0) 0 order
        = (merge nat_less nat_less (iter ((List.range 130).map (2 * ·)) (fun _ => 0)) 130
            (iter ((List.range 130).map (2 * · + 1)) (fun _ => 0)) 130 (fun _ => 0) 0).1 ∧
      load (merge_kernel_launch 128 nat_less nat_less
          (iter ((List.range 130).map (2 * ·)) (fun _ => 0)) 130
          (iter ((List.range 130).map (2 * · + 1)) (fun _ => 0)) 130 (fun _ => 0) 0 order) 0
          (130 + 130)
        = sequential_merge nat_less
            (load (iter ((List.range 130).map (2 * ·)) (fun _ => 0)) 0 130)
            (load (iter ((List.range 130).map (2 * · + 1)) (fun _ => 0)) 0 130))) :=
  ⟨by decide,
   merge_same_blocks nat_less nat_less_strictWeakOrdering
    (iter ((List.range 130).map (2 * ·)) (fun _ => 0)) 130
    (iter ((List.range 130).map (2 * · + 1)) (fun _ => 0)) 130 (fun _ => 0) 0
    (by decide) (by decide) (by decide) (by decide) rfl⟩

/-! ## The function `is_sorted` -/

/-- C24: `scalar::is_sorted` returns true exactly when no element of the
range compares before its predecessor.  It returns true on every range of
length 0 or 1, and false when some adjacent pair is out of order; the loop
stops at the first such pair, whatever follows it. -/
theorem is_sorted_exact (comp : α → α → Bool) (it : Nat → α) (n : Nat) :
    (scalar.is_sorted comp it n = true ↔
      ∀ i, i + 1 < n → comp (it (i + 1)) (it i) = false) ∧
    (n ≤ 1 → scalar.is_sorted comp it n = true) ∧
    (∀ i, i + 1 < n → comp (it (i + 1)) (it i) = true → scalar.is_sorted comp it n = false) ∧
    (∀ fuel first, first + 1 < n → comp (it (first + 1)) (it first) = true →
      scalar.is_sorted_loop comp it n (fuel + 1) first (first + 1) = false) := by
  refine ⟨is_sorted_iff comp it n, ?_, ?_, ?_⟩
  · intro hn
    rw [is_sorted_iff]
    intro i hi
    omega
  · intro i hi hc
    cases h : scalar.is_sorted comp it n with
    | false => rfl
    | true =>
      have := (is_sorted_iff comp it n).mp h i hi
      rw [hc] at this
      exact absurd this (by simp)
  · intro fuel first hlt hc
    simp [scalar.is_sorted_loop, hlt, hc]

/-! ## The exact ranks -/

/-- C21: the rank pairs for inputs sorted under a strict weak ordering (such
as less-than).  A splitter taken from the first range at index `j` has rank
`j + 1` in the first range, and its rank in the second range is the number of
elements of the second range that compare before its value.  A splitter
taken from the second range at an index `j` of that range has rank `j` in the
second range, and its rank in the first range is the number of elements of
the first range that its value does not compare before.  Every splitter of
`merge` is of one of the two kinds when all sampled indices are in range. -/
theorem exact_rank_pairs (less comp : α → α → Bool) (hcomp : StrictWeakOrdering comp)
    (first1 : Nat → α) (n1 : Nat) (first2 : Nat → α) (n2 : Nat)
    (h1 : scalar.is_sorted comp first1 n1 = true) (h2 : scalar.is_sorted comp first2 n2 = true)
    (hrange : ∀ i, 1 ≤ i → i < ceil_div n1 128 → 128 * i < n2) :
    (∀ j, j < n1 →
      scalar.upper_bound (strong_compare comp) (zip_counter first1 0) n1 (zip_counter first1 0 j)
        = j + 1 ∧
      scalar.lower_bound (strong_compare comp) (zip_counter first2 n1) n2 (zip_counter first1 0 j)
        = (load first2 0 n2).countP (fun b => comp b (first1 j))) ∧
    (∀ j, j < n2 →
      scalar.lower_bound (strong_compare comp) (zip_counter first2 n1) n2 (zip_counter first2 n1 j)
        = j ∧
      scalar.upper_bound (strong_compare comp) (zip_counter first1 0) n1 (zip_counter first2 n1 j)
        = (load first1 0 n1).countP (fun a => !comp (first2 j) a)) ∧
    (∀ s, s ∈ splitters 128 less first1 n1 first2 →
      ∃ i, 1 ≤ i ∧ i < ceil_div n1 128 ∧
        ((s = zip_counter first1 0 (128 * i) ∧ 128 * i < n1) ∨
          (s = zip_counter first2 n1 (128 * i) ∧ 128 * i < n2))) ∧
    splitter_ranks1 128 less comp first1 n1 first2
      = (splitters 128 less first1 n1 first2).map
          (scalar.upper_bound (strong_compare comp) (zip_counter first1 0) n1) ∧
    splitter_ranks2 128 less comp first1 n1 first2 n2
      = (splitters 128 less first1 n1 first2).map
          (scalar.lower_bound (strong_compare comp) (zip_counter first2 n1) n2) := by
  refine ⟨?_, ?_, ?_, rfl, rfl⟩
  · intro j hj
    refine ⟨rank_in_first_of_first hcomp h1 j hj, ?_⟩
    rw [lower_bound_eq_countP _ _ _ _ (fun i => comp (first2 i) (first1 j)), countP_load]
    · intro i hi
      simp only [strong_compare, zip_counter, Nat.zero_add]
      have : ¬ (n1 + i < j) := by omega
      simp [this]
    · intro i k hik hk h
      cases hc : comp (first2 i) (first1 j) with
      | true => rfl
      | false =>
        have := hcomp.not_before_trans _ _ _ (is_sorted_pairwise hcomp h2 i k hik hk) hc
        rw [h] at this
        exact absurd this (by simp)
  · intro j hj
    refine ⟨rank_in_second_of_second hcomp n1 h2 j hj, ?_⟩
    rw [upper_bound_eq_countP _ _ _ _ (fun i => comp (first2 j) (first1 i)), countP_load]
    · intro i hi
      simp only [strong_compare, zip_counter, Nat.zero_add]
      have : ¬ (n1 + j < i) := by omega
      simp [this]
    · intro i k hik hk h
      cases hc : comp (first2 j) (first1 k) with
      | true => rfl
      | false =>
        have := hcomp.not_before_trans _ _ _ hc (is_sorted_pairwise hcomp h1 i k hik hk)
        rw [h] at this
        exact absurd this (by simp)
  · intro s hs
    obtain ⟨i, hi, h | h⟩ := mem_splitters 128 less first1 n1 first2 s hs
    · exact ⟨i + 1, by omega, by omega, Or.inl ⟨h, sample_index_lt n1 i hi⟩⟩
    · exact ⟨i + 1, by omega, by omega, Or.inr ⟨h, hrange (i + 1) (by omega) (by omega)⟩⟩

/-! ## The order across the partition boundaries -/

theorem mem_take_or_drop (k : Nat) (X : List α) (x : α) :
    x ∈ X ↔ x ∈ X.take k ∨ x ∈ X.drop k := by
  rw [← List.mem_append, List.take_append_drop]

theorem mem_partition_output (block_size : Nat) (comp : α → α → Bool) (X Y : List α) (x : α) :
    x ∈ partition_output block_size comp X Y ↔ x ∈ X ∨ x ∈ Y := by
  unfold partition_output
  split
  · rw [List.mem_append, List.mem_append, mem_two_way_merge, mem_take_or_drop block_size X,
      mem_take_or_drop block_size Y]
    tauto
  · exact List.mem_append

/-- The elements of a slice are the elements of the input at the indices of
the partition. -/
theorem mem_partition_slice (first : Nat → α) (R : List Nat) (last grid p : Nat) (x : α) :
    x ∈ partition_slice first R last grid p ↔
      ∃ k, partition_begin R p ≤ k ∧ k < partition_end R last grid p ∧ x = first k := by
  unfold partition_slice
  rw [mem_load]
  constructor
  · rintro ⟨i, hi, rfl⟩
    exact ⟨partition_begin R p + i, by omega, by omega, rfl⟩
  · rintro ⟨k, hk1, hk2, rfl⟩
    exact ⟨k - partition_begin R p, by omega, by congr 1; omega⟩

/-- C22: inputs sorted under less-than (a strict weak ordering `less`, used
as the comparator) with every sampled index in range.  For a splitter
boundary `i`, a partition `p` up to the boundary and a partition `q` after it,
no element of the slices of `q` compares before an element of the slices of
`p`; the same holds for the elements that the blocks of `q` and `p` write, so
no smaller element follows a larger one across the boundary.  The last part
states what a block writes: the output of its two slices, from the output
offset of its partition on. -/
theorem cross_partition_order (less : α → α → Bool) (hless : StrictWeakOrdering less)
    (first1 : Nat → α) (n1 : Nat) (first2 : Nat → α) (n2 : Nat)
    (h1 : scalar.is_sorted less first1 n1 = true) (h2 : scalar.is_sorted less first2 n2 = true)
    (hrange : ∀ i, 1 ≤ i → i < ceil_div n1 128 → 128 * i < n2)
    (i p q : Nat) (hp : p ≤ i) (hq : i < q) (hq2 : q ≤ 2 * (ceil_div n1 128 - 1)) :
    (∀ x y,
      (x ∈ partition_slice first1 (splitter_ranks1 128 less less first1 n1 first2) n1
            (2 * (ceil_div n1 128 - 1) + 1) q ∨
        x ∈ partition_slice first2 (splitter_ranks2 128 less less first1 n1 first2 n2) n2
            (2 * (ceil_div n1 128 - 1) + 1) q) →
      (y ∈ partition_slice first1 (splitter_ranks1 128 less less first1 n1 first2) n1
            (2 * (ceil_div n1 128 - 1) + 1) p ∨
        y ∈ partition_slice first2 (splitter_ranks2 128 less less first1 n1 first2 n2) n2
            (2 * (ceil_div n1 128 - 1) + 1) p) →
      less x y = false) ∧
    (∀ x y,
      x ∈ partition_output 128 less
          (partition_slice first1 (splitter_ranks1 128 less less first1 n1 first2) n1
            (2 * (ceil_div n1 128 - 1) + 1) q)
          (partition_slice first2 (splitter_ranks2 128 less less first1 n1 first2 n2) n2
            (2 * (ceil_div n1 128 - 1) + 1) q) →
      y ∈ partition_output 128 less
          (partition_slice first1 (splitter_ranks1 128 less less first1 n1 first2) n1
            (2 * (ceil_div n1 128 - 1) + 1) p)
          (partition_slice first2 (splitter_ranks2 128 less less first1 n1 first2 n2) n2
            (2 * (ceil_div n1 128 - 1) + 1) p) →
      less x y = false) ∧
    (∀ (b : Nat) (out : Nat → α) (result : Nat),
      merge_kernel 128 (2 * (ceil_div n1 128 - 1) + 1) b first1 n1 first2 n2
          (splitter_ranks1 128 less less first1 n1 first2)
          (splitter_ranks2 128 less less first1 n1 first2 n2) out result less
        = (copy
            (partition_output 128 less
              (partition_slice first1 (splitter_ranks1 128 less less first1 n1 first2) n1
                (2 * (ceil_div n1 128 - 1) + 1) b)
              (partition_slice first2 (splitter_ranks2 128 less less first1 n1 first2 n2) n2
                (2 * (ceil_div n1 128 - 1) + 1) b))
            out
            (result + partition_begin (splitter_ranks1 128 less less first1 n1 first2) b
              + partition_begin (splitter_ranks2 128 less less first1 n1 first2 n2) b)).1) := by
  have hS := splitters_length 128 less first1 n1 first2
  have hl1 := splitter_ranks1_length 128 less less first1 n1 first2
  have hl2 := splitter_ranks2_length 128 less less first1 n1 first2 n2
  have hs1 := splitter_ranks1_sorted hless h1 h2 hrange
  have hs2 := splitter_ranks2_sorted hless h1 h2 hrange
  have hb1 := splitter_ranks1_le hless h1 h2 hrange
  have hb2 := splitter_ranks2_le hless h1 h2 hrange
  have hg1 : 2 * (ceil_div n1 128 - 1) + 1
      = (splitter_ranks1 128 less less first1 n1 first2).length + 1 := by rw [hl1]
  have hg2 : 2 * (ceil_div n1 128 - 1) + 1
      = (splitter_ranks2 128 less less first1 n1 first2 n2).length + 1 := by rw [hl2]
  have hiS : i < (splitters 128 less first1 n1 first2).length := by rw [hS]; omega
  obtain ⟨sA1, sA2⟩ := partition_sides _ n1 _ hg1 hs1 i p q (by rw [hl1]; omega) hp hq
    (by rw [hl1]; exact hq2)
  obtain ⟨sB1, sB2⟩ := partition_sides _ n2 _ hg2 hs2 i p q (by rw [hl2]; omega) hp hq
    (by rw [hl2]; exact hq2)
  obtain ⟨_, bA⟩ := partition_bounds _ n1 _ hg1 hs1 hb1 q (by rw [hl1]; exact hq2)
  obtain ⟨_, bB⟩ := partition_bounds _ n2 _ hg2 hs2 hb2 q (by rw [hl2]; exact hq2)
  have hi1 : i < (splitter_ranks1 128 less less first1 n1 first2).length := by rw [hl1]; omega
  have hi2 : i < (splitter_ranks2 128 less less first1 n1 first2 n2).length := by
    rw [hl2]; omega
  have e1 : (splitter_ranks1 128 less less first1 n1 first2)[i]
      = scalar.upper_bound (strong_compare less) (zip_counter first1 0) n1
          ((splitters 128 less first1 n1 first2)[i]) := by
    simp [splitter_ranks1, upper_bound]
  have e2 : (splitter_ranks2 128 less less first1 n1 first2 n2)[i]
      = scalar.lower_bound (strong_compare less) (zip_counter first2 n1) n2
          ((splitters 128 less first1 n1 first2)[i]) := by
    simp [splitter_ranks2, lower_bound]
  rw [e1] at sA1 sA2
  rw [e2] at sB1 sB2
  have hwp := splitter_well_placed hless less h1 h2 hrange _ (List.getElem_mem hiS)
  obtain ⟨c1, c2⟩ := splitter_cut hless h1 h2 _ hwp.1 hwp.2
  have main : ∀ x y,
      (x ∈ partition_slice first1 (splitter_ranks1 128 less less first1 n1 first2) n1
            (2 * (ceil_div n1 128 - 1) + 1) q ∨
        x ∈ partition_slice first2 (splitter_ranks2 128 less less first1 n1 first2 n2) n2
            (2 * (ceil_div n1 128 - 1) + 1) q) →
      (y ∈ partition_slice first1 (splitter_ranks1 128 less less first1 n1 first2) n1
            (2 * (ceil_div n1 128 - 1) + 1) p ∨
        y ∈ partition_slice first2 (splitter_ranks2 128 less less first1 n1 first2 n2) n2
            (2 * (ceil_div n1 128 - 1) + 1) p) →
      less x y = false := by
    intro x y hx hy
    rcases hx with hx | hx
    · obtain ⟨kx, hx1, hx2, rfl⟩ := (mem_partition_slice _ _ _ _ _ _).mp hx
      rcases hy with hy | hy
      · obtain ⟨ky, hy1, hy2, rfl⟩ := (mem_partition_slice _ _ _ _ _ _).mp hy
        exact is_sorted_pairwise hless h1 ky kx (by omega) (by omega)
      · obtain ⟨ky, hy1, hy2, rfl⟩ := (mem_partition_slice _ _ _ _ _ _).mp hy
        exact hless.asymm _ _ (c2 kx ky (by omega) (by omega) (by omega))
    · obtain ⟨kx, hx1, hx2, rfl⟩ := (mem_partition_slice _ _ _ _ _ _).mp hx
      rcases hy with hy | hy
      · obtain ⟨ky, hy1, hy2, rfl⟩ := (mem_partition_slice _ _ _ _ _ _).mp hy
        exact c1 ky kx (by omega) (by omega) (by omega)
      · obtain ⟨ky, hy1, hy2, rfl⟩ := (mem_partition_slice _ _ _ _ _ _).mp hy
        exact is_sorted_pairwise hless h2 ky kx (by omega) (by omega)
  refine ⟨main, ?_, ?_⟩
  · intro x y hx hy
    rw [mem_partition_output] at hx hy
    exact main x y hx hy
  · intro b out result
    exact merge_kernel_writes 128 _ b first1 n1 first2 n2 _ _ out result less

/-- Witness of `exact_rank_pairs`: `A = [0, 1, ..., 199]` and
`B = [0, 2, ..., 298]`, given by their iterators, under less-than; the one
index sampled from `B` is 128. -/
theorem exact_rank_pairs_witness :
    (scalar.is_sorted nat_less (fun i => i) 200 = true ∧
      scalar.is_sorted nat_less (fun i => 2 * i) 150 = true ∧
      ceil_div 200 128 = 2 ∧ 128 * 1 < 150) ∧
    ((∀ j, j < 200 →
      scalar.upper_bound (strong_compare nat_less) (zip_counter (fun i => i) 0) 200
          (zip_counter (fun i => i) 0 j)
        = j + 1 ∧
      scalar.lower_bound (strong_compare nat_less) (zip_counter (fun i => 2 * i) 200) 150
          (zip_counter (fun i => i) 0 j)
        = (load (fun i => 2 * i) 0 150).countP (fun b => nat_less b j)) ∧
    (∀ j, j < 150 →
      scalar.lower_bound (strong_compare nat_less) (zip_counter (fun i => 2 * i) 200) 150
          (zip_counter (fun i => 2 * i) 200 j)
        = j ∧
      scalar.upper_bound (strong_compare nat_less) (zip_counter (fun i => i) 0) 200
          (zip_counter (fun i => 2 * i) 200 j)
        = (load (fun i => i) 0 200).countP (fun a => !nat_less (2 * j) a)) ∧
    (∀ s, s ∈ splitters 128 nat_less (fun i => i) 200 (fun i => 2 * i) →
      ∃ i, 1 ≤ i ∧ i < ceil_div 200 128 ∧
        ((s = zip_counter (fun i => i) 0 (128 * i) ∧ 128 * i < 200) ∨
          (s = zip_counter (fun i => 2 * i) 200 (128 * i) ∧ 128 * i < 150))) ∧
    splitter_ranks1 128 nat_less nat_less (fun i => i) 200 (fun i => 2 * i)
      = (splitters 128 nat_less (fun i => i) 200 (fun i => 2 * i)).map
          (scalar.upper_bound (strong_compare nat_less) (zip_counter (fun i => i) 0) 200) ∧
    splitter_ranks2 128 nat_less nat_less (fun i => i) 200 (fun i => 2 * i) 150
      = (splitters 128 nat_less (fun i => i) 200 (fun i => 2 * i)).map
          (scalar.lower_bound (strong_compare nat_less) (zip_counter (fun i => 2 * i) 200) 150)) :=
  ⟨by decide,
   exact_rank_pairs nat_less nat_less nat_less_strictWeakOrdering
    (fun i => i) 200
    (fun i => 2 * i) 150 (by decide) (by decide)
    (by
      intro i h1 h2
      have h3 : ceil_div 200 128 = 2 := by decide
      rw [h3] at h2
      omega)⟩

/-- Witness of `cross_partition_order`: `A = [0, 1, ..., 199]` and
`B = [0, 2, ..., 298]`, given by their iterators, under less-than, with the
first boundary, partition 0 before it and partition 1 after it. -/
theorem cross_partition_order_witness :
    (scalar.is_sorted nat_less (fun i => i) 200 = true ∧
      scalar.is_sorted nat_less (fun i => 2 * i) 150 = true ∧
      ceil_div 200 128 = 2 ∧ 128 * 1 < 150) ∧
    ((0 : Nat) ≤ 0 ∧ (0 : Nat) < 1 ∧ 1 ≤ 2 * (ceil_div 200 128 - 1)) ∧
    ((∀ x y,
      (x ∈ partition_slice (fun i => i)
            (splitter_ranks1 128 nat_less nat_less (fun i => i) 200 (fun i => 2 * i)) 200
            (2 * (ceil_div 200 128 - 1) + 1) 1 ∨
        x ∈ partition_slice (fun i => 2 * i)
            (splitter_ranks2 128 nat_less nat_less (fun i => i) 200 (fun i => 2 * i) 150) 150
            (2 * (ceil_div 200 128 - 1) + 1) 1) →
      (y ∈ partition_slice (fun i => i)
            (splitter_ranks1 128 nat_less nat_less (fun i => i) 200 (fun i => 2 * i)) 200
            (2 * (ceil_div 200 128 - 1) + 1) 0 ∨
        y ∈ partition_slice (fun i => 2 * i)
            (splitter_ranks2 128 nat_less nat_less (fun i => i) 200 (fun i => 2 * i) 150) 150
            (2 * (ceil_div 200 128 - 1) + 1) 0) →
      nat_less x y = false) ∧
    (∀ x y,
      x ∈ partition_output 128 nat_less
          (partition_slice (fun i => i)
            (splitter_ranks1 128 nat_less nat_less (fun i => i) 200 (fun i => 2 * i)) 200
            (2 * (ceil_div 200 128 - 1) + 1) 1)
          (partition_slice (fun i => 2 * i)
            (splitter_ranks2 128 nat_less nat_less (fun i => i) 200 (fun i => 2 * i) 150) 150
            (2 * (ceil_div 200 128 - 1) + 1) 1) →
      y ∈ partition_output 128 nat_less
          (partition_slice (fun i => i)
            (splitter_ranks1 128 nat_less nat_less (fun i => i) 200 (fun i => 2 * i)) 200
            (2 * (ceil_div 200 128 - 1) + 1) 0)
          (partition_slice (fun i => 2 * i)
            (splitter_ranks2 128 nat_less nat_less (fun i => i) 200 (fun i => 2 * i) 150) 150
            (2 * (ceil_div 200 128 - 1) + 1) 0) →
      nat_less x y = false) ∧
    (∀ (b : Nat) (out : Nat → Nat) (result : Nat),
      merge_kernel 128 (2 * (ceil_div 200 128 - 1) + 1) b (fun i => i) 200 (fun i => 2 * i) 150
          (splitter_ranks1 128 nat_less nat_less (fun i => i) 200 (fun i => 2 * i))
          (splitter_ranks2 128 nat_less nat_less (fun i => i) 200 (fun i => 2 * i) 150)
          out result nat_less
        = (copy
            (partition_output 128 nat_less
              (partition_slice (fun i => i)
                (splitter_ranks1 128 nat_less nat_less (fun i => i) 200 (fun i => 2 * i)) 200
                (2 * (ceil_div 200 128 - 1) + 1) b)
              (partition_slice (fun i => 2 * i)
                (splitter_ranks2 128 nat_less nat_less (fun i => i) 200 (fun i => 2 * i) 150) 150
                (2 * (ceil_div 200 128 - 1) + 1) b))
            out
            (result
              + partition_begin
                  (splitter_ranks1 128 nat_less nat_less (fun i => i) 200 (fun i => 2 * i)) b
              + partition_begin
                  (splitter_ranks2 128 nat_less nat_less (fun i => i) 200 (fun i => 2 * i) 150)
                  b)).1)) :=
  ⟨by decide, by decide,
   cross_partition_order nat_less nat_less_strictWeakOrdering
    (fun i => i) 200
    (fun i => 2 * i) 150 (by decide) (by decide)
    (by
      intro i h1 h2
      have h3 : ceil_div 200 128 = 2 := by decide
      rw [h3] at h2
      omega) 0 0 1 (by decide) (by decide) (by decide)⟩

/-! ## The indices sampled from the second range -/

/-- C23: the inputs are `A = [40, 41, ..., 169]` (130 elements) and `B = [600]`
(one element), both non-empty.  `merge` takes `ceil_div 130 128 - 1 = 1`
splitter from each range; the index sampled from the second range is
`1 * 128 = 128`, which is not below `n2 = 1`.  The splitter is the element
`first2[128]` of the storage behind `B`: two storages that hold the same `B`
and differ at index 128 give different splitters, different ranks and
different outputs. -/
theorem second_range_sampled_past_its_end :
    (0 < 130 ∧ 0 < 1) ∧
    ceil_div 130 128 - 1 = 1 ∧
    make_leapfrog_iterator 0 128 1 = 128 ∧
    ¬ (make_leapfrog_iterator 0 128 1 < 1) ∧
    load (iter [600] (fun _ => 0)) 0 1 = load (iter [600] (fun _ => 1000)) 0 1 ∧
    splitters_of (zip_counter (iter [600] (fun _ => 0)) 130) 128 (ceil_div 130 128 - 1)
      = [(0, 258)] ∧
    splitters_of (zip_counter (iter [600] (fun _ => 1000)) 130) 128 (ceil_div 130 128 - 1)
      = [(1000, 258)] ∧
    splitters 128 nat_less (iter ((List.range 130).map (· + 40)) (fun _ => 0)) 130
        (iter [600] (fun _ => 0))
      = [(0, 258), (168, 128)] ∧
    splitters 128 nat_less (iter ((List.range 130).map (· + 40)) (fun _ => 0)) 130
        (iter [600] (fun _ => 1000))
      = [(168, 128), (1000, 258)] ∧
    splitter_ranks2 128 nat_less nat_less
        (iter ((List.range 130).map (· + 40)) (fun _ => 0)) 130 (iter [600] (fun _ => 0)) 1
      = [1, 0] ∧
    splitter_ranks2 128 nat_less nat_less
        (iter ((List.range 130).map (· + 40)) (fun _ => 0)) 130 (iter [600] (fun _ => 1000)) 1
      = [0, 1] ∧
    output (merge nat_less nat_less (iter ((List.range 130).map (· + 40)) (fun _ => 0)) 130
        (iter [600] (fun _ => 0)) 1 (fun _ => 0) 0) 0
      ≠ output (merge nat_less nat_less (iter ((List.range 130).map (· + 40)) (fun _ => 0)) 130
        (iter [600] (fun _ => 1000)) 1 (fun _ => 0) 0) 0 := by
  decide

end thrust
